import Mathlib

/-!
Verification of the srtranslator subtitle pipeline: data model, merger,
splitter, SRT codec (parse/compose), chunk reconciliation and the
workflow status-event stream, shallowly embedded from the Python sources
under `src/`.

Python strings are modelled as `List Char`; `datetime.timedelta` values
are modelled as integers counting microseconds (the resolution of
`timedelta`).
-/

set_option maxRecDepth 10000

/-- Python strings, modelled as lists of characters. -/
abbrev Str := List Char

/-- Shorthand to turn a Lean string literal into the `Str` model. -/
def str (s : String) : Str := s.data

/-- Whitespace predicate used by Python's `str.strip()` / `str.isspace()`
and by the regex class `\s` (ASCII whitespace; the Unicode-only space
characters, which never occur in the inputs considered here, are omitted;
note U+FEFF is NOT whitespace in Python). -/
def isPySpace (c : Char) : Bool :=
  c = ' ' || c = '\t' || c = '\n' || c = '\x0d' || c = '\x0b' || c = '\x0c'

/-- Python `str.strip()`: remove leading and trailing whitespace. -/
def pyStrip (s : Str) : Str :=
  ((s.dropWhile isPySpace).reverse.dropWhile isPySpace).reverse

/-- Python `str.isspace()`: nonempty and all characters whitespace. -/
def pyIsSpace (s : Str) : Bool :=
  !s.isEmpty && s.all isPySpace

/-- `timedelta` values in microseconds. -/
abbrev Time := Int

/-- The subtitle record (`parser.Subtitle`): `index` is `None` or an
integer, `start`/`end` are timedeltas, `content` and `proprietary` are
strings. Python's `end` attribute is called `end_` (`end` is a Lean
keyword). -/
structure Subtitle where
  index : Option Int
  start : Time
  end_ : Time
  content : Str
  proprietary : Str
deriving Repr, DecidableEq

/-! ## Merger (`src/translator/services/subtitle/merger.py`) -/

/-- `timedelta(seconds=0.7)` in microseconds (default `max_pause`). -/
def defaultMaxPause : Time := 700000

/-- `timedelta(seconds=15)` in microseconds (default `max_dur`). -/
def defaultMaxDur : Time := 15000000

/-- The default `punct_end` string `",，.。?？!！"`. -/
def defaultPunctEnd : Str := [',', '，', '.', '。', '?', '？', '!', '！']

/-- Lines 52-59 of `merger.py`: the current content, stripped, is nonempty
and its last character is in `punct_end` (`if punct_end:` makes the check
vacuously false for an empty `punct_end`, which `List.contains`'s
behaviour on `[]` reproduces). -/
def endsWithSentencePunct (punctEnd : Str) (content : Str) : Bool :=
  match (pyStrip content).getLast? with
  | some c => punctEnd.contains c
  | none => false

/-- Lines 65-69 of `merger.py`: merge `next` into `cur` when `cur` does
not end with sentence punctuation, the pause fits `max_pause` and the
prospective total duration fits `max_dur`. -/
def shouldMerge (punctEnd : Str) (maxPause maxDur : Time)
    (cur next : Subtitle) : Bool :=
  !endsWithSentencePunct punctEnd cur.content
    && next.start - cur.end_ ≤ maxPause
    && next.end_ - cur.start ≤ maxDur

/-- Lines 71-86 of `merger.py`: the merged subtitle built from the
accumulated `cur` and the next entry. -/
def combineSubs (cur next : Subtitle) : Subtitle :=
  { index := none
    start := cur.start
    end_ := max cur.end_ next.end_
    content := pyStrip cur.content ++ [' '] ++ pyStrip next.content
    proprietary := cur.proprietary }

/-- The `for next_subtitle in sorted_subtitles[1:]` loop of
`merger.py`, lines 51-91. -/
def mergeLoop (punctEnd : Str) (maxPause maxDur : Time)
    (cur : Subtitle) : List Subtitle → List Subtitle
  | [] => [cur]
  | next :: rest =>
    if shouldMerge punctEnd maxPause maxDur cur next then
      mergeLoop punctEnd maxPause maxDur (combineSubs cur next) rest
    else
      cur :: mergeLoop punctEnd maxPause maxDur next rest

/-- Stable insertion used to model Python's stable
`sorted(subtitles, key=lambda s: s.start)`: an element is inserted after
all earlier elements whose key is less than or equal to its own. -/
def insertByStart (x : Subtitle) : List Subtitle → List Subtitle
  | [] => [x]
  | y :: ys => if y.start ≤ x.start then y :: insertByStart x ys else x :: y :: ys

/-- Python's stable `sorted(subtitles, key=lambda s: s.start)` modelled
as a stable insertion sort (extensionally equal to any stable sort by
the same key). -/
def sortByStart (l : List Subtitle) : List Subtitle :=
  l.foldl (fun acc x => insertByStart x acc) []

/-- `SubtitleMerger.merge` (`merger.py`, lines 10-93). -/
def merge (subtitles : List Subtitle) (maxPause : Time := defaultMaxPause)
    (punctEnd : Str := defaultPunctEnd) (maxDur : Time := defaultMaxDur) :
    List Subtitle :=
  match sortByStart subtitles with
  | [] => []
  | first :: rest => mergeLoop punctEnd maxPause maxDur first rest

/-! ## Serialization (`Subtitle.to_srt`, `parser.py` lines 91-132) -/

/-- The decimal digit characters. -/
def digChar (d : Nat) : Char :=
  match d with
  | 0 => '0' | 1 => '1' | 2 => '2' | 3 => '3' | 4 => '4'
  | 5 => '5' | 6 => '6' | 7 => '7' | 8 => '8' | _ => '9'

/-- Value of a decimal digit character. -/
def digVal (c : Char) : Nat :=
  match c with
  | '0' => 0 | '1' => 1 | '2' => 2 | '3' => 3 | '4' => 4
  | '5' => 5 | '6' => 6 | '7' => 7 | '8' => 8 | '9' => 9
  | _ => 0

/-- `[0-9]` (the regex classes use the ASCII digits only). -/
def isDig (c : Char) : Bool := '0' ≤ c && c ≤ '9'

/-- Python `int(...)` evaluation of a nonempty digit run. -/
def digitsToNat (s : Str) : Nat := s.foldl (fun acc c => acc * 10 + digVal c) 0

/-- Decimal digits of `n`, most significant first (fueled; the fuel
`n + 1` always suffices). -/
def natToStrAux : Nat → Nat → Str
  | 0, _ => []
  | fuel + 1, n =>
    if n < 10 then [digChar n]
    else natToStrAux fuel (n / 10) ++ [digChar (n % 10)]

/-- Python `str(n)` for a natural number. -/
def natToStr (n : Nat) : Str := natToStrAux (n + 1) n

/-- Python `str(i)` for an integer. -/
def intToStr (i : Int) : Str :=
  if i < 0 then '-' :: natToStr (-i).toNat else natToStr i.toNat

/-- Python's zero-padding `f"{v:0wd}"` (the pad goes after the sign). -/
def zpad (w : Nat) (s : Str) : Str :=
  match s with
  | '-' :: rest => '-' :: (List.replicate (w - 1 - rest.length) '0' ++ rest)
  | _ => List.replicate (w - s.length) '0' ++ s

/-- `Subtitle._format_timestamp`: `HH:MM:SS,mmm` from a timedelta.
Python's `timedelta` normalizes to `days` (floor) plus nonnegative
`seconds`/`microseconds`, mirrored here with `Int.fdiv`/`Int.emod`. -/
def formatTimestamp (t : Time) : Str :=
  let days : Int := t.fdiv 86400000000
  let rem : Nat := (t.emod 86400000000).toNat
  let secs : Nat := rem / 1000000
  let micros : Nat := rem % 1000000
  let hrs : Int := (secs / 3600 : Nat) + days * 24
  let mins : Nat := (secs % 3600) / 60
  let s2 : Nat := secs % 60
  let msecs : Nat := micros / 1000
  zpad 2 (intToStr hrs) ++ [':'] ++ zpad 2 (natToStr mins) ++ [':']
    ++ zpad 2 (natToStr s2) ++ [','] ++ zpad 3 (natToStr msecs)

/-- Python `content.split("\n")`. -/
def splitNl : Str → List Str
  | [] => [[]]
  | c :: rest =>
    if c = '\n' then [] :: splitNl rest
    else
      match splitNl rest with
      | [] => [[c]]
      | g :: gs => (c :: g) :: gs

/-- Python `"\n".join(lines)`. -/
def joinNl : List Str → Str
  | [] => []
  | [s] => s
  | s :: rest => s ++ '\n' :: joinNl rest

/-- `Subtitle._clean_content`: strip each line, drop blank lines,
rejoin with `\n`. -/
def cleanContent (content : Str) : Str :=
  joinNl (((splitNl content).map pyStrip).filter (fun l => !l.isEmpty))

/-- `Subtitle.to_srt` with `eol="\n"`: index line (missing index
serializes as `0`), timestamp line with optional ` proprietary` suffix,
content (cleaned when `strict`), one trailing blank line. -/
def toSrt (sub : Subtitle) (strict : Bool := true) : Str :=
  intToStr (sub.index.getD 0) ++ ['\n']
    ++ formatTimestamp sub.start ++ str " --> " ++ formatTimestamp sub.end_
    ++ (if sub.proprietary.isEmpty then [] else ' ' :: sub.proprietary)
    ++ ['\n']
    ++ (if strict then cleanContent sub.content else sub.content)
    ++ ['\n', '\n']

/-! ## Splitter (`src/translator/services/subtitle/splitter.py`)

The token counter (`tiktoken`, external to this repository) is taken as
an abstract function `tok : Str → Nat`, applied — exactly as in the
source — to serialized SRT text.

`split_subtitles` manipulates Python lists by reference: at line 107 the
running `current_chunk` list object is appended to `chunks` and is
afterwards mutated in place (`current_chunk.append(...)`, line 140;
`current_chunk.extend(...)`, lines 103 and 153) and possibly appended
again, so `chunks` can hold live aliases of `current_chunk`. The model
makes this explicit: `chunks` holds `Option` cells where `none` is a
live alias of `current`; an alias is frozen to the then-current value of
`current` whenever the Python name `current_chunk` is rebound. Appends
that are immediately followed by a rebinding (lines 73-77, 79-81,
114-121, 137-138, 155-157, 160) freeze at once and are therefore written
directly as frozen (`some`) cells or as append-then-freeze. -/

/-- `SubtitleSplitter._is_sentence_ender`. -/
def isSentenceEnder (c : Char) : Bool :=
  c = '.' || c = '?' || c = '!' || c = '。' || c = '？' || c = '！'

/-- Lines 87-90 of `splitter.py`: the stripped content is nonempty and
ends in a sentence ender. -/
def isSentenceEnd (content : Str) : Bool :=
  match (pyStrip content).getLast? with
  | some c => isSentenceEnder c
  | none => false

/-- `"".join(s.to_srt() for s in l)`. -/
def srtCat (l : List Subtitle) : Str := (l.map (fun s => toSrt s)).flatten

/-- State of the `split_subtitles` loop: emitted chunks (`none` cells
are live aliases of `current`), the running chunk, and the pending
unfinished-sentence entries. -/
structure SplitState where
  chunks : List (Option (List Subtitle))
  current : List Subtitle
  pending : List Subtitle
deriving Repr

/-- Freeze every live alias of `current_chunk` at its current value
(what happens to `chunks` when the Python name `current_chunk` is
rebound). -/
def freezeChunks (cur : List Subtitle) (cks : List (Option (List Subtitle))) :
    List (Option (List Subtitle)) :=
  cks.map (fun c => some (c.getD cur))

/-- One iteration of the fallback distribution loop
(`splitter.py`, lines 125-140): emit the running chunk when adding the
next pending entry would exceed the budget (lines 137-138 append
`current_chunk` and immediately rebind it, freezing every live alias),
otherwise append in place (line 140, aliases keep tracking). -/
def fallbackStep (tok : Str → Nat) (maxTokens : Nat)
    (acc : List (Option (List Subtitle)) × List Subtitle) (p : Subtitle) :
    List (Option (List Subtitle)) × List Subtitle :=
  let cks := acc.1
  let cur := acc.2
  if !cur.isEmpty && maxTokens < tok (srtCat cur) + tok (toSrt p) then
    (freezeChunks cur (cks ++ [none]), [p])
  else
    (cks, cur ++ [p])

/-- One iteration of the `for sub in subtitles` loop
(`splitter.py`, lines 64-142). -/
def splitStep (tok : Str → Nat) (maxTokens : Nat) (st : SplitState)
    (sub : Subtitle) : SplitState :=
  let subTokens := tok (toSrt sub)
  if maxTokens < subTokens then
    -- lines 70-84: the entry alone exceeds the budget.  After these
    -- lines both `pending_subs` and `current_chunk` are `[]` on every
    -- path; the `if current_chunk:` at lines 79-81 can only fire when
    -- the pending flush at lines 72-77 did not run (that flush rebinds
    -- `current_chunk` to `[]`), so the two sequential `if`s flatten to:
    let flushed :=
      if !st.pending.isEmpty then
        -- lines 72-77: flush current (if any) and pending, then rebind both
        freezeChunks st.current
          (st.chunks ++ (if !st.current.isEmpty then [none] else [])
            ++ [some st.pending])
      else if !st.current.isEmpty then
        -- lines 79-81
        freezeChunks st.current (st.chunks ++ [none])
      else st.chunks
    { chunks := flushed ++ [some [sub]], current := [], pending := [] }
  else
    let sentenceEnd := isSentenceEnd sub.content
    let pending1 := st.pending ++ [sub]          -- line 93
    let allTokens := tok (srtCat (st.current ++ pending1))  -- lines 96-98
    if allTokens ≤ maxTokens then
      if sentenceEnd then
        -- line 103: current_chunk.extend(pending_subs) mutates in place,
        -- live aliases keep tracking it
        { st with current := st.current ++ pending1, pending := [] }
      else
        { st with pending := pending1 }
    else
      -- line 107: chunks.append(current_chunk) — a live alias
      let cks1 := st.chunks ++ (if !st.current.isEmpty then [none] else [])
      let pendingTokens := tok (srtCat pending1)
      if pendingTokens ≤ maxTokens then
        if sentenceEnd then
          -- lines 116-118: append pending as a chunk, rebind both names
          { chunks := freezeChunks st.current (cks1 ++ [some pending1])
            current := [], pending := [] }
        else
          -- lines 120-121: current_chunk = pending_subs (rebinding)
          { chunks := freezeChunks st.current cks1
            current := pending1, pending := [] }
      else
        -- lines 125-142: distribute the oversized pending list greedily;
        -- current_chunk starts as the (still aliased) running chunk
        let dist := pending1.foldl (fallbackStep tok maxTokens) (cks1, st.current)
        { chunks := dist.1, current := dist.2, pending := [] }

/-- Lines 144-161 of `splitter.py`: fold in the leftover pending
entries, emit the final running chunk, and materialize every chunk cell
(any alias still live resolves to the final `current_chunk`). -/
def splitFinish (tok : Str → Nat) (maxTokens : Nat) (st : SplitState) :
    List (List Subtitle) :=
  let st1 :=
    if !st.pending.isEmpty then
      if !st.current.isEmpty
          && tok (srtCat (st.current ++ st.pending)) ≤ maxTokens then
        -- line 153: in-place extend
        { st with current := st.current ++ st.pending, pending := [] }
      else
        -- lines 155-157: flush current (if any), current_chunk = pending_subs
        { chunks := freezeChunks st.current
            (st.chunks ++ (if !st.current.isEmpty then [none] else []))
          current := st.pending, pending := [] }
    else st
  let cks :=
    if !st1.current.isEmpty then st1.chunks ++ [none] else st1.chunks
  (freezeChunks st1.current cks).map (fun c => c.getD [])

/-- `SubtitleSplitter.split_subtitles` (lines 41-163). -/
def splitSubtitles (tok : Str → Nat) (subtitles : List Subtitle)
    (maxTokens : Nat) : List (List Subtitle) :=
  if subtitles.isEmpty || maxTokens = 0 then []
  else splitFinish tok maxTokens
    (subtitles.foldl (splitStep tok maxTokens) ⟨[], [], []⟩)

/-! ## Merger: run decomposition and field characterization -/

/-- The entry a maximal accumulation run collapses to: the fold of
`combineSubs` over the run. -/
def runMerge : List Subtitle → Subtitle
  | [] => ⟨none, 0, 0, [], []⟩
  | x :: xs => xs.foldl combineSubs x

/-- The grouping induced by the merge loop: same traversal as
`mergeLoop`, collecting the members of each accumulation run instead of
the merged entries. -/
def runsLoop (punctEnd : Str) (maxPause maxDur : Time)
    (acc : Subtitle) (grp : List Subtitle) : List Subtitle → List (List Subtitle)
  | [] => [grp.reverse]
  | next :: rest =>
    if shouldMerge punctEnd maxPause maxDur acc next then
      runsLoop punctEnd maxPause maxDur (combineSubs acc next) (next :: grp) rest
    else
      grp.reverse :: runsLoop punctEnd maxPause maxDur next [next] rest

/-- "joined with single spaces". -/
def joinSpace : List Str → Str
  | [] => []
  | [s] => s
  | s :: rest => s ++ ' ' :: joinSpace rest

/-- A string is trimmed when it is nonempty and neither end is
whitespace. -/
def Trimmed (u : Str) : Prop :=
  u ≠ [] ∧ (∀ c, u.head? = some c → isPySpace c = false)
    ∧ (∀ c, u.getLast? = some c → isPySpace c = false)

/-! ## Claim C1 and C9 -/

/-- "Hello" at 0s-1s: does not end in sentence punctuation. -/
def helloFar : Subtitle := ⟨some 1, 0, 1000000, str "Hello", []⟩

/-- "world" at 10s-11s: 9 seconds after `helloFar` ends. -/
def worldFar : Subtitle := ⟨some 2, 10000000, 11000000, str "world", []⟩

/-- "Hello" at 0s-10s (a long overlapping entry). -/
def helloLong : Subtitle := ⟨some 1, 0, 10000000, str "Hello", []⟩

/-- "world" at 1s-2s: starts later but ends before `helloLong`. -/
def worldShort : Subtitle := ⟨some 2, 1000000, 2000000, str "world", []⟩

/-! ## Claims C2, C4, C5 -/

/-- Entry "x." (sentence-ended) at 0s-1s; serialized length 36. -/
def subA : Subtitle := ⟨some 1, 0, 1000000, str "x.", []⟩

/-- Entry "y" (unfinished sentence) at 1s-2s; serialized length 35. -/
def subB : Subtitle := ⟨some 2, 1000000, 2000000, str "y", []⟩

/-- Entry "zzzzz" (unfinished) at 2s-3s; serialized length 39. -/
def subC : Subtitle := ⟨some 3, 2000000, 3000000, List.replicate 5 'z', []⟩

/-- A 70-character entry at 2s-3s; serialized length 104. -/
def subBig : Subtitle := ⟨some 3, 2000000, 3000000, List.replicate 70 'z', []⟩

/-- Entry "w" at 2s-3s. -/
def subW : Subtitle := ⟨some 3, 2000000, 3000000, str "w", []⟩

/-- Entry "v" at 3s-4s. -/
def subV : Subtitle := ⟨some 4, 3000000, 4000000, str "v", []⟩

/-- A perfectly additive token counter: one token per character. -/
def lenTok : Str → Nat := List.length

/-- A token counter that is well behaved on every individual entry but
charges 6 tokens for the concatenation `srtCat [subB, subW]` and for
`toSrt subV` (token counts of real tokenizers are not additive across
concatenation, which is what this models adversarially). -/
def spikyTok : Str → Nat := fun s =>
  if s = srtCat [subB, subW] then 6 else if s = toSrt subV then 6 else 1

/-! ## Claim C4 (amended): budget invariant under an additive counter -/

/-- A chunk meets the budget, or is the single-oversized-entry escape
hatch. -/
def ChunkWithinBudget (tok : Str → Nat) (maxTokens : Nat)
    (c : List Subtitle) : Prop :=
  tok (srtCat c) ≤ maxTokens ∨ ∃ s, c = [s] ∧ maxTokens < tok (toSrt s)

/-- Every frozen cell of `chunks` meets the budget (live aliases are
tracked separately through the `current` bound). -/
def CellsOk (tok : Str → Nat) (maxTokens : Nat)
    (cks : List (Option (List Subtitle))) : Prop :=
  ∀ oc ∈ cks, ∀ v, oc = some v → ChunkWithinBudget tok maxTokens v

/-- The loop invariant of `split_subtitles`. -/
def SplitInv (tok : Str → Nat) (maxTokens : Nat) (st : SplitState) : Prop :=
  CellsOk tok maxTokens st.chunks
    ∧ tok (srtCat st.current) ≤ maxTokens
    ∧ (st.pending ≠ [] → tok (srtCat (st.current ++ st.pending)) ≤ maxTokens)
    ∧ (∀ p ∈ st.pending, tok (toSrt p) ≤ maxTokens)

/-! ## Chunk reconciliation (`src/translator/agents/workflow.py`, lines
174-285)

The external proofing/translation calls are abstracted: `first` is the
parse of the first processed output and `retry` the parse of the
output the one allowed retry would produce. -/

/-- Lines 199-211 and 260-272 of `workflow.py`: one repaired entry —
original `index`/`start`/`end`/`proprietary`, content from the processed
side. -/
def mkRepair (orig proc : Subtitle) : Subtitle :=
  { index := orig.index
    start := orig.start
    end_ := orig.end_
    content := proc.content
    proprietary := orig.proprietary }

/-- Lines 227-235 of `workflow.py`: some positional pair differs in
`start` or `end` (Python's `zip` truncates to the shorter list). -/
def tsMismatch (orig proc : List Subtitle) : Bool :=
  (orig.zip proc).any (fun op => op.2.start ≠ op.1.start || op.2.end_ ≠ op.1.end_)

/-- The count/timestamp validation, retry and repair logic of
`workflow.py` lines 174-285, as a function of the original chunk
entries, the first processed entries and the entries the retry yields:
 * count mismatch → retry accepted if its count matches (timestamps NOT
   re-checked there, lines 188-193), else repair by positional zip of
   the original with the FIRST processed entries (lines 198-215);
 * count match but timestamp mismatch → retry accepted if count and all
   timestamps match (lines 244-257), else the same positional repair
   (lines 259-276);
 * otherwise the first processed entries are used as is. -/
def chunkReconcile (orig first retry : List Subtitle) : List Subtitle :=
  if first.length ≠ orig.length then
    if retry.length = orig.length then retry
    else orig.zipWith mkRepair first
  else if tsMismatch orig first then
    if retry.length = orig.length && !tsMismatch orig retry then retry
    else orig.zipWith mkRepair first
  else first

/-- Concrete entries for the reconciliation claims. -/
def origEntry1 : Subtitle := ⟨some 1, 0, 1000000, str "one", str "X1"⟩

/-- Second original entry. -/
def origEntry2 : Subtitle := ⟨some 2, 1000000, 2000000, str "two", str "X2"⟩

/-- A processed output with only ONE entry (wrong count, wrong times). -/
def procEntry1 : Subtitle := ⟨some 7, 5000000, 6000000, str "uno", str "P"⟩

/-- The entry produced by the retry (still only one entry). -/
def retryEntry1 : Subtitle := ⟨some 9, 7000000, 8000000, str "ein", str "R"⟩

/-! ## Status-event stream (`workflow.py` `_arun_impl`, lines 62-309, and
`command.py` `_trans_file`, lines 45-79)

Each `yield RunResponse(content=..., run_id=...)` site of `_arun_impl`
is one event; the Chinese message texts are represented by the
constructors of `Msg` (the payloads they interpolate are carried as
fields).  `RunResponse` is only ever constructed with `content=`, so
the `error` attribute checked by `command.py` line 67 is never set.
The outcome of one chunk iteration (which depends on the external
collaborators, the cache, and the parser) is abstracted as a
`ChunkOutcome`; each failure constructor corresponds to exactly one
`yield`-then-`return` site of the loop body. -/

/-- The message of a status event. -/
inductive Msg
  | startProcessing (inputPath : Str)
  | splitting
  | splitFailed
  | splitCount (n : Nat)
  | processingChunk (i n : Nat)
  | composeFailed (i : Nat)
  | processFailed (i : Nat)
  | parseFailed (i : Nat)
  | repairFailed (i : Nat)
  | retryFailed (i : Nat)
  | chunkDone (i n : Nat)
  | saving (outFile : Str)
  | success (outFile : Str)
deriving Repr, DecidableEq

/-- A yielded `RunResponse`: the workflow never passes `error=`, so the
field is always `none`. -/
structure RunEvent where
  content : Msg
  error : Option Str
deriving Repr, DecidableEq

/-- How one iteration of the chunk loop ends: normally, or at one of its
five `yield`-then-`return` failure sites (lines 115-120, 161-166,
168-173, 219-224, 280-285 of `workflow.py`). -/
inductive ChunkOutcome
  | ok
  | failCompose
  | failProcess
  | failParse
  | failRepair
  | failRetry
deriving Repr, DecidableEq

/-- The event(s) of one chunk iteration after the `processingChunk`
yield, plus whether the loop continues. -/
def chunkEvents (i n : Nat) : ChunkOutcome → List RunEvent × Bool
  | .ok => ([⟨.chunkDone i n, none⟩], true)
  | .failCompose => ([⟨.composeFailed i, none⟩], false)
  | .failProcess => ([⟨.processFailed i, none⟩], false)
  | .failParse => ([⟨.parseFailed i, none⟩], false)
  | .failRepair => ([⟨.repairFailed i, none⟩], false)
  | .failRetry => ([⟨.retryFailed i, none⟩], false)

/-- The `for i, chunk in enumerate(chunks, 1)` loop (lines 110-299):
`i` is the 1-based index of the next chunk, `k` the number of chunks
still to process.  Returns the events and whether the loop ran to
completion. -/
def chunkLoop (outcome : Nat → ChunkOutcome) (n : Nat) :
    Nat → Nat → List RunEvent × Bool
  | _, 0 => ([], true)
  | i, k + 1 =>
    let step := chunkEvents i n (outcome i)
    if step.2 then
      let rest := chunkLoop outcome n (i + 1) k
      (⟨.processingChunk i n, none⟩ :: step.1 ++ rest.1, rest.2)
    else
      (⟨.processingChunk i n, none⟩ :: step.1, false)

/-- The status-event stream of `_arun_impl` (lines 62-309): start and
splitting messages; `splitFailed` then stop when no chunks were
produced (lines 100-105); otherwise the chunk count, the chunk loop,
and — if the loop completed — the saving and terminal success events
naming the output file. -/
def runEvents (inputPath outFile : Str) (numChunks : Nat)
    (outcome : Nat → ChunkOutcome) : List RunEvent :=
  [⟨.startProcessing inputPath, none⟩, ⟨.splitting, none⟩]
    ++ if numChunks = 0 then [⟨.splitFailed, none⟩]
      else
        ⟨.splitCount numChunks, none⟩ ::
          (let loop := chunkLoop outcome numChunks 1 numChunks
          loop.1 ++ if loop.2 then
              [⟨.saving outFile, none⟩, ⟨.success outFile, none⟩]
            else [])

/-- The failure-termination messages (each yielded immediately before a
`return`). -/
def IsFailureMsg : Msg → Prop
  | .splitFailed => True
  | .composeFailed _ => True
  | .processFailed _ => True
  | .parseFailed _ => True
  | .repairFailed _ => True
  | .retryFailed _ => True
  | _ => False

/-! ## Claim C10: `compose(reindex=True)` does not mutate its input
(`parser.py`, lines 213-249)

Python objects live on a heap; to state the frame property the heap is
modelled explicitly as a list of `Subtitle` records and the entries
passed to `compose` as references (indices) into it.  The reindex
branch (lines 231-242) reads the referenced records, sorts the
REFERENCES (`sorted(subtitles)` permutes references, it does not touch
records), and allocates a FRESH record per entry
(`Subtitle(index=i, ...)`, an allocation appends to the heap); no field
of an existing record is ever assigned. -/

/-- `Subtitle.__lt__` (lines 79-84): lexicographic on
`(start, end, index)`.  When exactly one index is `None` and the other
fields tie, Python would raise `TypeError`; the model totalizes that
case by putting `None` first (the choice does not affect any claim). -/
def subLt (x y : Subtitle) : Bool :=
  if x.start ≠ y.start then x.start < y.start
  else if x.end_ ≠ y.end_ then x.end_ < y.end_
  else match x.index, y.index with
    | none, none => false
    | none, some _ => true
    | some _, none => false
    | some i, some j => i < j

/-- Stable insertion of a reference by the referenced record's sort
key. -/
def insertRefByLt (heap : List Subtitle) (r : Nat) : List Nat → List Nat
  | [] => [r]
  | s :: ss =>
    if subLt (heap.getD r ⟨none, 0, 0, [], []⟩) (heap.getD s ⟨none, 0, 0, [], []⟩)
    then r :: s :: ss
    else s :: insertRefByLt heap r ss

/-- Python's stable `sorted(subtitles)` over references. -/
def sortRefs (heap : List Subtitle) (refs : List Nat) : List Nat :=
  refs.foldl (fun acc r => insertRefByLt heap r acc) []

/-- The reindex branch of `compose` (lines 231-242) over the explicit
heap: returns the new heap (old records plus the freshly allocated
reindexed copies), the references to the fresh records, and the
composed SRT text (line 246-249). -/
def composeReindexHeap (heap : List Subtitle) (refs : List Nat)
    (startIndex : Int) : List Subtitle × List Nat × Str :=
  let sortedRefs := sortRefs heap refs
  let fresh := sortedRefs.enum.map (fun kr =>
    let old := heap.getD kr.2 ⟨none, 0, 0, [], []⟩
    { index := some (startIndex + kr.1), start := old.start,
      end_ := old.end_, content := old.content,
      proprietary := old.proprietary })
  let newRefs := (List.range fresh.length).map (fun k => heap.length + k)
  (heap ++ fresh, newRefs, srtCat fresh)

/-! ## SRT parsing (`parser.py`, `SRT_REGEX` and `SubtitleParser.parse`)

The regex

```
\s*(?:(IDX)\s*EOF)?(TS) *-[ -] *> *(TS) ?(PROP)(?:EOF|\Z)(CONTENT)
(?:EOF|\Z)(?:EOF|\Z|(?=IDX\s*EOF TS))(?=(?:(?:IDX\s*EOF)?TS|\Z))
```

with `IDX = -?[0-9]+\.?[0-9]*`, `TS = [0-9]+D[0-9]+D[0-9]+D?[0-9]*`
(`D = [,.:，．。：]`), `PROP = [^\r\n]*`, `CONTENT = .*?` (DOTALL) and
`EOF = \r?\n` is implemented as a deterministic matcher.  Each place
where the regex engine's backtracking is deterministic is realized
directly:
 * `\s*` and the following `IDX`/`TS` alternatives consume disjoint
   character classes, so maximal-munch is exact;
 * inside `IDX` and `TS`, greedy digit runs and the optional delimiter
   are cut off by the following context unambiguously;
 * the optional index group falls back to the index-less alternative
   only when its own parse fails (when it succeeds through its
   timestamp, the index-less parse of the same text necessarily fails,
   since the index digits are followed by whitespace, not a delimiter);
 * the lazy `CONTENT` is computed by trying each prefix, shortest
   first, exactly as the engine does, with the terminator
   `(?:EOF|\Z)(?:EOF|\Z|(?=IDX\s*EOF TS))(?=...)` evaluated in the
   engine's alternative order. -/

/-- Split off the maximal leading digit run; `none` when there is no
leading digit (regex `[0-9]+`). -/
def takeDigits (s : Str) : Option (Str × Str) :=
  let run := s.takeWhile isDig
  if run.isEmpty then none else some (run, s.dropWhile isDig)

/-- The timestamp magnitude delimiter class `[,.:，．。：]`. -/
def isTsDelim (c : Char) : Bool :=
  c = ',' || c = '.' || c = ':' || c = '，' || c = '．' || c = '。' || c = '：'

/-- One timestamp `[0-9]+D[0-9]+D[0-9]+D?[0-9]*`, returning the
`timedelta` value in microseconds and the rest.  The digit runs are
maximal and the optional trailing delimiter is taken when present —
both exact for this grammar, since a digit run is cut off by the
following delimiter/context and a present delimiter could never be
re-matched by anything after the optional group. -/
def parseTs (s : Str) : Option (Time × Str) := do
  let (d1, r1) ← takeDigits s
  match r1 with
  | c1 :: r2 =>
    if isTsDelim c1 then do
      let (d2, r3) ← takeDigits r2
      match r3 with
      | c2 :: r4 =>
        if isTsDelim c2 then do
          let (d3, r5) ← takeDigits r4
          -- optional `D?[0-9]*`
          let (msecs, rest) :=
            match r5 with
            | c3 :: r6 =>
              if isTsDelim c3 then
                match takeDigits r6 with
                | some (d4, r7) => (digitsToNat d4, r7)
                | none => (0, r6)
              else (0, r5)
            | [] => (0, r5)
          return (((digitsToNat d1 * 3600 + digitsToNat d2 * 60
              + digitsToNat d3) * 1000 + msecs) * 1000, rest)
        else none
      | [] => none
    else none
  | [] => none

/-- Does a timestamp match start here (used by the trailing
lookaheads; the optional `D?[0-9]*` tail always matches empty). -/
def tsAhead (s : Str) : Bool := (parseTs s).isSome

/-- The maximal `IDX = -?[0-9]+\.?[0-9]*` token, with the rest. -/
def idxTokenTail (s : Str) : Option (Str × Str) :=
  match takeDigits s with
  | none => none
  | some (d1, r1) =>
    if r1.head? = some '.' then
      some (d1 ++ '.' :: r1.tail.takeWhile isDig, r1.tail.dropWhile isDig)
    else some (d1, r1)

def idxToken (s : Str) : Option (Str × Str) :=
  if s.head? = some '-' then
    (idxTokenTail s.tail).map (fun p => ('-' :: p.1, p.2))
  else idxTokenTail s

/-- The lookahead `(?=IDX\s*EOF TS)`: an index token, whitespace whose
last character is a newline (the `\s*`/`\r?\n` split is free exactly
when the maximal whitespace run ends in `\n`, since `TS` must start
with a digit), then a timestamp. -/
def idxLineAhead (s : Str) : Bool :=
  match idxToken s with
  | none => false
  | some (_, r) =>
    let w := r.takeWhile isPySpace
    !w.isEmpty && w.getLast? = some '\n' && tsAhead (r.dropWhile isPySpace)

/-- The final lookahead `(?=(?:(?:IDX\s*EOF)?TS|\Z))`. -/
def finalAhead (s : Str) : Bool :=
  idxLineAhead s || tsAhead s || s.isEmpty

/-- `EOF = \r?\n` at the head: the rest after consuming it. -/
def eatEol (s : Str) : Option Str :=
  if s.head? = some '\n' then some s.tail
  else if s.head? = some '\x0d' ∧ s.tail.head? = some '\n' then some s.tail.tail
  else none

/-- The content terminator `(?:EOF|\Z)(?:EOF|\Z|(?=IDX\s*EOF TS))
(?=...)` tried at the current position, in the regex engine's
alternative order; returns the rest after the match end when it
succeeds.  (After the first `EOF` consumed a newline, the second
group's `\Z` and lookahead alternatives can only apply at end-of-input
or at a non-newline character respectively, which the case split below
mirrors.) -/
def termAt (s : Str) : Option Str :=
  match s with
  | [] => some []
  | _ =>
    match eatEol s with
    | none => none
    | some s1 =>
      match s1 with
      | [] => some []
      | _ =>
        match eatEol s1 with
        | some s2 => if finalAhead s2 then some s2 else none
        | none => if idxLineAhead s1 && finalAhead s1 then some s1 else none

/-- The lazy `(CONTENT)` group with its terminator: shortest content
prefix whose terminator matches, as the engine's lazy `.*?` computes
it. -/
def contentScan : Str → Option (Str × Str)
  | [] =>
    match termAt [] with
    | some r => some ([], r)
    | none => none
  | c :: cs =>
    match termAt (c :: cs) with
    | some r => some ([], r)
    | none =>
      match contentScan cs with
      | some p => some (c :: p.1, p.2)
      | none => none

/-- ` *-[ -] *> *` (the arrow separator; the space runs use the space
character only). -/
def eatArrow (s : Str) : Option Str :=
  let s1 := s.dropWhile (fun c => c = ' ')
  if s1.head? = some '-'
      ∧ (s1.tail.head? = some ' ' ∨ s1.tail.head? = some '-') then
    let r1 := s1.tail.tail.dropWhile (fun c => c = ' ')
    if r1.head? = some '>' then some (r1.tail.dropWhile (fun c => c = ' '))
    else none
  else none

/-- A matched block: the five captured groups (index still raw, as the
regex captures text) plus the unconsumed rest. -/
structure SrtBlock where
  rawIndex : Option Str
  startTs : Time
  endTs : Time
  prop : Str
  rawContent : Str
  rest : Str
deriving Repr, DecidableEq

/-- The steps of the block regex after the optional index group: the
first timestamp onward. -/
def matchFromTs (rawIndex : Option Str) (s : Str) : Option SrtBlock := do
  let (t1, r1) ← parseTs s
  let r2 ← eatArrow r1
  let (t2, r3) ← parseTs r2
  -- ` ?`
  let r4 := if r3.head? = some ' ' then r3.tail else r3
  let prop := r4.takeWhile (fun c => c ≠ '\x0d' && c ≠ '\n')
  let r5 := r4.dropWhile (fun c => c ≠ '\x0d' && c ≠ '\n')
  -- `(?:EOF|\Z)` after the proprietary group
  let r6 ← match r5 with
    | [] => some []
    | _ => eatEol r5
  let (content, rest) ← contentScan r6
  return ⟨rawIndex, t1, t2, prop, content, rest⟩

/-- Try the whole block regex at this position: leading `\s*`, the
optional index line, and the rest of the block.  When the index-line
alternative fails at any point the index-less alternative is tried,
exactly like the engine's backtracking (when the index path succeeds
past its timestamp, the index-less path could not also match, because
the index digits are followed by whitespace rather than a timestamp
delimiter). -/
def matchBlockAt (s : Str) : Option SrtBlock :=
  let s0 := s.dropWhile isPySpace
  let viaIdx : Option SrtBlock :=
    match idxToken s0 with
    | none => none
    | some (tokenChars, r1) =>
      let w := r1.takeWhile isPySpace
      if !w.isEmpty && w.getLast? = some '\n' then
        matchFromTs (some tokenChars) (r1.dropWhile isPySpace)
      else none
  match viaIdx with
  | some b => some b
  | none => matchFromTs none s0

/-- `re.finditer`: offset (relative to this suffix) of the first
position where the block regex matches, with the match. -/
def findMatch : Str → Option (Nat × SrtBlock)
  | [] =>
    match matchBlockAt [] with
    | some b => some (0, b)
    | none => none
  | c :: cs =>
    match matchBlockAt (c :: cs) with
    | some b => some (0, b)
    | none =>
      match findMatch cs with
      | some (q, b) => some (q + 1, b)
      | none => none

/-- `SRTParseError` (the byte offsets and the unmatched text it
carries). -/
structure SRTErr where
  expectedStart : Nat
  actualStart : Nat
  unmatchedContent : Str
deriving Repr, DecidableEq

/-- Python `content.replace("\r\n", "\n")`. -/
def replaceCrLf : Str → Str
  | [] => []
  | [c] => [c]
  | c :: c2 :: r =>
    if c = '\x0d' ∧ c2 = '\n' then '\n' :: replaceCrLf r
    else c :: replaceCrLf (c2 :: r)

/-- Lines 189-192 of `parser.py`: split the captured content on `\n`
(after normalizing CRLF), strip each line, rejoin, and strip the
whole. -/
def processContent (c : Str) : Str :=
  pyStrip (joinNl ((splitNl (replaceCrLf c)).map pyStrip))

/-- Lines 194-197 of `parser.py`: `int(raw_index)` with `None` on
failure; on the index-token language `-?[0-9]+\.?[0-9]*`, `int`
succeeds exactly when no `.` is present. -/
def pyIntOfToken (s : Option Str) : Option Int :=
  match s with
  | none => none
  | some t =>
    if t.contains '.' then none
    else
      match t with
      | '-' :: ds => some (-(digitsToNat ds : Int))
      | ds => some (digitsToNat ds : Int)

/-- The `Subtitle` built from a matched block (lines 189-207). -/
def entryOfBlock (b : SrtBlock) : Subtitle :=
  { index := pyIntOfToken b.rawIndex
    start := b.startTs
    end_ := b.endTs
    content := processContent b.rawContent
    proprietary := b.prop }

/-- Whether a continuity gap is tolerated (lines 258-268 of
`parser.py`): only at offset 0, and only when the unmatched text is
whitespace or exactly the BOM. -/
def gapTolerated (expectedStart : Nat) (gap : Str) : Bool :=
  expectedStart = 0 && (pyIsSpace gap || gap = ['\uFEFF'])

/-- The `for match in SRT_REGEX.finditer(...)` loop with the
continuity checks (lines 173-211): `s` is the unconsumed suffix, `pos`
its absolute offset (= `expected_start`).  Fueled; `none` means fuel
ran out (the fuel `s.length + 1` always suffices, every match consumes
at least one character). -/
def parseLoop (ignoreErrors : Bool) :
    Nat → Str → Nat → Option (Except SRTErr (List Subtitle))
  | 0, _, _ => none
  | fuel + 1, s, pos =>
    match findMatch s with
    | none =>
      -- final continuity check against the end of input
      if s.isEmpty then some (.ok [])
      else if gapTolerated pos s then some (.ok [])
      else if ignoreErrors then some (.ok [])
      else some (.error ⟨pos, pos + s.length, s⟩)
    | some (q, b) =>
      let consumed := s.length - b.rest.length
      let proceed : Option (Except SRTErr (List Subtitle)) :=
        match parseLoop ignoreErrors fuel b.rest (pos + consumed) with
        | none => none
        | some (.error e) => some (.error e)
        | some (.ok l) => some (.ok (entryOfBlock b :: l))
      if q = 0 then proceed
      else if gapTolerated pos (s.take q) then proceed
      else if ignoreErrors then proceed
      else some (.error ⟨pos, pos + q, s.take q⟩)

/-- `SubtitleParser.parse` (lines 163-211). -/
def parse (s : Str) (ignoreErrors : Bool) : Except SRTErr (List Subtitle) :=
  (parseLoop ignoreErrors (s.length + 1) s 0).getD (.error ⟨0, 0, []⟩)

/-- `SubtitleParser.compose` with `reindex=False` (lines 243-249): the
concatenation of the entries' SRT blocks in the given order. -/
def composeNoReindex (subtitles : List Subtitle) : Str := srtCat subtitles

/-- A nonempty digit-run hypothesis packaged: nonempty and all digits. -/
def DigRun (s : Str) : Prop := s ≠ [] ∧ ∀ c ∈ s, isDig c = true

/-- What `parseTs` sees of a string that is followed by a newline
barrier: the parse can never consume the newline, so success is a
function of the text before it (`tsProbe`). -/
def tsProbe (a : Str) : Bool :=
  match takeDigits a with
  | none => false
  | some (_, r1) =>
    match r1 with
    | [] => false
    | c1 :: r2 =>
      if isTsDelim c1 then
        match takeDigits r2 with
        | none => false
        | some (_, r3) =>
          match r3 with
          | [] => false
          | c2 :: r4 =>
            if isTsDelim c2 then (takeDigits r4).isSome else false
      else false

/-- What the content scan needs of the text following an entry's
closing blank line: the final lookahead holds there, no timestamp
starts there, and it does not begin with whitespace. -/
def TailOk (R : Str) : Prop :=
  finalAhead R = true ∧ tsAhead R = false
    ∧ (∀ c, R.head? = some c → isPySpace c = false)

/-- Whether a line is exactly one index token (`-?[0-9]+\.?[0-9]*`). -/
def isFullIdxToken (l : Str) : Bool :=
  match idxToken l with
  | some (_, []) => true
  | _ => false

/-- A well-formed content line: nonempty, newline-free, trimmed at both
ends (exactly what `_clean_content` produces). -/
def LineOk (l : Str) : Prop :=
  l ≠ [] ∧ '\n' ∉ l
    ∧ (∀ c, l.head? = some c → isPySpace c = false)
    ∧ (∀ c, l.getLast? = some c → isPySpace c = false)

/-- No content line that is exactly an index token is followed by a
line that starts like a timestamp — the only line pattern that could
terminate the lazy content group early. -/
def safeChain : List Str → Bool
  | x :: y :: rest =>
    (!isFullIdxToken x || !tsAhead (y ++ ['\n'])) && safeChain (y :: rest)
  | _ => true

/-! ## `_clean_content` produces well-formed lines -/

/-- The lines of cleaned content: each original line stripped, blank
lines dropped. -/
def cleanLines (c : Str) : List Str :=
  ((splitNl c).map pyStrip).filter (fun l => !l.isEmpty)

/-- Everything the round-trip requires of one entry, stated on the
entry itself: nonnegative whole-millisecond timestamps, a proprietary
field without CR/LF, and content whose cleaned lines never imitate the
start of a new block. -/
def GoodEntry (e : Subtitle) : Prop :=
  0 ≤ e.start ∧ e.start % 1000 = 0 ∧ 0 ≤ e.end_ ∧ e.end_ % 1000 = 0
    ∧ (∀ c ∈ e.proprietary, c ≠ '\x0d' ∧ c ≠ '\n')
    ∧ safeChain (cleanLines e.content) = true

instance (e : Subtitle) : Decidable (GoodEntry e) := by
  unfold GoodEntry
  infer_instance

/-- What one parsed-back entry looks like: the serialized index read
back, the content cleaned, everything else unchanged. -/
def cleanEntry (e : Subtitle) : Subtitle :=
  { index := some (e.index.getD 0)
    start := e.start
    end_ := e.end_
    content := cleanContent e.content
    proprietary := e.proprietary }

/-- The gaps between consecutive regex matches over the input (and the
unmatched tail), each with its byte offsets and unmatched text — the
data `_check_continuity` inspects. -/
def gapsLoop : Nat → Str → Nat → List SRTErr
  | 0, _, _ => []
  | fuel + 1, s, pos =>
    match findMatch s with
    | none => if s.isEmpty then [] else [⟨pos, pos + s.length, s⟩]
    | some (q, b) =>
      (if q = 0 then [] else [⟨pos, pos + q, s.take q⟩])
        ++ gapsLoop fuel b.rest (pos + (s.length - b.rest.length))

/-- All inter-match gaps of an input string. -/
def parseGaps (s : Str) : List SRTErr := gapsLoop (s.length + 1) s 0

lemma dropWhile_head_false (p : Char → Bool) (l : Str) :
    ∀ c, (l.dropWhile p).head? = some c → p c = false := by
  induction l with
  | nil => intro c h; simp at h
  | cons a l ih =>
    intro c h
    by_cases hpa : p a
    · rw [List.dropWhile_cons_of_pos hpa] at h; exact ih c h
    · rw [List.dropWhile_cons_of_neg hpa] at h
      simp only [List.head?_cons, Option.some.injEq] at h
      subst h; exact Bool.eq_false_iff.mpr hpa

lemma dropWhile_eq_of_head_false (p : Char → Bool) (l : Str)
    (h : ∀ c, l.head? = some c → p c = false) : l.dropWhile p = l := by
  cases l with
  | nil => rfl
  | cons a l =>
    have hpa : p a = false := h a rfl
    rw [List.dropWhile_cons_of_neg (by simp [hpa])]

lemma dropWhile_getLast_eq (p : Char → Bool) (l : Str)
    (h : l.dropWhile p ≠ []) : (l.dropWhile p).getLast? = l.getLast? := by
  induction l with
  | nil => simp at h
  | cons a l ih =>
    by_cases hpa : p a
    · rw [List.dropWhile_cons_of_pos hpa] at h ⊢
      rw [ih h]
      cases l with
      | nil => simp at h
      | cons b m => rw [List.getLast?_cons_cons]
    · rw [List.dropWhile_cons_of_neg hpa]

lemma pyStrip_eq_self {u : Str} (h : Trimmed u) : pyStrip u = u := by
  obtain ⟨hne, hh, hl⟩ := h
  unfold pyStrip
  rw [dropWhile_eq_of_head_false _ _ hh]
  rw [dropWhile_eq_of_head_false]
  · exact u.reverse_reverse
  · intro c hc
    rw [List.head?_reverse] at hc
    exact hl c hc

lemma pyStrip_trimmed {u : Str} (h : pyStrip u ≠ []) : Trimmed (pyStrip u) := by
  refine ⟨h, ?_, ?_⟩
  · intro c hc
    unfold pyStrip at hc h
    rw [List.head?_reverse] at hc
    have hne : (u.dropWhile isPySpace).reverse.dropWhile isPySpace ≠ [] := by
      intro h0; rw [h0] at h; exact h rfl
    rw [dropWhile_getLast_eq _ _ hne] at hc
    rw [List.getLast?_reverse] at hc
    exact dropWhile_head_false _ _ c hc
  · intro c hc
    unfold pyStrip at hc
    rw [List.getLast?_reverse] at hc
    exact dropWhile_head_false _ _ c hc

lemma trimmed_join {a b : Str} (ha : Trimmed a) (hb : Trimmed b) :
    Trimmed (a ++ ' ' :: b) := by
  obtain ⟨hane, hah, hal⟩ := ha
  obtain ⟨hbne, hbh, hbl⟩ := hb
  refine ⟨by simp, ?_, ?_⟩
  · intro c hc
    cases a with
    | nil => exact absurd rfl hane
    | cons x xs =>
      simp only [List.cons_append, List.head?_cons, Option.some.injEq] at hc
      exact hc ▸ hah x rfl
  · intro c hc
    rw [List.getLast?_append_cons] at hc
    cases b with
    | nil => exact absurd rfl hbne
    | cons x xs =>
      rw [List.getLast?_cons_cons] at hc
      exact hbl c hc

lemma joinSpace_append_last (ss : List Str) (x : Str) (h : ss ≠ []) :
    joinSpace (ss ++ [x]) = joinSpace ss ++ ' ' :: x := by
  induction ss with
  | nil => exact absurd rfl h
  | cons s ss ih =>
    cases ss with
    | nil => rfl
    | cons t ts =>
      have h2 : joinSpace ((s :: t :: ts) ++ [x])
          = s ++ ' ' :: joinSpace ((t :: ts) ++ [x]) := rfl
      have h3 : joinSpace (s :: t :: ts) = s ++ ' ' :: joinSpace (t :: ts) := rfl
      rw [h2, ih (by simp), h3]
      simp

lemma runMerge_append_last (g : List Subtitle) (n : Subtitle) (h : g ≠ []) :
    runMerge (g ++ [n]) = combineSubs (runMerge g) n := by
  cases g with
  | nil => exact absurd rfl h
  | cons x xs => simp [runMerge, List.foldl_append]

lemma runsLoop_flatten (punctEnd : Str) (maxPause maxDur : Time) :
    ∀ (rest : List Subtitle) (acc : Subtitle) (grp : List Subtitle),
      (runsLoop punctEnd maxPause maxDur acc grp rest).flatten
        = grp.reverse ++ rest := by
  intro rest
  induction rest with
  | nil => intro acc grp; simp [runsLoop]
  | cons next rest ih =>
    intro acc grp
    unfold runsLoop
    by_cases hm : shouldMerge punctEnd maxPause maxDur acc next
    · simp only [hm, if_true, ih]
      simp
    · simp only [hm, if_false, Bool.false_eq_true, List.flatten_cons, ih]
      simp

lemma runsLoop_ne_nil (punctEnd : Str) (maxPause maxDur : Time) :
    ∀ (rest : List Subtitle) (acc : Subtitle) (grp : List Subtitle),
      grp ≠ [] → ∀ g ∈ runsLoop punctEnd maxPause maxDur acc grp rest, g ≠ [] := by
  intro rest
  induction rest with
  | nil =>
    intro acc grp hne g hg
    simp only [runsLoop, List.mem_singleton] at hg
    subst hg
    simpa using hne
  | cons next rest ih =>
    intro acc grp hne g hg
    unfold runsLoop at hg
    by_cases hm : shouldMerge punctEnd maxPause maxDur acc next
    · simp only [hm, if_true] at hg
      exact ih _ (next :: grp) (by simp) g hg
    · simp only [hm, if_false, Bool.false_eq_true, List.mem_cons] at hg
      rcases hg with hg | hg
      · subst hg; simpa using hne
      · exact ih _ [next] (by simp) g hg

lemma mergeLoop_eq_runsLoop (punctEnd : Str) (maxPause maxDur : Time) :
    ∀ (rest : List Subtitle) (acc : Subtitle) (grp : List Subtitle),
      grp ≠ [] → runMerge grp.reverse = acc →
      mergeLoop punctEnd maxPause maxDur acc rest
        = (runsLoop punctEnd maxPause maxDur acc grp rest).map runMerge := by
  intro rest
  induction rest with
  | nil =>
    intro acc grp hne hacc
    simp [mergeLoop, runsLoop, hacc]
  | cons next rest ih =>
    intro acc grp hne hacc
    unfold mergeLoop runsLoop
    by_cases hm : shouldMerge punctEnd maxPause maxDur acc next
    · simp only [hm, if_true]
      refine ih _ (next :: grp) (by simp) ?_
      rw [List.reverse_cons, runMerge_append_last _ _ (by simpa using hne), hacc]
    · simp only [hm, if_false, Bool.false_eq_true, List.map_cons]
      rw [hacc]
      exact congrArg _ (ih _ [next] (by simp) rfl)

lemma foldl_combine_start (xs : List Subtitle) :
    ∀ x : Subtitle, (xs.foldl combineSubs x).start = x.start := by
  induction xs with
  | nil => intro x; rfl
  | cons y ys ih => intro x; rw [List.foldl_cons, ih]; rfl

lemma foldl_combine_prop (xs : List Subtitle) :
    ∀ x : Subtitle, (xs.foldl combineSubs x).proprietary = x.proprietary := by
  induction xs with
  | nil => intro x; rfl
  | cons y ys ih => intro x; rw [List.foldl_cons, ih]; rfl

lemma foldl_combine_index_none (xs : List Subtitle) :
    ∀ x : Subtitle, x.index = none → (xs.foldl combineSubs x).index = none := by
  induction xs with
  | nil => intro x hx; exact hx
  | cons y ys ih => intro x _; rw [List.foldl_cons]; exact ih _ rfl

lemma foldl_combine_end (xs : List Subtitle) :
    ∀ x : Subtitle, (xs.foldl combineSubs x).end_
      = xs.foldl (fun t s => max t s.end_) x.end_ := by
  induction xs with
  | nil => intro x; rfl
  | cons y ys ih => intro x; rw [List.foldl_cons, ih]; rfl

lemma foldl_combine_content (ys : List Subtitle) :
    ∀ (acc : Subtitle) (ss : List Str), ss ≠ [] →
      Trimmed acc.content → acc.content = joinSpace ss →
      (∀ s ∈ ys, pyStrip s.content ≠ []) →
      (ys.foldl combineSubs acc).content
        = joinSpace (ss ++ ys.map (fun s => pyStrip s.content)) := by
  induction ys with
  | nil => intro acc ss _ _ hacc _; simpa using hacc
  | cons y ys ih =>
    intro acc ss hss htr hacc hstrip
    have hy : pyStrip y.content ≠ [] := hstrip y (by simp)
    have hcontent : (combineSubs acc y).content
        = joinSpace (ss ++ [pyStrip y.content]) := by
      show pyStrip acc.content ++ [' '] ++ pyStrip y.content
        = joinSpace (ss ++ [pyStrip y.content])
      rw [pyStrip_eq_self htr, hacc, joinSpace_append_last _ _ hss]
      simp
    have htr2 : Trimmed (combineSubs acc y).content := by
      show Trimmed (pyStrip acc.content ++ [' '] ++ pyStrip y.content)
      rw [pyStrip_eq_self htr, List.append_assoc]
      exact trimmed_join htr (pyStrip_trimmed hy)
    rw [List.foldl_cons,
      ih (combineSubs acc y) (ss ++ [pyStrip y.content]) (by simp) htr2 hcontent
        (fun s hs => hstrip s (by simp [hs]))]
    simp

/-- C1 (counterexample): `merge` is a pairwise pause heuristic, not a
sentence-accumulation scan.  `helloFar` does not end in a terminating
punctuation character, yet `merge` does not accumulate it with the
adjacent `worldFar` because the 9-second pause exceeds `max_pause`: the
output keeps two entries where the claim requires a single merged run. -/
theorem merge_pause_gap_counterexample :
    endsWithSentencePunct defaultPunctEnd helloFar.content = false
      ∧ merge [helloFar, worldFar] = [helloFar, worldFar]
      ∧ (merge [helloFar, worldFar]).length ≠ 1 := by
  refine ⟨by decide, by decide, by decide⟩

/-- C1 (amended): for two entries in temporal order, `merge` combines
them into one entry exactly when the first does not end in a `punct_end`
character AND the pause `next.start - cur.end` is at most `max_pause`
AND the prospective duration `next.end - cur.start` is at most
`max_dur`; otherwise both pass through unchanged. -/
theorem merge_adjacent_iff (punctEnd : Str) (maxPause maxDur : Time)
    (a b : Subtitle) (h : a.start ≤ b.start) :
    ((merge [a, b] maxPause punctEnd maxDur).length = 1 ↔
      (endsWithSentencePunct punctEnd a.content = false
        ∧ b.start - a.end_ ≤ maxPause ∧ b.end_ - a.start ≤ maxDur))
    ∧ (merge [a, b] maxPause punctEnd maxDur = [combineSubs a b]
        ∨ merge [a, b] maxPause punctEnd maxDur = [a, b]) := by
  have hs : sortByStart [a, b] = [a, b] := by
    simp [sortByStart, insertByStart, h]
  have hm : merge [a, b] maxPause punctEnd maxDur
      = if shouldMerge punctEnd maxPause maxDur a b
        then [combineSubs a b] else [a, b] := by
    rw [merge, hs]
    by_cases hsm : shouldMerge punctEnd maxPause maxDur a b
    · simp [mergeLoop, hsm]
    · simp [mergeLoop, hsm]
  rw [hm]
  have hiff : shouldMerge punctEnd maxPause maxDur a b = true ↔
      (endsWithSentencePunct punctEnd a.content = false
        ∧ b.start - a.end_ ≤ maxPause ∧ b.end_ - a.start ≤ maxDur) := by
    simp only [shouldMerge, Bool.and_eq_true, Bool.not_eq_true',
      decide_eq_true_eq, and_assoc]
  by_cases hsm : shouldMerge punctEnd maxPause maxDur a b
  · rw [if_pos hsm]
    exact ⟨⟨fun _ => hiff.mp hsm, fun _ => rfl⟩, Or.inl rfl⟩
  · rw [if_neg hsm]
    refine ⟨⟨?_, ?_⟩, Or.inr rfl⟩
    · intro hlen; simp at hlen
    · intro hcond; exact absurd (hiff.mpr hcond) hsm

/-- Witness for `merge_adjacent_iff` at a concrete input: "Hello" 0-1s
followed by "world" 1-2s merges into a single entry. -/
theorem merge_adjacent_iff_witness :
    (merge [⟨some 1, 0, 1000000, str "Hello", []⟩,
            ⟨some 2, 1000000, 2000000, str "world", []⟩]).length = 1 :=
  ((merge_adjacent_iff defaultPunctEnd defaultMaxPause defaultMaxDur
      ⟨some 1, 0, 1000000, str "Hello", []⟩
      ⟨some 2, 1000000, 2000000, str "world", []⟩ (by decide)).1).mpr (by decide)

/-- C9 (counterexample): the merged entry's `end` is the running maximum
of the ends, not the last entry's `end`.  `helloLong` (0s-10s) merges
with `worldShort` (1s-2s); the run's last entry ends at 2s, but the
merged entry ends at 10s. -/
theorem merge_end_counterexample :
    merge [helloLong, worldShort]
        = [⟨none, 0, 10000000, str "Hello world", []⟩]
      ∧ worldShort.end_ = 2000000
      ∧ (10000000 : Time) ≠ worldShort.end_ := by
  refine ⟨by decide, by decide, by decide⟩

/-- C9 (amended): `merge` partitions the canonically sorted input into
nonempty maximal accumulation runs and outputs each run folded with
`combineSubs`; the folded entry keeps the first entry's `start` and
`proprietary`, has `index = None` for runs of two or more entries, its
`end` is the MAXIMUM of the run's ends, and — when every trimmed content
is nonempty — its content is the space-join of the trimmed contents in
order.  The empty input yields the empty output. -/
theorem merge_run_decomposition (punctEnd : Str) (maxPause maxDur : Time) :
    merge [] maxPause punctEnd maxDur = []
    ∧ (∀ l : List Subtitle, ∃ runs : List (List Subtitle),
        runs.flatten = sortByStart l
        ∧ (∀ g ∈ runs, g ≠ [])
        ∧ merge l maxPause punctEnd maxDur = runs.map runMerge)
    ∧ (∀ (x : Subtitle) (xs : List Subtitle),
        (runMerge (x :: xs)).start = x.start
        ∧ (runMerge (x :: xs)).proprietary = x.proprietary
        ∧ (runMerge (x :: xs)).end_ = xs.foldl (fun t s => max t s.end_) x.end_
        ∧ (xs ≠ [] → (runMerge (x :: xs)).index = none))
    ∧ (∀ (x : Subtitle) (xs : List Subtitle), xs ≠ [] →
        (∀ s ∈ x :: xs, pyStrip s.content ≠ []) →
        (runMerge (x :: xs)).content
          = joinSpace ((x :: xs).map (fun s => pyStrip s.content))) := by
  refine ⟨rfl, ?_, ?_, ?_⟩
  · intro l
    rcases hsort : sortByStart l with _ | ⟨x, xs⟩
    · exact ⟨[], by simp, by simp, by simp [merge, hsort]⟩
    · refine ⟨runsLoop punctEnd maxPause maxDur x [x] xs, ?_, ?_, ?_⟩
      · rw [runsLoop_flatten]; simp
      · exact runsLoop_ne_nil punctEnd maxPause maxDur xs x [x] (by simp)
      · rw [merge, hsort]
        exact mergeLoop_eq_runsLoop punctEnd maxPause maxDur xs x [x]
          (by simp) rfl
  · intro x xs
    refine ⟨foldl_combine_start xs x, foldl_combine_prop xs x,
      foldl_combine_end xs x, ?_⟩
    intro hne
    cases xs with
    | nil => exact absurd rfl hne
    | cons y ys =>
      show ((y :: ys).foldl combineSubs x).index = none
      rw [List.foldl_cons]
      exact foldl_combine_index_none ys _ rfl
  · intro x xs hne hstrip
    cases xs with
    | nil => exact absurd rfl hne
    | cons y ys =>
      have hx : pyStrip x.content ≠ [] := hstrip x (by simp)
      have hy : pyStrip y.content ≠ [] := hstrip y (by simp)
      show ((y :: ys).foldl combineSubs x).content = _
      rw [List.foldl_cons]
      have hfirst : (combineSubs x y).content
          = joinSpace [pyStrip x.content, pyStrip y.content] := by
        show pyStrip x.content ++ [' '] ++ pyStrip y.content = _
        have : joinSpace [pyStrip x.content, pyStrip y.content]
            = pyStrip x.content ++ ' ' :: pyStrip y.content := rfl
        rw [this]; simp
      have htr : Trimmed (combineSubs x y).content := by
        show Trimmed (pyStrip x.content ++ [' '] ++ pyStrip y.content)
        rw [List.append_assoc]
        exact trimmed_join (pyStrip_trimmed hx) (pyStrip_trimmed hy)
      rw [foldl_combine_content ys (combineSubs x y)
          [pyStrip x.content, pyStrip y.content] (by simp) htr hfirst
          (fun s hs => hstrip s (by simp [hs]))]
      simp

/-- Witness for `merge_run_decomposition` at a concrete input: the run
`[helloLong, worldShort]` folds to content "Hello world". -/
theorem merge_run_decomposition_witness :
    (runMerge [helloLong, worldShort]).content = str "Hello world" := by
  have h := (merge_run_decomposition defaultPunctEnd defaultMaxPause
    defaultMaxDur).2.2.2 helloLong [worldShort] (by decide) (by decide)
  rw [h]; decide

/-- C2 (code evaluated at the failing input): `split_subtitles` can
DUPLICATE entries.  With a one-token-per-character counter and
`max_tokens = 71`, the input `[subA, subB, subC]` drives the fallback
distribution path (lines 125-142 of `splitter.py`) while `chunks`
already holds a live reference to `current_chunk` (appended at line
107); the subsequent in-place `current_chunk.append` (line 140) mutates
the emitted chunk and the re-append at line 137 emits the same list
object again, so the chunk `[subA, subB]` appears twice and flattening
the chunks does not reproduce the input. -/
theorem splitter_duplicates_entries :
    splitSubtitles lenTok [subA, subB, subC] 71
        = [[subA, subB], [subA, subB], [subC]]
      ∧ (splitSubtitles lenTok [subA, subB, subC] 71).flatten
        = [subA, subB, subA, subB, subC]
      ∧ (splitSubtitles lenTok [subA, subB, subC] 71).flatten
        ≠ [subA, subB, subC] := by
  refine ⟨by decide, by decide, by decide⟩

/-- C4 (counterexample): with the non-additive counter `spikyTok` and
`max_tokens = 5`, the emitted chunk `[subB, subW]` has two entries and a
serialized token count of 6 > 5: the single-entry escape hatch does not
cover it, so the budget claim fails for an arbitrary `count_tokens`
capability.  (The pending run `[subB, subW]` is flushed at line 75 of
`splitter.py` without its own concatenated count ever being checked.) -/
theorem splitter_budget_counterexample :
    splitSubtitles spikyTok [subA, subB, subW, subV] 5
        = [[subA], [subB, subW], [subV]]
      ∧ [subB, subW].length = 2
      ∧ ¬ spikyTok (srtCat [subB, subW]) ≤ 5 := by
  refine ⟨by decide, by decide, by decide⟩

lemma srtCat_nil : srtCat [] = [] := rfl

lemma srtCat_singleton (s : Subtitle) : srtCat [s] = toSrt s := by
  simp [srtCat]

lemma srtCat_append (l1 l2 : List Subtitle) :
    srtCat (l1 ++ l2) = srtCat l1 ++ srtCat l2 := by
  simp [srtCat]

section AdditiveTok

variable {tok : Str → Nat} (hAdd : ∀ a b : Str, tok (a ++ b) = tok a + tok b)

include hAdd

lemma tok_nil_eq_zero : tok [] = 0 := by
  have h := hAdd [] []
  simp at h
  omega

lemma tok_srtCat_append (l1 l2 : List Subtitle) :
    tok (srtCat (l1 ++ l2)) = tok (srtCat l1) + tok (srtCat l2) := by
  rw [srtCat_append, hAdd]

lemma tok_srtCat_le_left {l1 l2 : List Subtitle} {m : Nat}
    (h : tok (srtCat (l1 ++ l2)) ≤ m) : tok (srtCat l1) ≤ m := by
  rw [tok_srtCat_append hAdd] at h
  omega

lemma tok_srtCat_le_right {l1 l2 : List Subtitle} {m : Nat}
    (h : tok (srtCat (l1 ++ l2)) ≤ m) : tok (srtCat l2) ≤ m := by
  rw [tok_srtCat_append hAdd] at h
  omega

end AdditiveTok

lemma cellsOk_append {tok maxTokens} {c1 c2 : List (Option (List Subtitle))}
    (h1 : CellsOk tok maxTokens c1) (h2 : CellsOk tok maxTokens c2) :
    CellsOk tok maxTokens (c1 ++ c2) := by
  intro oc hoc v hv
  rcases List.mem_append.mp hoc with h | h
  · exact h1 oc h v hv
  · exact h2 oc h v hv

lemma cellsOk_none {tok maxTokens} : CellsOk tok maxTokens [none] := by
  intro oc hoc v hv
  simp at hoc
  subst hoc
  cases hv

lemma cellsOk_some {tok maxTokens} {v0 : List Subtitle}
    (h : ChunkWithinBudget tok maxTokens v0) :
    CellsOk tok maxTokens [some v0] := by
  intro oc hoc v hv
  simp at hoc
  subst hoc
  cases hv
  exact h

lemma cellsOk_nil {tok maxTokens} : CellsOk tok maxTokens ([] : List (Option (List Subtitle))) := by
  intro oc hoc
  simp at hoc

lemma cellsOk_freeze {tok maxTokens} {cks : List (Option (List Subtitle))}
    {cur : List Subtitle} (h : CellsOk tok maxTokens cks)
    (hcur : ChunkWithinBudget tok maxTokens cur) :
    CellsOk tok maxTokens (freezeChunks cur cks) := by
  intro oc hoc v hv
  rcases List.mem_map.mp hoc with ⟨orig, horig, heq⟩
  subst heq
  cases hv
  cases orig with
  | none => exact hcur
  | some w => exact h _ horig w rfl

lemma cellsOk_ite {tok maxTokens} {b : Bool}
    {c1 c2 : List (Option (List Subtitle))}
    (h1 : CellsOk tok maxTokens c1) (h2 : CellsOk tok maxTokens c2) :
    CellsOk tok maxTokens (if b then c1 else c2) := by
  cases b
  · simpa using h2
  · simpa using h1

lemma fallback_inv (tok : Str → Nat) (maxTokens : Nat)
    (hAdd : ∀ a b : Str, tok (a ++ b) = tok a + tok b) :
    ∀ (ps : List Subtitle) (cks : List (Option (List Subtitle)))
      (cur : List Subtitle),
      CellsOk tok maxTokens cks → tok (srtCat cur) ≤ maxTokens →
      (∀ p ∈ ps, tok (toSrt p) ≤ maxTokens) →
      CellsOk tok maxTokens
          (ps.foldl (fallbackStep tok maxTokens) (cks, cur)).1
        ∧ tok (srtCat (ps.foldl (fallbackStep tok maxTokens) (cks, cur)).2)
          ≤ maxTokens := by
  intro ps
  induction ps with
  | nil => intro cks cur hcks hcur _; exact ⟨hcks, hcur⟩
  | cons p ps ih =>
    intro cks cur hcks hcur hps
    have hp : tok (toSrt p) ≤ maxTokens := hps p (by simp)
    rw [List.foldl_cons]
    by_cases hc : (!cur.isEmpty && decide (maxTokens < tok (srtCat cur) + tok (toSrt p))) = true
    · have hstep : fallbackStep tok maxTokens (cks, cur) p
          = (freezeChunks cur (cks ++ [none]), [p]) := by
        simp only [fallbackStep]
        rw [if_pos hc]
      rw [hstep]
      refine ih _ _ ?_ ?_ (fun q hq => hps q (by simp [hq]))
      · exact cellsOk_freeze (cellsOk_append hcks cellsOk_none) (Or.inl hcur)
      · rw [srtCat_singleton]; exact hp
    · have hstep : fallbackStep tok maxTokens (cks, cur) p = (cks, cur ++ [p]) := by
        simp only [fallbackStep]
        rw [if_neg hc]
      rw [hstep]
      refine ih _ _ hcks ?_ (fun q hq => hps q (by simp [hq]))
      rw [tok_srtCat_append hAdd, srtCat_singleton]
      by_cases hnil : cur = []
      · subst hnil
        rw [srtCat_nil, tok_nil_eq_zero hAdd]
        omega
      · have hne : cur.isEmpty = false := by
          cases cur with
          | nil => exact absurd rfl hnil
          | cons x xs => rfl
        by_contra hgt
        exact hc (by simp [hne, Nat.lt_of_not_le (fun hle => hgt hle)])

lemma ne_nil_of_bnot_isEmpty {l : List Subtitle} (h : (!l.isEmpty) = true) :
    l ≠ [] := by
  cases l with
  | nil => simp at h
  | cons x xs => simp

lemma eq_nil_of_not_bnot_isEmpty {l : List Subtitle}
    (h : ¬ (!l.isEmpty) = true) : l = [] := by
  cases l with
  | nil => rfl
  | cons x xs => simp at h

lemma splitStep_inv (tok : Str → Nat) (maxTokens : Nat)
    (hAdd : ∀ a b : Str, tok (a ++ b) = tok a + tok b)
    (st : SplitState) (sub : Subtitle)
    (hinv : SplitInv tok maxTokens st) :
    SplitInv tok maxTokens (splitStep tok maxTokens st sub) := by
  obtain ⟨hcks, hcur, hpend, hpendEach⟩ := hinv
  have hnil0 : tok (srtCat []) ≤ maxTokens := by
    rw [srtCat_nil, tok_nil_eq_zero hAdd]; omega
  have hsubOk : ∀ h1 : maxTokens < tok (toSrt sub),
      ChunkWithinBudget tok maxTokens [sub] := fun h1 => Or.inr ⟨sub, rfl, h1⟩
  simp only [splitStep]
  split_ifs with h1 h2 h3 h4 h5 h6 h7 h8 h9 h10 h11
  · -- oversize, pending nonempty, current nonempty
    refine ⟨?_, hnil0, fun h => absurd rfl h, fun p hp => absurd hp (by simp)⟩
    refine cellsOk_append (cellsOk_freeze ?_ (Or.inl hcur)) (cellsOk_some (hsubOk h1))
    refine cellsOk_append (cellsOk_append hcks cellsOk_none) (cellsOk_some ?_)
    exact Or.inl (tok_srtCat_le_right hAdd (hpend (ne_nil_of_bnot_isEmpty h2)))
  · -- oversize, pending nonempty, current empty
    refine ⟨?_, hnil0, fun h => absurd rfl h, fun p hp => absurd hp (by simp)⟩
    refine cellsOk_append (cellsOk_freeze ?_ (Or.inl hcur)) (cellsOk_some (hsubOk h1))
    refine cellsOk_append (cellsOk_append hcks cellsOk_nil) (cellsOk_some ?_)
    exact Or.inl (tok_srtCat_le_right hAdd (hpend (ne_nil_of_bnot_isEmpty h2)))
  · -- oversize, pending empty, current nonempty
    refine ⟨?_, hnil0, fun h => absurd rfl h, fun p hp => absurd hp (by simp)⟩
    exact cellsOk_append (cellsOk_freeze (cellsOk_append hcks cellsOk_none) (Or.inl hcur))
      (cellsOk_some (hsubOk h1))
  · -- oversize, pending empty, current empty
    refine ⟨?_, hnil0, fun h => absurd rfl h, fun p hp => absurd hp (by simp)⟩
    exact cellsOk_append hcks (cellsOk_some (hsubOk h1))
  · -- fits, sentence end: extend current
    exact ⟨hcks, h5, fun h => absurd rfl h, fun p hp => absurd hp (by simp)⟩
  · -- fits, not sentence end: grow pending
    refine ⟨hcks, hcur, fun _ => h5, ?_⟩
    intro p hp
    rcases List.mem_append.mp hp with h | h
    · exact hpendEach p h
    · simp at h
      subst h
      exact Nat.not_lt.mp h1
  · -- over budget, pending fits, sentence end, current nonempty
    refine ⟨?_, hnil0, fun h => absurd rfl h, fun p hp => absurd hp (by simp)⟩
    exact cellsOk_freeze
      (cellsOk_append (cellsOk_append hcks cellsOk_none) (cellsOk_some (Or.inl h7)))
      (Or.inl hcur)
  · -- over budget, pending fits, sentence end, current empty
    refine ⟨?_, hnil0, fun h => absurd rfl h, fun p hp => absurd hp (by simp)⟩
    exact cellsOk_freeze
      (cellsOk_append (cellsOk_append hcks cellsOk_nil) (cellsOk_some (Or.inl h7)))
      (Or.inl hcur)
  · -- over budget, pending fits, not sentence end, current nonempty
    refine ⟨?_, h7, fun h => absurd rfl h, fun p hp => absurd hp (by simp)⟩
    exact cellsOk_freeze (cellsOk_append hcks cellsOk_none) (Or.inl hcur)
  · -- over budget, pending fits, not sentence end, current empty
    refine ⟨?_, h7, fun h => absurd rfl h, fun p hp => absurd hp (by simp)⟩
    exact cellsOk_freeze (cellsOk_append hcks cellsOk_nil) (Or.inl hcur)
  · -- fallback distribution, current nonempty
    have hps : ∀ p ∈ st.pending ++ [sub], tok (toSrt p) ≤ maxTokens := by
      intro p hp
      rcases List.mem_append.mp hp with h | h
      · exact hpendEach p h
      · simp at h; subst h; exact Nat.not_lt.mp h1
    obtain ⟨hc, hcur2⟩ := fallback_inv tok maxTokens hAdd (st.pending ++ [sub])
      (st.chunks ++ [none]) st.current
      (cellsOk_append hcks cellsOk_none) hcur hps
    exact ⟨hc, hcur2, fun h => absurd rfl h, fun p hp => absurd hp (by simp)⟩
  · -- fallback distribution, current empty
    have hps : ∀ p ∈ st.pending ++ [sub], tok (toSrt p) ≤ maxTokens := by
      intro p hp
      rcases List.mem_append.mp hp with h | h
      · exact hpendEach p h
      · simp at h; subst h; exact Nat.not_lt.mp h1
    obtain ⟨hc, hcur2⟩ := fallback_inv tok maxTokens hAdd (st.pending ++ [sub])
      (st.chunks ++ []) st.current
      (cellsOk_append hcks cellsOk_nil) hcur hps
    exact ⟨hc, hcur2, fun h => absurd rfl h, fun p hp => absurd hp (by simp)⟩

lemma frozen_map_ok (tok : Str → Nat) (maxTokens : Nat)
    {cks : List (Option (List Subtitle))} {cur : List Subtitle}
    (hc : CellsOk tok maxTokens cks)
    (hcu : tok (srtCat cur) ≤ maxTokens) :
    ∀ c ∈ (freezeChunks cur cks).map (fun oc => oc.getD []),
      ChunkWithinBudget tok maxTokens c := by
  intro c hmem
  rcases List.mem_map.mp hmem with ⟨oc, hoc, heq⟩
  subst heq
  rcases List.mem_map.mp hoc with ⟨orig, horig, heq2⟩
  subst heq2
  cases orig with
  | none => exact Or.inl hcu
  | some w => exact hc _ horig w rfl

lemma splitFinish_ok (tok : Str → Nat) (maxTokens : Nat)
    (hAdd : ∀ a b : Str, tok (a ++ b) = tok a + tok b)
    (st : SplitState) (hinv : SplitInv tok maxTokens st) :
    ∀ c ∈ splitFinish tok maxTokens st, ChunkWithinBudget tok maxTokens c := by
  obtain ⟨hcks, hcur, hpend, hpendEach⟩ := hinv
  simp only [splitFinish]
  split_ifs with h1 h2 h3 h4 h5
  · -- leftover merged into current (line 153); final current nonempty
    refine frozen_map_ok tok maxTokens (cellsOk_append hcks cellsOk_none) ?_
    rcases (Bool.and_eq_true ..).mp h2 with ⟨_, hle⟩
    exact of_decide_eq_true hle
  · -- leftover merged into current; final current empty
    refine frozen_map_ok tok maxTokens hcks ?_
    rcases (Bool.and_eq_true ..).mp h2 with ⟨_, hle⟩
    exact of_decide_eq_true hle
  · -- lines 155-157, running chunk nonempty: flush it, pending becomes
    -- the final chunk
    refine frozen_map_ok tok maxTokens ?_ ?_
    · exact cellsOk_append
        (cellsOk_freeze (cellsOk_append hcks cellsOk_none) (Or.inl hcur))
        cellsOk_none
    · exact tok_srtCat_le_right hAdd (hpend (ne_nil_of_bnot_isEmpty h1))
  · -- lines 155-157, running chunk empty
    refine frozen_map_ok tok maxTokens ?_ ?_
    · exact cellsOk_append
        (cellsOk_freeze (cellsOk_append hcks cellsOk_nil) (Or.inl hcur))
        cellsOk_none
    · exact tok_srtCat_le_right hAdd (hpend (ne_nil_of_bnot_isEmpty h1))
  · -- no leftover; final current nonempty
    exact frozen_map_ok tok maxTokens (cellsOk_append hcks cellsOk_none) hcur
  · -- no leftover; final current empty
    exact frozen_map_ok tok maxTokens hcks hcur

/-- C4 (amended): PROVIDED the token counter is additive over string
concatenation, every chunk emitted by `split_subtitles` has a serialized
token count at most `max_tokens`, except chunks consisting of exactly
one entry whose own serialized count exceeds `max_tokens`. -/
theorem splitter_budget_of_additive (tok : Str → Nat)
    (hAdd : ∀ a b : Str, tok (a ++ b) = tok a + tok b)
    (subtitles : List Subtitle) (maxTokens : Nat) (hpos : 0 < maxTokens) :
    ∀ c ∈ splitSubtitles tok subtitles maxTokens,
      tok (srtCat c) ≤ maxTokens
        ∨ ∃ s, c = [s] ∧ maxTokens < tok (toSrt s) := by
  intro c hc
  simp only [splitSubtitles] at hc
  split_ifs at hc with h
  · simp at hc
  · have hinit : SplitInv tok maxTokens ⟨[], [], []⟩ := by
      refine ⟨cellsOk_nil, ?_, fun h => absurd rfl h, fun p hp => absurd hp (by simp)⟩
      rw [srtCat_nil, tok_nil_eq_zero hAdd]
      omega
    have hfold : SplitInv tok maxTokens
        (subtitles.foldl (splitStep tok maxTokens) ⟨[], [], []⟩) := by
      have hgen : ∀ (l : List Subtitle) (st0 : SplitState),
          SplitInv tok maxTokens st0 →
          SplitInv tok maxTokens (l.foldl (splitStep tok maxTokens) st0) := by
        intro l
        induction l with
        | nil => intro st0 h0; exact h0
        | cons x xs ih =>
          intro st0 h0
          rw [List.foldl_cons]
          exact ih _ (splitStep_inv tok maxTokens hAdd st0 x h0)
      exact hgen subtitles _ hinit
    exact splitFinish_ok tok maxTokens hAdd _ hfold c hc

/-- Witness for `splitter_budget_of_additive`: with the
one-token-per-character counter, the single chunk `[subA]` produced for
the one-entry input fits the budget of 100. -/
theorem splitter_budget_of_additive_witness :
    lenTok (srtCat [subA]) ≤ 100
      ∨ ∃ s, [subA] = [s] ∧ 100 < lenTok (toSrt s) :=
  splitter_budget_of_additive lenTok (fun a b => List.length_append a b)
    [subA] 100 (by decide) [subA] (by decide)

/-- C5 (amended): the splitter has no minimum-chunk-size post-merge.
Whenever a sentence-ended entry `a`, an unfinished entry `b` that fits
the budget together with `a`, and an oversized entry `c` arrive in that
order, the output is `[[a], [b], [c]]`: the one-entry chunk `[b]` is
left standalone although merging it into the preceding chunk `[a]`
would still fit `max_tokens`; the only end-of-scan merging in
`split_subtitles` is of leftover pending entries into the running chunk
(lines 144-157). -/
theorem splitter_no_min_size_postmerge (tok : Str → Nat) (maxTokens : Nat)
    (a b c : Subtitle)
    (hpos : 0 < maxTokens)
    (ha : tok (toSrt a) ≤ maxTokens)
    (haEnd : isSentenceEnd a.content = true)
    (hb : tok (toSrt b) ≤ maxTokens)
    (hbEnd : isSentenceEnd b.content = false)
    (hab : tok (srtCat [a, b]) ≤ maxTokens)
    (hc : maxTokens < tok (toSrt c)) :
    splitSubtitles tok [a, b, c] maxTokens = [[a], [b], [c]] := by
  have e1 : splitStep tok maxTokens ⟨[], [], []⟩ a = ⟨[], [a], []⟩ := by
    simp only [splitStep, List.nil_append]
    rw [if_neg (Nat.not_lt.mpr ha), srtCat_singleton, if_pos ha, if_pos haEnd]
  have e2 : splitStep tok maxTokens ⟨[], [a], []⟩ b = ⟨[], [a], [b]⟩ := by
    simp only [splitStep, List.nil_append]
    rw [if_neg (Nat.not_lt.mpr hb)]
    rw [show [a] ++ [b] = [a, b] from rfl, if_pos hab, if_neg (by rw [hbEnd]; simp)]
  have e3 : splitStep tok maxTokens ⟨[], [a], [b]⟩ c
      = ⟨[some [a], some [b], some [c]], [], []⟩ := by
    simp only [splitStep, List.nil_append]
    rw [if_pos hc]
    simp [freezeChunks]
  have efin : splitFinish tok maxTokens ⟨[some [a], some [b], some [c]], [], []⟩
      = [[a], [b], [c]] := by
    simp [splitFinish, freezeChunks]
  simp only [splitSubtitles]
  rw [if_neg (by simp; omega)]
  rw [List.foldl_cons, e1, List.foldl_cons, e2, List.foldl_cons, e3,
    List.foldl_nil, efin]

/-- Witness for `splitter_no_min_size_postmerge`: with the
one-token-per-character counter and budget 100, the input
`[subA ("x."), subB ("y"), subBig (70 chars)]` splits into
`[[subA], [subB], [subBig]]`. -/
theorem splitter_no_min_size_postmerge_witness :
    splitSubtitles lenTok [subA, subB, subBig] 100 = [[subA], [subB], [subBig]] :=
  splitter_no_min_size_postmerge lenTok 100 subA subB subBig (by decide)
    (by decide) (by decide) (by decide) (by decide) (by decide) (by decide)

/-- C5 (counterexample): the claimed minimum-size post-processing does
not happen.  In `splitSubtitles lenTok [subA, subB, subBig] 100` the
chunk `[subB]` has fewer than 3 entries and its combination with the
immediately preceding chunk `[subA]` fits the budget
(`lenTok (srtCat ([subA] ++ [subB])) = 71 ≤ 100`), yet the output keeps
the two chunks separate instead of merging them. -/
theorem splitter_no_postmerge_counterexample :
    splitSubtitles lenTok [subA, subB, subBig] 100 = [[subA], [subB], [subBig]]
      ∧ ([subB] : List Subtitle).length < 3
      ∧ lenTok (srtCat ([subA] ++ [subB])) ≤ 100
      ∧ splitSubtitles lenTok [subA, subB, subBig] 100
        ≠ [[subA, subB], [subBig]] := by
  refine ⟨by decide, by decide, by decide, by decide⟩

/-- C6 (counterexample): when the processed output cannot be positionally
aligned with the original chunk (1 processed entry against 2 originals,
after the failed retry), the pipeline does NOT fail: Python's `zip`
truncates, so the repair emits a PARTIAL chunk of 1 entry and the run
continues — contradicting the claimed FAIL transition. -/
theorem workflow_repair_truncates :
    chunkReconcile [origEntry1, origEntry2] [procEntry1] [retryEntry1]
        = [⟨some 1, 0, 1000000, str "uno", str "X1"⟩]
      ∧ (chunkReconcile [origEntry1, origEntry2] [procEntry1] [retryEntry1]).length
        = 1
      ∧ (chunkReconcile [origEntry1, origEntry2] [procEntry1]
          [retryEntry1]).length ≠ [origEntry1, origEntry2].length := by
  refine ⟨by decide, by decide, by decide⟩

/-- C6 (amended): when both the first processing and the retry fail the
count validation, the chunk is rebuilt by zipping the original entries
positionally with the FIRST processed entries — keeping original
`index`, `start`, `end` and `proprietary` and taking only `content`
from the processed side; the zip truncates to the shorter side (a
partial chunk, `min` of the lengths), and no failure occurs. -/
theorem workflow_repair_positional (orig first retry : List Subtitle)
    (hcount : first.length ≠ orig.length)
    (hretry : retry.length ≠ orig.length) :
    chunkReconcile orig first retry = orig.zipWith mkRepair first
      ∧ (chunkReconcile orig first retry).length
        = min orig.length first.length
      ∧ ∀ (i : Nat) (h : i < (chunkReconcile orig first retry).length),
          ∃ (h1 : i < orig.length) (h2 : i < first.length),
            (chunkReconcile orig first retry)[i]
              = { index := orig[i].index, start := orig[i].start,
                  end_ := orig[i].end_, content := first[i].content,
                  proprietary := orig[i].proprietary } := by
  have hmain : chunkReconcile orig first retry = orig.zipWith mkRepair first := by
    unfold chunkReconcile
    rw [if_pos hcount, if_neg hretry]
  refine ⟨hmain, ?_, ?_⟩
  · rw [hmain, List.length_zipWith]
  · intro i h
    have hlen : i < min orig.length first.length := by
      rw [hmain, List.length_zipWith] at h
      exact h
    refine ⟨lt_of_lt_of_le hlen (Nat.min_le_left ..),
      lt_of_lt_of_le hlen (Nat.min_le_right ..), ?_⟩
    have hzl : i < (orig.zipWith mkRepair first).length := by
      rw [List.length_zipWith]
      exact hlen
    have hz : (orig.zipWith mkRepair first)[i]
        = mkRepair orig[i] first[i] := List.getElem_zipWith ..
    simp only [hmain]
    rw [hz]
    rfl

/-- Witness for `workflow_repair_positional` at the concrete mismatched
chunk. -/
theorem workflow_repair_positional_witness :
    chunkReconcile [origEntry1, origEntry2] [procEntry1] [retryEntry1]
      = List.zipWith mkRepair [origEntry1, origEntry2] [procEntry1] :=
  (workflow_repair_positional [origEntry1, origEntry2] [procEntry1]
    [retryEntry1] (by decide) (by decide)).1

lemma chunkLoop_shape (outcome : Nat → ChunkOutcome) (n : Nat) :
    ∀ (k i : Nat),
      (∀ e ∈ (chunkLoop outcome n i k).1, e.error = none)
        ∧ ((chunkLoop outcome n i k).2 = false →
            ∃ e, (chunkLoop outcome n i k).1.getLast? = some e
              ∧ IsFailureMsg e.content ∧ e.error = none) := by
  intro k
  induction k with
  | zero =>
    intro i
    refine ⟨?_, ?_⟩
    · intro e he; simp [chunkLoop] at he
    · intro h; simp [chunkLoop] at h
  | succ k ih =>
    intro i
    have hfailcase : ∀ m : Msg, IsFailureMsg m →
        (∀ e ∈ ([⟨.processingChunk i n, none⟩, ⟨m, none⟩] : List RunEvent),
            e.error = none)
          ∧ (false = false →
              ∃ e, ([⟨.processingChunk i n, none⟩,
                  (⟨m, none⟩ : RunEvent)] : List RunEvent).getLast? = some e
                ∧ IsFailureMsg e.content ∧ e.error = none) := by
      intro m hm
      refine ⟨?_, fun _ => ⟨⟨m, none⟩, rfl, hm, rfl⟩⟩
      intro e he
      rcases List.mem_cons.mp he with h | h
      · subst h; rfl
      · simp at h; subst h; rfl
    rcases hoc : outcome i with _ | _ | _ | _ | _ | _
    · -- ok: continue with the rest of the loop
      have heq : chunkLoop outcome n i (k + 1)
          = (⟨.processingChunk i n, none⟩ :: [⟨.chunkDone i n, none⟩]
              ++ (chunkLoop outcome n (i + 1) k).1,
            (chunkLoop outcome n (i + 1) k).2) := by
        simp [chunkLoop, chunkEvents, hoc]
      obtain ⟨ihall, ihlast⟩ := ih (i + 1)
      rw [heq]
      refine ⟨?_, ?_⟩
      · intro e he
        rcases List.mem_cons.mp he with h | he2
        · subst h; rfl
        · rcases List.mem_append.mp he2 with h | h
          · simp at h; subst h; rfl
          · exact ihall e h
      · intro hsnd
        obtain ⟨e, hle, hfail, herr⟩ := ihlast hsnd
        have hne : (chunkLoop outcome n (i + 1) k).1 ≠ [] := by
          intro h0
          rw [h0] at hle
          simp at hle
        have hgl : (⟨Msg.processingChunk i n, none⟩
            :: [⟨Msg.chunkDone i n, none⟩]
            ++ (chunkLoop outcome n (i + 1) k).1 : List RunEvent).getLast?
            = some e := by
          rw [show (⟨Msg.processingChunk i n, none⟩
              :: [⟨Msg.chunkDone i n, none⟩]
              ++ (chunkLoop outcome n (i + 1) k).1 : List RunEvent)
            = [⟨Msg.processingChunk i n, none⟩, ⟨Msg.chunkDone i n, none⟩]
              ++ (chunkLoop outcome n (i + 1) k).1 from rfl]
          rw [List.getLast?_append_of_ne_nil _ hne]
          exact hle
        exact ⟨e, hgl, hfail, herr⟩
    · rw [show chunkLoop outcome n i (k + 1)
          = ([⟨.processingChunk i n, none⟩, ⟨.composeFailed i, none⟩], false)
        from by simp [chunkLoop, chunkEvents, hoc]]
      exact hfailcase _ trivial
    · rw [show chunkLoop outcome n i (k + 1)
          = ([⟨.processingChunk i n, none⟩, ⟨.processFailed i, none⟩], false)
        from by simp [chunkLoop, chunkEvents, hoc]]
      exact hfailcase _ trivial
    · rw [show chunkLoop outcome n i (k + 1)
          = ([⟨.processingChunk i n, none⟩, ⟨.parseFailed i, none⟩], false)
        from by simp [chunkLoop, chunkEvents, hoc]]
      exact hfailcase _ trivial
    · rw [show chunkLoop outcome n i (k + 1)
          = ([⟨.processingChunk i n, none⟩, ⟨.repairFailed i, none⟩], false)
        from by simp [chunkLoop, chunkEvents, hoc]]
      exact hfailcase _ trivial
    · rw [show chunkLoop outcome n i (k + 1)
          = ([⟨.processingChunk i n, none⟩, ⟨.retryFailed i, none⟩], false)
        from by simp [chunkLoop, chunkEvents, hoc]]
      exact hfailcase _ trivial

/-- C8 (counterexample): a failed run's stream does NOT end with an
event carrying an error field.  When splitting yields no chunks, the
stream ends with the `splitFailed` message whose `error` field is
`none` (the workflow never passes `error=` to `RunResponse`), and that
terminal event is not the success event either — so the claimed
"success or exactly one error-bearing event" dichotomy fails. -/
theorem workflow_no_error_event_counterexample :
    runEvents (str "a.srt") (str "a_zh.srt") 0 (fun _ => .ok)
        = [⟨.startProcessing (str "a.srt"), none⟩, ⟨.splitting, none⟩,
           ⟨.splitFailed, none⟩]
      ∧ (runEvents (str "a.srt") (str "a_zh.srt") 0
          (fun _ => .ok)).getLast? = some ⟨.splitFailed, none⟩
      ∧ (⟨Msg.splitFailed, none⟩ : RunEvent).error = none
      ∧ Msg.splitFailed ≠ Msg.success (str "a_zh.srt") := by
  refine ⟨by decide, by decide, rfl, by decide⟩

/-- C8 (amended): every run of the pipeline produces a finite
status-event stream in which NO event carries an error field (the
workflow constructs every `RunResponse` with `content=` only), and
which ends either with the terminal success event naming the output
path or with a failure-termination message after which no further
events are produced. -/
theorem workflow_stream_shape (inputPath outFile : Str) (numChunks : Nat)
    (outcome : Nat → ChunkOutcome) :
    (∀ e ∈ runEvents inputPath outFile numChunks outcome, e.error = none)
      ∧ ∃ e, (runEvents inputPath outFile numChunks outcome).getLast? = some e
          ∧ e.error = none
          ∧ (e.content = .success outFile ∨ IsFailureMsg e.content) := by
  obtain ⟨hall, hlast⟩ := chunkLoop_shape outcome numChunks numChunks 1
  by_cases hz : numChunks = 0
  · subst hz
    refine ⟨?_, ⟨⟨.splitFailed, none⟩, by simp [runEvents], rfl, Or.inr trivial⟩⟩
    intro e he
    simp only [runEvents, if_pos rfl] at he
    rcases List.mem_append.mp he with h | h
    · rcases List.mem_cons.mp h with h2 | h2
      · subst h2; rfl
      · simp at h2; subst h2; rfl
    · simp at h; subst h; rfl
  · have heq : runEvents inputPath outFile numChunks outcome
        = [⟨.startProcessing inputPath, none⟩, ⟨.splitting, none⟩]
          ++ ⟨.splitCount numChunks, none⟩ ::
            ((chunkLoop outcome numChunks 1 numChunks).1
              ++ if (chunkLoop outcome numChunks 1 numChunks).2 then
                  [⟨.saving outFile, none⟩, ⟨.success outFile, none⟩]
                else []) := by
      simp [runEvents, hz]
    rw [heq]
    constructor
    · intro e he
      rcases List.mem_append.mp he with h | h
      · rcases List.mem_cons.mp h with h2 | h2
        · subst h2; rfl
        · simp at h2; subst h2; rfl
      · rcases List.mem_cons.mp h with h2 | h2
        · subst h2; rfl
        · rcases List.mem_append.mp h2 with h3 | h3
          · exact hall e h3
          · by_cases hloop : (chunkLoop outcome numChunks 1 numChunks).2 = true
            · rw [if_pos hloop] at h3
              rcases List.mem_cons.mp h3 with h4 | h4
              · subst h4; rfl
              · simp at h4; subst h4; rfl
            · rw [if_neg hloop] at h3
              simp at h3
    · by_cases hloop : (chunkLoop outcome numChunks 1 numChunks).2 = true
      · -- the loop completed: the stream ends with the success event
        refine ⟨⟨.success outFile, none⟩, ?_, rfl, Or.inl rfl⟩
        rw [if_pos hloop]
        rw [List.getLast?_append_of_ne_nil _ (by simp)]
        rw [show (⟨Msg.splitCount numChunks, none⟩ ::
              ((chunkLoop outcome numChunks 1 numChunks).1
                ++ [⟨Msg.saving outFile, none⟩,
                    ⟨Msg.success outFile, none⟩]) : List RunEvent)
            = ([⟨Msg.splitCount numChunks, none⟩]
                ++ (chunkLoop outcome numChunks 1 numChunks).1)
              ++ [⟨Msg.saving outFile, none⟩, ⟨Msg.success outFile, none⟩]
          from by simp]
        rw [List.getLast?_append_of_ne_nil _ (by simp)]
        rfl
      · -- the loop aborted: its last failure message ends the stream
        have hloop2 : (chunkLoop outcome numChunks 1 numChunks).2 = false :=
          Bool.eq_false_iff.mpr hloop
        obtain ⟨e, hle, hfail, herr⟩ := hlast hloop2
        have hne : (chunkLoop outcome numChunks 1 numChunks).1 ≠ [] := by
          intro h0; rw [h0] at hle; simp at hle
        refine ⟨e, ?_, herr, Or.inr hfail⟩
        rw [if_neg hloop, List.append_nil]
        rw [List.getLast?_append_of_ne_nil _ (by simp)]
        rw [show (⟨Msg.splitCount numChunks, none⟩ ::
              (chunkLoop outcome numChunks 1 numChunks).1 : List RunEvent)
            = [⟨Msg.splitCount numChunks, none⟩]
              ++ (chunkLoop outcome numChunks 1 numChunks).1 from rfl]
        rw [List.getLast?_append_of_ne_nil _ hne]
        exact hle

/-- Witness for `workflow_stream_shape`: a two-chunk run where every
chunk succeeds ends with the success event naming the output file. -/
theorem workflow_stream_shape_witness :
    (∀ e ∈ runEvents (str "a.srt") (str "out.srt") 2 (fun _ => .ok),
        e.error = none)
      ∧ ∃ e, (runEvents (str "a.srt") (str "out.srt") 2
            (fun _ => .ok)).getLast? = some e
          ∧ e.error = none
          ∧ (e.content = .success (str "out.srt") ∨ IsFailureMsg e.content) :=
  workflow_stream_shape (str "a.srt") (str "out.srt") 2 (fun _ => .ok)

/-- C10: `compose` with `reindex=True` never mutates its input.  After
the call every record the caller could previously reach is unchanged
(the new heap extends the old one pointwise), and the entries the
composition used are freshly allocated (their references lie past the
end of the old heap). -/
theorem composeReindex_no_mutation (heap : List Subtitle) (refs : List Nat)
    (startIndex : Int) :
    (∀ i, i < heap.length →
        (composeReindexHeap heap refs startIndex).1[i]? = heap[i]?)
      ∧ ∀ r ∈ (composeReindexHeap heap refs startIndex).2.1,
          heap.length ≤ r := by
  constructor
  · intro i hi
    show (heap ++ _)[i]? = heap[i]?
    rw [List.getElem?_append, if_pos hi]
  · intro r hr
    simp only [composeReindexHeap] at hr
    rcases List.mem_map.mp hr with ⟨k, hk, heq⟩
    omega

/-- Witness for `composeReindex_no_mutation`: on a one-record heap the
record is untouched by the call. -/
theorem composeReindex_no_mutation_witness :
    (composeReindexHeap [helloFar] [0] 1).1[0]? = some helloFar := by
  have h := (composeReindex_no_mutation [helloFar] [0] 1).1 0 (by decide)
  rw [h]
  decide

/-- C3 (counterexample): round-tripping is NOT content-exact.  The text
`"1\n00:00:00,000 --> 00:00:01,000\na\n\nb\n\n"` parses cleanly to one
entry whose content contains an interior blank line (`"a\n\nb"` — the
lazy content group swallows the blank line because what follows it is
not a new block); `compose(…, reindex=False)` (strict mode) removes the
blank line, so re-parsing yields content `"a\nb"` ≠ `"a\n\nb"`. -/
theorem parse_compose_content_counterexample :
    parse (str "1\n00:00:00,000 --> 00:00:01,000\na\n\nb\n\n") false
        = .ok [⟨some 1, 0, 1000000, str "a\n\nb", []⟩]
      ∧ parse (composeNoReindex [⟨some 1, 0, 1000000, str "a\n\nb", []⟩]) false
        = .ok [⟨some 1, 0, 1000000, str "a\nb", []⟩]
      ∧ str "a\nb" ≠ str "a\n\nb" := by
  refine ⟨rfl, rfl, by decide⟩

/-! ## Digit-string lemmas -/

lemma digVal_digChar {d : Nat} (h : d < 10) : digVal (digChar d) = d := by
  interval_cases d <;> rfl

lemma isDig_digChar {d : Nat} (h : d < 10) : isDig (digChar d) = true := by
  interval_cases d <;> rfl

lemma digitsToNat_append (a b : Str) :
    digitsToNat (a ++ b) = b.foldl (fun acc c => acc * 10 + digVal c) (digitsToNat a) := by
  simp [digitsToNat, List.foldl_append]

lemma digitsToNat_append_last (a : Str) (c : Char) :
    digitsToNat (a ++ [c]) = digitsToNat a * 10 + digVal c := by
  rw [digitsToNat_append]
  rfl

lemma natToStrAux_spec : ∀ (fuel n : Nat), n < fuel →
    natToStrAux fuel n ≠ []
      ∧ (∀ c ∈ natToStrAux fuel n, isDig c = true)
      ∧ digitsToNat (natToStrAux fuel n) = n := by
  intro fuel
  induction fuel with
  | zero => intro n h; omega
  | succ fuel ih =>
    intro n h
    by_cases h10 : n < 10
    · refine ⟨by simp [natToStrAux, h10], ?_, ?_⟩
      · intro c hc
        simp [natToStrAux, h10] at hc
        subst hc
        exact isDig_digChar h10
      · simp [natToStrAux, h10, digitsToNat]
        exact digVal_digChar h10
    · have hdiv : n / 10 < fuel := by omega
      obtain ⟨ihne, ihdig, ihval⟩ := ih (n / 10) hdiv
      have heq : natToStrAux (fuel + 1) n
          = natToStrAux fuel (n / 10) ++ [digChar (n % 10)] := by
        simp [natToStrAux, h10]
      refine ⟨by simp [heq], ?_, ?_⟩
      · intro c hc
        rw [heq] at hc
        rcases List.mem_append.mp hc with h2 | h2
        · exact ihdig c h2
        · simp at h2; subst h2; exact isDig_digChar (by omega)
      · rw [heq, digitsToNat_append_last, ihval, digVal_digChar (by omega)]
        omega

lemma natToStr_spec (n : Nat) :
    natToStr n ≠ [] ∧ (∀ c ∈ natToStr n, isDig c = true)
      ∧ digitsToNat (natToStr n) = n :=
  natToStrAux_spec (n + 1) n (by omega)

lemma isDig_ne_dash {c : Char} (h : isDig c = true) : c ≠ '-' := by
  intro he; subst he; simp [isDig] at h

lemma isDig_not_space {c : Char} (h : isDig c = true) : isPySpace c = false := by
  simp only [isDig, Bool.and_eq_true, decide_eq_true_eq] at h
  obtain ⟨h1, h2⟩ := h
  simp only [isPySpace, Bool.or_eq_false_iff, decide_eq_false_iff_not]
  refine ⟨⟨⟨⟨⟨?_, ?_⟩, ?_⟩, ?_⟩, ?_⟩, ?_⟩ <;> (intro he; subst he; revert h1 h2; decide)

lemma digitsToNat_zeros (k : Nat) (s : Str) :
    digitsToNat (List.replicate k '0' ++ s) = digitsToNat s := by
  induction k with
  | zero => rfl
  | succ k ih =>
    rw [List.replicate_succ, List.cons_append]
    show digitsToNat (List.replicate k '0' ++ s) = _
    exact ih

lemma zpad_digits (w : Nat) (s : Str) (hne : s ≠ [])
    (hdig : ∀ c ∈ s, isDig c = true) :
    (∀ c ∈ zpad w s, isDig c = true)
      ∧ digitsToNat (zpad w s) = digitsToNat s ∧ zpad w s ≠ [] := by
  have harm : zpad w s = List.replicate (w - s.length) '0' ++ s := by
    cases s with
    | nil => exact absurd rfl hne
    | cons c cs =>
      have : c ≠ '-' := isDig_ne_dash (hdig c (by simp))
      simp only [zpad]
      split
      · rename_i heq
        exfalso
        rw [List.cons.injEq] at heq
        exact this heq.1
      · rfl
  rw [harm]
  refine ⟨?_, digitsToNat_zeros .., by simp [hne]⟩
  intro c hc
  rcases List.mem_append.mp hc with h | h
  · rw [List.eq_of_mem_replicate h]; rfl
  · exact hdig c h

/-! ## takeWhile / dropWhile across safe appends -/

lemma takeWhile_append_all {p : Char → Bool} : ∀ (a b : Str),
    (∀ c ∈ a, p c = true) → (a ++ b).takeWhile p = a ++ b.takeWhile p := by
  intro a
  induction a with
  | nil => intro b _; rfl
  | cons c cs ih =>
    intro b h
    have hc : p c = true := h c (by simp)
    simp only [List.cons_append, List.takeWhile_cons, hc, if_true]
    rw [ih b (fun x hx => h x (by simp [hx]))]

lemma dropWhile_append_all {p : Char → Bool} : ∀ (a b : Str),
    (∀ c ∈ a, p c = true) → (a ++ b).dropWhile p = b.dropWhile p := by
  intro a
  induction a with
  | nil => intro b _; rfl
  | cons c cs ih =>
    intro b h
    have hc : p c = true := h c (by simp)
    simp only [List.cons_append, List.dropWhile_cons, hc, if_true]
    exact ih b (fun x hx => h x (by simp [hx]))

lemma takeWhile_head_false {p : Char → Bool} (b : Str)
    (h : ∀ c, b.head? = some c → p c = false) : b.takeWhile p = [] := by
  cases b with
  | nil => rfl
  | cons c cs => simp [List.takeWhile_cons, h c rfl]

lemma dropWhile_stop {p : Char → Bool} (b : Str)
    (h : ∀ c, b.head? = some c → p c = false) : b.dropWhile p = b := by
  cases b with
  | nil => rfl
  | cons c cs => simp [List.dropWhile_cons, h c rfl]

/-- `takeDigits` on a nonempty digit run followed by a non-digit
boundary splits exactly at the boundary. -/
lemma takeDigits_run (ds r : Str) (hne : ds ≠ [])
    (hdig : ∀ c ∈ ds, isDig c = true)
    (hr : ∀ c, r.head? = some c → isDig c = false) :
    takeDigits (ds ++ r) = some (ds, r) := by
  have ht : (ds ++ r).takeWhile isDig = ds := by
    rw [takeWhile_append_all ds r hdig, takeWhile_head_false r hr, List.append_nil]
  have hd : (ds ++ r).dropWhile isDig = r := by
    rw [dropWhile_append_all ds r hdig, dropWhile_stop r hr]
  simp [takeDigits, ht, hd, hne]

/-- `parseTs` on an assembled `H:M:S,MS` prefix followed by a
non-digit boundary. -/
lemma parseTs_build (h m s2 ms r : Str)
    (hh : DigRun h) (hm : DigRun m) (hs : DigRun s2) (hms : DigRun ms)
    (hr : ∀ c, r.head? = some c → isDig c = false) :
    parseTs (h ++ ':' :: (m ++ ':' :: (s2 ++ ',' :: (ms ++ r))))
      = some ((((digitsToNat h * 3600 + digitsToNat m * 60 + digitsToNat s2) * 1000
          + digitsToNat ms) * 1000 : Int), r) := by
  have e1 : takeDigits (h ++ ':' :: (m ++ ':' :: (s2 ++ ',' :: (ms ++ r))))
      = some (h, ':' :: (m ++ ':' :: (s2 ++ ',' :: (ms ++ r)))) :=
    takeDigits_run _ _ hh.1 hh.2 (by intro c hc; simp at hc; subst hc; rfl)
  have e2 : takeDigits (m ++ ':' :: (s2 ++ ',' :: (ms ++ r)))
      = some (m, ':' :: (s2 ++ ',' :: (ms ++ r))) :=
    takeDigits_run _ _ hm.1 hm.2 (by intro c hc; simp at hc; subst hc; rfl)
  have e3 : takeDigits (s2 ++ ',' :: (ms ++ r))
      = some (s2, ',' :: (ms ++ r)) :=
    takeDigits_run _ _ hs.1 hs.2 (by intro c hc; simp at hc; subst hc; rfl)
  have e4 : takeDigits (ms ++ r) = some (ms, r) :=
    takeDigits_run _ _ hms.1 hms.2 hr
  simp [parseTs, e1, e2, e3, e4, isTsDelim]

lemma intToStr_ofNat (m : Nat) : intToStr (m : Int) = natToStr m := by
  simp [intToStr]

/-- A zero-padded decimal rendering is a digit run with the original
value. -/
lemma zpad_natToStr (w v : Nat) :
    DigRun (zpad w (natToStr v)) ∧ digitsToNat (zpad w (natToStr v)) = v := by
  obtain ⟨hne, hdig, hval⟩ := natToStr_spec v
  obtain ⟨hd, hv, hn⟩ := zpad_digits w (natToStr v) hne hdig
  exact ⟨⟨hn, hd⟩, hv.trans hval⟩

/-- `_format_timestamp` followed by a non-digit boundary parses back to
exactly the formatted value, for nonnegative whole-millisecond times. -/
lemma parseTs_formatTimestamp (t : Time) (ht : 0 ≤ t) (hmod : t % 1000 = 0)
    (r : Str) (hr : ∀ c, r.head? = some c → isDig c = false) :
    parseTs (formatTimestamp t ++ r) = some (t, r) := by
  obtain ⟨n, rfl⟩ : ∃ n : Nat, t = (n : Int) :=
    ⟨t.toNat, (Int.toNat_of_nonneg ht).symm⟩
  have hdays : Int.fdiv (n : Int) 86400000000 = ((n / 86400000000 : Nat) : Int) := by
    rw [Int.fdiv_eq_ediv _ (by omega)]; omega
  have hrem : ((n : Int).emod 86400000000).toNat = n % 86400000000 := by
    have h : (n : Int).emod 86400000000 = (n : Int) % 86400000000 := rfl
    rw [h]; omega
  have hcast : ((n % 86400000000 / 1000000 / 3600 : Nat) : Int)
      + ((n / 86400000000 : Nat) : Int) * 24
      = ((n % 86400000000 / 1000000 / 3600 + n / 86400000000 * 24 : Nat) : Int) := by
    push_cast; ring
  have hfmt : formatTimestamp (n : Int)
      = zpad 2 (natToStr (n % 86400000000 / 1000000 / 3600 + n / 86400000000 * 24))
        ++ [':'] ++ zpad 2 (natToStr (n % 86400000000 / 1000000 % 3600 / 60)) ++ [':']
        ++ zpad 2 (natToStr (n % 86400000000 / 1000000 % 60)) ++ [',']
        ++ zpad 3 (natToStr (n % 86400000000 % 1000000 / 1000)) := by
    simp only [formatTimestamp, hdays, hrem, hcast, intToStr_ofNat]
  obtain ⟨hH, hHv⟩ := zpad_natToStr 2
    (n % 86400000000 / 1000000 / 3600 + n / 86400000000 * 24)
  obtain ⟨hM, hMv⟩ := zpad_natToStr 2 (n % 86400000000 / 1000000 % 3600 / 60)
  obtain ⟨hS, hSv⟩ := zpad_natToStr 2 (n % 86400000000 / 1000000 % 60)
  obtain ⟨hMS, hMSv⟩ := zpad_natToStr 3 (n % 86400000000 % 1000000 / 1000)
  rw [hfmt]
  have hassoc :
      (zpad 2 (natToStr (n % 86400000000 / 1000000 / 3600 + n / 86400000000 * 24))
        ++ [':'] ++ zpad 2 (natToStr (n % 86400000000 / 1000000 % 3600 / 60)) ++ [':']
        ++ zpad 2 (natToStr (n % 86400000000 / 1000000 % 60)) ++ [',']
        ++ zpad 3 (natToStr (n % 86400000000 % 1000000 / 1000))) ++ r
      = zpad 2 (natToStr (n % 86400000000 / 1000000 / 3600 + n / 86400000000 * 24))
        ++ ':' :: (zpad 2 (natToStr (n % 86400000000 / 1000000 % 3600 / 60))
          ++ ':' :: (zpad 2 (natToStr (n % 86400000000 / 1000000 % 60))
            ++ ',' :: (zpad 3 (natToStr (n % 86400000000 % 1000000 / 1000)) ++ r))) := by
    simp
  rw [hassoc, parseTs_build _ _ _ _ _ hH hM hS hMS hr, hHv, hMv, hSv, hMSv]
  have hmodn : (n : Int) % 1000 = 0 := hmod
  simp only [Option.some.injEq, Prod.mk.injEq]
  exact ⟨by omega, trivial⟩

/-- The decomposition of `_format_timestamp` on a nonnegative time
into its four zero-padded decimal fields. -/
lemma formatTimestamp_decomp (n : Nat) :
    formatTimestamp (n : Int)
      = zpad 2 (natToStr (n % 86400000000 / 1000000 / 3600 + n / 86400000000 * 24))
        ++ [':'] ++ zpad 2 (natToStr (n % 86400000000 / 1000000 % 3600 / 60)) ++ [':']
        ++ zpad 2 (natToStr (n % 86400000000 / 1000000 % 60)) ++ [',']
        ++ zpad 3 (natToStr (n % 86400000000 % 1000000 / 1000)) := by
  have hdays : Int.fdiv (n : Int) 86400000000 = ((n / 86400000000 : Nat) : Int) := by
    rw [Int.fdiv_eq_ediv _ (by omega)]; omega
  have hrem : ((n : Int).emod 86400000000).toNat = n % 86400000000 := by
    have h : (n : Int).emod 86400000000 = (n : Int) % 86400000000 := rfl
    rw [h]; omega
  have hcast : ((n % 86400000000 / 1000000 / 3600 : Nat) : Int)
      + ((n / 86400000000 : Nat) : Int) * 24
      = ((n % 86400000000 / 1000000 / 3600 + n / 86400000000 * 24 : Nat) : Int) := by
    push_cast; ring
  simp only [formatTimestamp, hdays, hrem, hcast, intToStr_ofNat]

/-- A formatted nonnegative timestamp starts with a digit. -/
lemma formatTimestamp_head_digit (t : Time) (ht : 0 ≤ t) :
    ∀ c, (formatTimestamp t).head? = some c → isDig c = true := by
  obtain ⟨n, rfl⟩ : ∃ n : Nat, t = (n : Int) :=
    ⟨t.toNat, (Int.toNat_of_nonneg ht).symm⟩
  intro c hc
  rw [formatTimestamp_decomp] at hc
  obtain ⟨⟨hne, hdig⟩, _⟩ := zpad_natToStr 2
    (n % 86400000000 / 1000000 / 3600 + n / 86400000000 * 24)
  rcases hz : zpad 2 (natToStr (n % 86400000000 / 1000000 / 3600
      + n / 86400000000 * 24)) with _ | ⟨a, as⟩
  · exact absurd hz hne
  · rw [hz] at hc
    simp at hc
    subst hc
    exact hdig a (by rw [hz]; simp)

/-- The arrow separator of a composed timestamp line consumes exactly
`" --> "` when what follows does not start with a space. -/
lemma eatArrow_spec (rest : Str) (hr : ∀ c, rest.head? = some c → c ≠ ' ') :
    eatArrow (str " --> " ++ rest) = some rest := by
  have h1 : str " --> " ++ rest = ' ' :: '-' :: '-' :: '>' :: ' ' :: rest := rfl
  rw [h1]
  have h2 : List.dropWhile (fun c => decide (c = ' '))
      (' ' :: '-' :: '-' :: '>' :: ' ' :: rest)
      = '-' :: '-' :: '>' :: ' ' :: rest := by
    simp [List.dropWhile]
  have h3 : List.dropWhile (fun c => decide (c = ' ')) rest = rest := by
    apply dropWhile_stop
    intro c hc
    simp [hr c hc]
  simp [eatArrow, List.dropWhile, h3]

/-- A formatted nonnegative timestamp is a nonempty string. -/
lemma formatTimestamp_ne_nil (t : Time) (ht : 0 ≤ t) : formatTimestamp t ≠ [] := by
  obtain ⟨n, rfl⟩ : ∃ n : Nat, t = (n : Int) :=
    ⟨t.toNat, (Int.toNat_of_nonneg ht).symm⟩
  rw [formatTimestamp_decomp]
  obtain ⟨⟨hne, _⟩, _⟩ := zpad_natToStr 2
    (n % 86400000000 / 1000000 / 3600 + n / 86400000000 * 24)
  simp [hne]

/-- The block regex from the first timestamp onward, on a composed
timestamp line followed by an already-analysed content tail. -/
lemma matchFromTs_block (ri : Option Str) (t1 t2 : Time) (prop tail C R : Str)
    (h1 : 0 ≤ t1) (hm1 : t1 % 1000 = 0) (h2 : 0 ≤ t2) (hm2 : t2 % 1000 = 0)
    (hp : ∀ c ∈ prop, c ≠ '\x0d' ∧ c ≠ '\n')
    (hscan : contentScan tail = some (C, R)) :
    matchFromTs ri (formatTimestamp t1 ++ str " --> " ++ (formatTimestamp t2
        ++ ((if prop.isEmpty then [] else ' ' :: prop) ++ '\n' :: tail)))
      = some ⟨ri, t1, t2, prop, C, R⟩ := by
  have hne2 := formatTimestamp_ne_nil t2 h2
  have e1 : parseTs (formatTimestamp t1 ++ (str " --> " ++ (formatTimestamp t2
      ++ ((if prop.isEmpty then [] else ' ' :: prop) ++ '\n' :: tail))))
      = some (t1, str " --> " ++ (formatTimestamp t2
        ++ ((if prop.isEmpty then [] else ' ' :: prop) ++ '\n' :: tail))) := by
    apply parseTs_formatTimestamp t1 h1 hm1
    intro c hc
    have hce : ' ' = c := by simpa [str] using hc
    subst hce; rfl
  have e2 : eatArrow (str " --> " ++ (formatTimestamp t2
      ++ ((if prop.isEmpty then [] else ' ' :: prop) ++ '\n' :: tail)))
      = some (formatTimestamp t2
        ++ ((if prop.isEmpty then [] else ' ' :: prop) ++ '\n' :: tail)) := by
    apply eatArrow_spec
    intro c hc
    rcases hfm : formatTimestamp t2 with _ | ⟨a, as⟩
    · exact absurd hfm hne2
    · rw [hfm] at hc
      simp at hc
      subst hc
      have hd := formatTimestamp_head_digit t2 h2 a (by rw [hfm]; rfl)
      intro he; subst he; revert hd; decide
  have e3 : parseTs (formatTimestamp t2
      ++ ((if prop.isEmpty then [] else ' ' :: prop) ++ '\n' :: tail))
      = some (t2, (if prop.isEmpty then [] else ' ' :: prop) ++ '\n' :: tail) := by
    apply parseTs_formatTimestamp t2 h2 hm2
    intro c hc
    by_cases hpe : prop.isEmpty
    · rw [if_pos hpe] at hc
      simp at hc
      subst hc; rfl
    · rw [if_neg hpe] at hc
      simp at hc
      subst hc; rfl
  simp only [matchFromTs, List.append_assoc, e1, e2, e3, Option.bind_eq_bind,
    Option.some_bind]
  rcases prop with _ | ⟨p, ps⟩
  · simp [eatEol, hscan, List.takeWhile_cons]
  · have hall : ∀ c ∈ p :: ps,
        (fun c => !decide (c = '\x0d') && !decide (c = '\n')) c = true := by
      intro c hc
      obtain ⟨hA, hB⟩ := hp c hc
      simp [hA, hB]
    have hstop : ∀ c, (('\n' :: tail).head? = some c) →
        (fun c => !decide (c = '\x0d') && !decide (c = '\n')) c = false := by
      intro c hc
      simp at hc
      subst hc
      simp
    have ht : List.takeWhile (fun c => !decide (c = '\x0d') && !decide (c = '\n'))
        (p :: (ps ++ '\n' :: tail)) = p :: ps := by
      show List.takeWhile _ ((p :: ps) ++ '\n' :: tail) = _
      rw [takeWhile_append_all _ _ hall, takeWhile_head_false _ hstop, List.append_nil]
    have hd : List.dropWhile (fun c => !decide (c = '\x0d') && !decide (c = '\n'))
        (p :: (ps ++ '\n' :: tail)) = '\n' :: tail := by
      show List.dropWhile _ ((p :: ps) ++ '\n' :: tail) = _
      rw [dropWhile_append_all _ _ hall, dropWhile_stop _ hstop]
    simp [ht, hd, eatEol, hscan]

/-! ## Barrier lemmas: scanning stops at the first failing character,
so text beyond it cannot influence the outcome -/

lemma takeWhile_eq_nil_dropWhile {p : Char → Bool} {r : Str}
    (h : r.takeWhile p = []) : r.dropWhile p = r := by
  cases r with
  | nil => rfl
  | cons c cs =>
    by_cases hpc : p c
    · simp [List.takeWhile_cons, hpc] at h
    · simp [List.dropWhile_cons, hpc]

lemma takeWhile_append_barrier {p : Char → Bool} : ∀ (a r : Str),
    r.takeWhile p = [] →
    (a ++ r).takeWhile p = a.takeWhile p
      ∧ (a ++ r).dropWhile p = a.dropWhile p ++ r := by
  intro a
  induction a with
  | nil =>
    intro r h
    exact ⟨h, by simp [takeWhile_eq_nil_dropWhile h]⟩
  | cons c cs ih =>
    intro r h
    by_cases hpc : p c
    · obtain ⟨h1, h2⟩ := ih r h
      simp [List.takeWhile_cons, List.dropWhile_cons, hpc, h1, h2]
    · simp [List.takeWhile_cons, List.dropWhile_cons, hpc]

lemma takeDigits_append_barrier (a r : Str)
    (hr : ∀ c, r.head? = some c → isDig c = false) :
    takeDigits (a ++ r) = (takeDigits a).map (fun p => (p.1, p.2 ++ r)) := by
  have hrt : r.takeWhile isDig = [] :=
    takeWhile_head_false r hr
  obtain ⟨h1, h2⟩ := takeWhile_append_barrier a r hrt
  by_cases he : (a.takeWhile isDig).isEmpty
  · simp [takeDigits, h1, h2, he]
  · simp [takeDigits, h1, h2, he]

lemma takeDigits_decomp {s d r : Str} (h : takeDigits s = some (d, r)) :
    s = d ++ r ∧ (∀ c ∈ d, isDig c = true)
      ∧ (∀ c, r.head? = some c → isDig c = false) := by
  simp only [takeDigits] at h
  by_cases he : (s.takeWhile isDig).isEmpty
  · simp [he] at h
  · simp [he] at h
    obtain ⟨h1, h2⟩ := h
    subst h1; subst h2
    exact ⟨(List.takeWhile_append_dropWhile _ _).symm,
      fun c hc => List.mem_takeWhile_imp hc,
      dropWhile_head_false _ _⟩

lemma idxTokenTail_decomp {s t rem : Str} (h : idxTokenTail s = some (t, rem)) :
    s = t ++ rem := by
  simp only [idxTokenTail] at h
  cases htd : takeDigits s with
  | none => rw [htd] at h; exact absurd h (by simp)
  | some p =>
    obtain ⟨d1, r1⟩ := p
    rw [htd] at h
    dsimp only at h
    obtain ⟨hs, _, _⟩ := takeDigits_decomp htd
    by_cases hdot : r1.head? = some '.'
    · rw [if_pos hdot] at h
      rcases r1 with _ | ⟨c, r2⟩
      · simp at hdot
      · simp only [List.head?_cons, Option.some.injEq] at hdot
        subst hdot
        simp only [Option.some.injEq, Prod.mk.injEq] at h
        obtain ⟨h1, h2⟩ := h
        subst h1; subst h2
        simp only [hs, List.tail_cons]
        simp [List.takeWhile_append_dropWhile]
    · rw [if_neg hdot] at h
      simp only [Option.some.injEq, Prod.mk.injEq] at h
      obtain ⟨h1, h2⟩ := h
      subst h1; subst h2
      exact hs

lemma idxToken_decomp {s t rem : Str} (h : idxToken s = some (t, rem)) :
    s = t ++ rem := by
  simp only [idxToken] at h
  by_cases hd : s.head? = some '-'
  · rw [if_pos hd] at h
    cases hit : idxTokenTail s.tail with
    | none => rw [hit] at h; exact absurd h (by simp)
    | some p =>
      obtain ⟨t2, rem2⟩ := p
      rw [hit] at h
      simp only [Option.map_some', Option.some.injEq, Prod.mk.injEq] at h
      obtain ⟨h1, h2⟩ := h
      subst h1; subst h2
      have hde := idxTokenTail_decomp hit
      rcases s with _ | ⟨c, s2⟩
      · simp at hd
      · simp only [List.head?_cons, Option.some.injEq] at hd
        subst hd
        simp only [List.tail_cons] at hde
        simp [hde]
  · rw [if_neg hd] at h
    exact idxTokenTail_decomp h

lemma idxTokenTail_append_barrier (s r : Str)
    (hr : ∀ c, r.head? = some c → isDig c = false ∧ c ≠ '.') :
    idxTokenTail (s ++ r) = (idxTokenTail s).map (fun p => (p.1, p.2 ++ r)) := by
  have hrd : ∀ c, r.head? = some c → isDig c = false := fun c hc => (hr c hc).1
  simp only [idxTokenTail]
  rw [takeDigits_append_barrier s r hrd]
  cases htd : takeDigits s with
  | none => rfl
  | some p =>
    obtain ⟨d1, r1⟩ := p
    dsimp only [Option.map_some']
    rcases r1 with _ | ⟨c, r2⟩
    · rcases r with _ | ⟨c3, r3⟩
      · simp
      · have hne := (hr c3 rfl).2
        simp [hne]
    · by_cases hdot : c = '.'
      · subst hdot
        simp only [List.cons_append, List.head?_cons, if_pos rfl, List.tail_cons]
        obtain ⟨h1, h2⟩ := takeWhile_append_barrier r2 r (takeWhile_head_false r hrd)
        rw [h1, h2]
        simp
      · simp [hdot]

lemma idxToken_append_barrier (s r : Str)
    (hr : ∀ c, r.head? = some c → isDig c = false ∧ c ≠ '.' ∧ c ≠ '-') :
    idxToken (s ++ r) = (idxToken s).map (fun p => (p.1, p.2 ++ r)) := by
  rcases s with _ | ⟨c, s2⟩
  · simp only [List.nil_append, idxToken]
    have h1 : idxTokenTail r = none := by
      simp only [idxTokenTail]
      have h2 : takeDigits r = none := by
        rcases r with _ | ⟨c3, r3⟩
        · rfl
        · simp [takeDigits, List.takeWhile_cons, (hr c3 rfl).1]
      rw [h2]
    by_cases hd : r.head? = some '-'
    · rcases r with _ | ⟨c3, r3⟩
      · simp at hd
      · simp only [List.head?_cons, Option.some.injEq] at hd
        subst hd
        exact absurd rfl (hr '-' rfl).2.2
    · rw [if_neg hd, h1]
      rfl
  · simp only [List.cons_append, idxToken, List.head?_cons, List.tail_cons]
    have hsub : ∀ c, r.head? = some c → isDig c = false ∧ c ≠ '.' :=
      fun c hc => ⟨(hr c hc).1, (hr c hc).2.1⟩
    by_cases hc : c = '-'
    · subst hc
      rw [if_pos rfl, if_pos rfl]
      have hb : idxTokenTail (s2 ++ r)
          = (idxTokenTail s2).map (fun p => (p.1, p.2 ++ r)) :=
        idxTokenTail_append_barrier s2 r hsub
      rw [hb]
      cases idxTokenTail s2 <;> rfl
    · rw [if_neg (by simp [hc]), if_neg (by simp [hc])]
      have hb : idxTokenTail ((c :: s2) ++ r)
          = (idxTokenTail (c :: s2)).map (fun p => (p.1, p.2 ++ r)) :=
        idxTokenTail_append_barrier (c :: s2) r hsub
      simpa using hb

lemma parseTs_isSome_barrier (a X : Str) (hX : X.head? = some '\n') :
    (parseTs (a ++ X)).isSome = tsProbe a := by
  rcases X with _ | ⟨x, X2⟩
  · simp at hX
  simp only [List.head?_cons, Option.some.injEq] at hX
  subst hX
  have hnd : ∀ c, (('\n' :: X2 : Str)).head? = some c → isDig c = false := by
    intro c hc
    simp only [List.head?_cons, Option.some.injEq] at hc
    subst hc; rfl
  have hnl : isTsDelim '\n' = false := rfl
  have hb1 := takeDigits_append_barrier a ('\n' :: X2) hnd
  cases htd1 : takeDigits a with
  | none =>
    rw [htd1] at hb1
    simp [parseTs, tsProbe, hb1, htd1]
  | some p1 =>
    obtain ⟨d1, r1⟩ := p1
    rw [htd1] at hb1
    rcases r1 with _ | ⟨c1, r2⟩
    · simp [parseTs, tsProbe, hb1, htd1, hnl]
    by_cases hdel1 : isTsDelim c1
    case neg => simp [parseTs, tsProbe, hb1, htd1, hdel1]
    have hb2 := takeDigits_append_barrier r2 ('\n' :: X2) hnd
    cases htd2 : takeDigits r2 with
    | none =>
      rw [htd2] at hb2
      simp [parseTs, tsProbe, hb1, htd1, hdel1, hb2, htd2]
    | some p2 =>
      obtain ⟨d2, r3⟩ := p2
      rw [htd2] at hb2
      rcases r3 with _ | ⟨c2, r4⟩
      · simp [parseTs, tsProbe, hb1, htd1, hdel1, hb2, htd2, hnl]
      by_cases hdel2 : isTsDelim c2
      case neg => simp [parseTs, tsProbe, hb1, htd1, hdel1, hb2, htd2, hdel2]
      have hb3 := takeDigits_append_barrier r4 ('\n' :: X2) hnd
      cases htd3 : takeDigits r4 with
      | none =>
        rw [htd3] at hb3
        simp [parseTs, tsProbe, hb1, htd1, hdel1, hb2, htd2, hdel2, hb3, htd3]
      | some p3 =>
        obtain ⟨d3, r5⟩ := p3
        rw [htd3] at hb3
        rcases r5 with _ | ⟨c3, r6⟩
        · simp [parseTs, tsProbe, hb1, htd1, hdel1, hb2, htd2, hdel2, hb3, htd3,
            hnl]
        by_cases hdel3 : isTsDelim c3
        case neg =>
          simp [parseTs, tsProbe, hb1, htd1, hdel1, hb2, htd2, hdel2, hb3, htd3,
            hdel3]
        cases htd4 : takeDigits r6 with
        | none =>
          have hb4 := takeDigits_append_barrier r6 ('\n' :: X2) hnd
          rw [htd4] at hb4
          simp [parseTs, tsProbe, hb1, htd1, hdel1, hb2, htd2, hdel2, hb3, htd3,
            hdel3, hb4, htd4]
        | some p4 =>
          have hb4 := takeDigits_append_barrier r6 ('\n' :: X2) hnd
          rw [htd4] at hb4
          simp [parseTs, tsProbe, hb1, htd1, hdel1, hb2, htd2, hdel2, hb3, htd3,
            hdel3, hb4, htd4]

/-- The newline barrier for the timestamp lookahead: text after a
newline never affects whether a timestamp starts before it. -/
lemma tsAhead_append_barrier (a w : Str) :
    tsAhead (a ++ '\n' :: w) = tsAhead (a ++ ['\n']) := by
  show (parseTs _).isSome = (parseTs _).isSome
  rw [parseTs_isSome_barrier a ('\n' :: w) rfl, parseTs_isSome_barrier a ['\n'] rfl]

/-! ## The composed text of an entry as the regex sees it -/

lemma idxTokenTail_run (ds rest : Str) (hds : DigRun ds)
    (hr : ∀ c, rest.head? = some c → isDig c = false ∧ c ≠ '.') :
    idxTokenTail (ds ++ rest) = some (ds, rest) := by
  have htd : takeDigits (ds ++ rest) = some (ds, rest) :=
    takeDigits_run ds rest hds.1 hds.2 (fun c hc => (hr c hc).1)
  simp only [idxTokenTail, htd]
  have hdot : ¬ rest.head? = some '.' := by
    intro hc
    exact absurd rfl (hr '.' hc).2
  rw [if_neg hdot]

lemma intToStr_neg (i : Int) (h : i < 0) :
    intToStr i = '-' :: natToStr (-i).toNat := by
  simp [intToStr, h]

lemma intToStr_nonneg (i : Int) (h : ¬ i < 0) :
    intToStr i = natToStr i.toNat := by
  simp [intToStr, h]

/-- The index token of a composed block is read back exactly when a
non-digit, non-dot boundary follows. -/
lemma idxToken_intToStr (i : Int) (rest : Str)
    (hr : ∀ c, rest.head? = some c → isDig c = false ∧ c ≠ '.') :
    idxToken (intToStr i ++ rest) = some (intToStr i, rest) := by
  by_cases hneg : i < 0
  · rw [intToStr_neg i hneg]
    obtain ⟨hne, hdig, _⟩ := natToStr_spec (-i).toNat
    simp only [List.cons_append, idxToken, List.head?_cons, if_pos rfl,
      List.tail_cons]
    rw [idxTokenTail_run _ _ ⟨hne, hdig⟩ hr]
    rfl
  · rw [intToStr_nonneg i hneg]
    obtain ⟨hne, hdig, _⟩ := natToStr_spec i.toNat
    rcases hds : natToStr i.toNat with _ | ⟨d, ds⟩
    · exact absurd hds hne
    have hd : isDig d = true := hdig d (by rw [hds]; simp)
    simp only [idxToken]
    rw [if_neg ?hne2]
    case hne2 =>
      simp only [List.cons_append, List.head?_cons, Option.some.injEq]
      intro he
      rw [he] at hd
      simp [isDig] at hd
    rw [← hds, idxTokenTail_run _ _ ⟨hne, hdig⟩ hr]

/-- No timestamp starts at a composed index line. -/
lemma tsAhead_intToStr_false (i : Int) (rest : Str) :
    tsAhead (intToStr i ++ '\n' :: rest) = false := by
  by_cases hneg : i < 0
  · rw [intToStr_neg i hneg]
    have htd : takeDigits ('-' :: (natToStr (-i).toNat ++ '\n' :: rest)) = none := by
      simp [takeDigits, List.takeWhile_cons, isDig]
    simp [tsAhead, parseTs, htd]
  · rw [intToStr_nonneg i hneg]
    obtain ⟨hne, hdig, _⟩ := natToStr_spec i.toNat
    have htd : takeDigits (natToStr i.toNat ++ '\n' :: rest)
        = some (natToStr i.toNat, '\n' :: rest) :=
      takeDigits_run _ _ hne hdig (by intro c hc; simp at hc; subst hc; rfl)
    simp [tsAhead, parseTs, htd, isTsDelim]

lemma tailOk_nil : TailOk [] := by
  refine ⟨rfl, rfl, ?_⟩
  intro c hc
  simp at hc

/-- `toSrt` unfolded to the shape the block-matching lemmas consume. -/
lemma toSrt_shape (e : Subtitle) :
    toSrt e = intToStr (e.index.getD 0)
      ++ '\n' :: (formatTimestamp e.start ++ str " --> " ++ (formatTimestamp e.end_
        ++ ((if e.proprietary.isEmpty then [] else ' ' :: e.proprietary)
          ++ '\n' :: (cleanContent e.content ++ '\n' :: '\n' :: [])))) := by
  simp [toSrt]

lemma intToStr_ne_nil (i : Int) : intToStr i ≠ [] := by
  by_cases hneg : i < 0
  · rw [intToStr_neg i hneg]; simp
  · rw [intToStr_nonneg i hneg]; exact (natToStr_spec _).1

lemma intToStr_head (i : Int) :
    ∀ c, (intToStr i).head? = some c → isDig c = true ∨ c = '-' := by
  intro c hc
  by_cases hneg : i < 0
  · rw [intToStr_neg i hneg] at hc
    simp at hc
    subst hc
    exact Or.inr rfl
  · rw [intToStr_nonneg i hneg] at hc
    obtain ⟨hne, hdig, _⟩ := natToStr_spec i.toNat
    rcases hds : natToStr i.toNat with _ | ⟨d, ds⟩
    · exact absurd hds hne
    rw [hds] at hc
    simp at hc
    subst hc
    exact Or.inl (hdig d (by rw [hds]; simp))

/-- A composed block's opening (index line then timestamp line)
satisfies `TailOk`. -/
lemma tailOk_block (i : Int) (t : Time) (rest : Str)
    (hs : 0 ≤ t) (hms : t % 1000 = 0) (hrest : rest.head? = some ' ') :
    TailOk (intToStr i ++ '\n' :: (formatTimestamp t ++ rest)) := by
  have hts : parseTs (formatTimestamp t ++ rest) = some (t, rest) := by
    apply parseTs_formatTimestamp t hs hms
    intro c hc
    rw [hrest] at hc
    simp at hc
    subst hc
    rfl
  have hfmthead : ∀ c, (formatTimestamp t ++ rest).head? = some c →
      isPySpace c = false := by
    intro c hc
    rcases hfm : formatTimestamp t with _ | ⟨a, as⟩
    · exact absurd hfm (formatTimestamp_ne_nil t hs)
    rw [hfm] at hc
    simp at hc
    subst hc
    exact isDig_not_space (formatTimestamp_head_digit t hs a (by rw [hfm]; rfl))
  have hidx : idxToken (intToStr i ++ '\n' :: (formatTimestamp t ++ rest))
      = some (intToStr i, '\n' :: (formatTimestamp t ++ rest)) := by
    apply idxToken_intToStr
    intro c hc
    simp at hc
    subst hc
    exact ⟨rfl, by decide⟩
  have hw : List.takeWhile isPySpace ('\n' :: (formatTimestamp t ++ rest))
      = ['\n'] := by
    rw [List.takeWhile_cons]
    simp only [show isPySpace '\n' = true from rfl, if_true]
    rw [takeWhile_head_false _ hfmthead]
  have hdw : List.dropWhile isPySpace ('\n' :: (formatTimestamp t ++ rest))
      = formatTimestamp t ++ rest := by
    rw [List.dropWhile_cons]
    simp only [show isPySpace '\n' = true from rfl, if_true]
    exact dropWhile_stop _ hfmthead
  have hila : idxLineAhead (intToStr i ++ '\n' :: (formatTimestamp t ++ rest))
      = true := by
    simp only [idxLineAhead, hidx, hw, hdw]
    simp [tsAhead, hts]
  refine ⟨?_, ?_, ?_⟩
  · simp [finalAhead, hila]
  · exact tsAhead_intToStr_false i _
  · intro c hc
    rcases hi : intToStr i with _ | ⟨a, as⟩
    · exact absurd hi (intToStr_ne_nil i)
    rw [hi] at hc
    simp at hc
    subst hc
    rcases intToStr_head i a (by rw [hi]; rfl) with h | h
    · exact isDig_not_space h
    · subst h; rfl

/-- The start of a composed entry satisfies `TailOk`. -/
lemma tailOk_toSrt (e : Subtitle) (R : Str)
    (hs : 0 ≤ e.start) (hms : e.start % 1000 = 0) :
    TailOk (toSrt e ++ R) := by
  have hshape : toSrt e ++ R = intToStr (e.index.getD 0)
      ++ '\n' :: (formatTimestamp e.start ++ (str " --> "
        ++ (formatTimestamp e.end_
          ++ ((if e.proprietary.isEmpty then [] else ' ' :: e.proprietary)
            ++ '\n' :: (cleanContent e.content ++ '\n' :: '\n' :: R))))) := by
    rw [toSrt_shape]
    simp
  rw [hshape]
  exact tailOk_block _ _ _ hs hms rfl

lemma mem_of_getLast?_eq {l : Str} {c : Char} (h : l.getLast? = some c) :
    c ∈ l := by
  obtain ⟨hne, he⟩ := List.mem_getLast?_eq_getLast (by exact h)
  subst he
  exact List.getLast_mem hne

lemma takeWhile_stops_inside {p : Char → Bool} (a X : Str)
    (h : a.dropWhile p ≠ []) : (a ++ X).takeWhile p = a.takeWhile p := by
  rcases hd : a.dropWhile p with _ | ⟨d, ds⟩
  · exact absurd hd h
  have hpd : p d = false := dropWhile_head_false p a d (by rw [hd]; rfl)
  have ha : a.takeWhile p ++ d :: ds = a := by
    conv_rhs => rw [← List.takeWhile_append_dropWhile p a, hd]
  rw [← ha, List.append_assoc]
  rw [takeWhile_append_all _ _ (fun c hc => List.mem_takeWhile_imp hc),
    takeWhile_append_all _ _ (fun c hc => List.mem_takeWhile_imp hc)]
  simp [List.takeWhile_cons, hpd]

/-- At a boundary where the candidate index token is a proper prefix of
the line, the whitespace run of the lookahead stays inside the line and
cannot end in a newline. -/
lemma idxLineAhead_partial_false (L X t rem : Str) (hX : X.head? = some '\n')
    (hidx : idxToken L = some (t, rem)) (hrem : rem ≠ [])
    (hnl : '\n' ∉ L)
    (hlast : ∀ c, L.getLast? = some c → isPySpace c = false) :
    idxLineAhead (L ++ X) = false := by
  have hb : idxToken (L ++ X) = some (t, rem ++ X) := by
    rw [idxToken_append_barrier L X ?hr, hidx]
    case hr =>
      intro c hc
      rw [hX] at hc
      simp at hc
      subst hc
      exact ⟨rfl, by decide, by decide⟩
    rfl
  have hLdec : L = t ++ rem := idxToken_decomp hidx
  have hremlast : ∀ c, rem.getLast? = some c → isPySpace c = false := by
    intro c hc
    apply hlast
    rw [hLdec, List.getLast?_append_of_ne_nil _ hrem]
    exact hc
  have hremnl : '\n' ∉ rem := by
    intro hmem
    exact hnl (by rw [hLdec]; exact List.mem_append_right _ hmem)
  -- the whitespace run stops inside `rem`
  have hdrop : rem.dropWhile isPySpace ≠ [] := by
    intro hde
    rcases hl : rem.getLast? with _ | c
    · rw [List.getLast?_eq_none_iff] at hl
      exact hrem hl
    · have hmem : c ∈ rem := mem_of_getLast?_eq hl
      have hws : isPySpace c = true := by
        have : rem.takeWhile isPySpace = rem := by
          conv_rhs => rw [← List.takeWhile_append_dropWhile isPySpace rem, hde,
            List.append_nil]
        rw [← this] at hmem
        exact List.mem_takeWhile_imp hmem
      rw [hremlast c hl] at hws
      exact Bool.false_ne_true hws
  have hw : (rem ++ X).takeWhile isPySpace = rem.takeWhile isPySpace :=
    takeWhile_stops_inside rem X hdrop
  simp only [idxLineAhead, hb, hw]
  rcases hwv : rem.takeWhile isPySpace with _ | ⟨w0, ws⟩
  · simp
  · have hwnl : '\n' ∉ rem.takeWhile isPySpace := by
      intro hmem
      exact hremnl ((List.takeWhile_sublist _).mem hmem)
    have : (rem.takeWhile isPySpace).getLast? ≠ some '\n' := by
      intro hgl
      exact hwnl (mem_of_getLast?_eq hgl)
    rw [hwv] at this
    simp [this]

/-- At an interior line boundary of safe content the block-start
lookahead fails. -/
lemma idxLineAhead_mid_false (L y T2 : Str)
    (hnl : '\n' ∉ L)
    (hlast : ∀ c, L.getLast? = some c → isPySpace c = false)
    (hyne : y ≠ [])
    (hyhead : ∀ c, y.head? = some c → isPySpace c = false)
    (hsafe : isFullIdxToken L = true → tsAhead (y ++ ['\n']) = false) :
    idxLineAhead (L ++ '\n' :: (y ++ '\n' :: T2)) = false := by
  have hbr : ∀ c, (('\n' :: (y ++ '\n' :: T2) : Str)).head? = some c →
      isDig c = false ∧ c ≠ '.' ∧ c ≠ '-' := by
    intro c hc
    simp at hc
    subst hc
    exact ⟨rfl, by decide, by decide⟩
  cases hidx : idxToken L with
  | none =>
    have hb : idxToken (L ++ '\n' :: (y ++ '\n' :: T2)) = none := by
      rw [idxToken_append_barrier L _ hbr, hidx]
      rfl
    simp [idxLineAhead, hb]
  | some p =>
    obtain ⟨t, rem⟩ := p
    rcases rem with _ | ⟨r0, rs⟩
    · -- full token: the whitespace run is exactly the newline
      have hb : idxToken (L ++ '\n' :: (y ++ '\n' :: T2))
          = some (t, '\n' :: (y ++ '\n' :: T2)) := by
        rw [idxToken_append_barrier L _ hbr, hidx]
        rfl
      have hfull : isFullIdxToken L = true := by
        simp [isFullIdxToken, hidx]
      have hw : List.takeWhile isPySpace ('\n' :: (y ++ '\n' :: T2))
          = ['\n'] := by
        rw [List.takeWhile_cons]
        simp only [show isPySpace '\n' = true from rfl, if_true]
        rw [takeWhile_head_false]
        intro c hc
        rcases y with _ | ⟨y0, ys⟩
        · exact absurd rfl hyne
        · simp at hc
          subst hc
          exact hyhead y0 rfl
      have hdw : List.dropWhile isPySpace ('\n' :: (y ++ '\n' :: T2))
          = y ++ '\n' :: T2 := by
        rw [List.dropWhile_cons]
        simp only [show isPySpace '\n' = true from rfl, if_true]
        apply dropWhile_stop
        intro c hc
        rcases y with _ | ⟨y0, ys⟩
        · exact absurd rfl hyne
        · simp at hc
          subst hc
          exact hyhead y0 rfl
      have hts : tsAhead (y ++ '\n' :: T2) = false := by
        rw [tsAhead_append_barrier]
        exact hsafe hfull
      simp [idxLineAhead, hb, hw, hdw, hts]
    · exact idxLineAhead_partial_false L _ t (r0 :: rs) rfl hidx (by simp)
        hnl hlast

/-- At the boundary before the final blank line the lookahead fails,
because a `TailOk` continuation never starts with a timestamp. -/
lemma idxLineAhead_last_false (L R : Str)
    (hnl : '\n' ∉ L)
    (hlast : ∀ c, L.getLast? = some c → isPySpace c = false)
    (htsR : tsAhead R = false)
    (hRhead : ∀ c, R.head? = some c → isPySpace c = false) :
    idxLineAhead (L ++ '\n' :: '\n' :: R) = false := by
  have hbr : ∀ c, (('\n' :: '\n' :: R : Str)).head? = some c →
      isDig c = false ∧ c ≠ '.' ∧ c ≠ '-' := by
    intro c hc
    simp at hc
    subst hc
    exact ⟨rfl, by decide, by decide⟩
  cases hidx : idxToken L with
  | none =>
    have hb : idxToken (L ++ '\n' :: '\n' :: R) = none := by
      rw [idxToken_append_barrier L _ hbr, hidx]
      rfl
    simp [idxLineAhead, hb]
  | some p =>
    obtain ⟨t, rem⟩ := p
    rcases rem with _ | ⟨r0, rs⟩
    · have hb : idxToken (L ++ '\n' :: '\n' :: R)
          = some (t, '\n' :: '\n' :: R) := by
        rw [idxToken_append_barrier L _ hbr, hidx]
        rfl
      have hw : List.takeWhile isPySpace ('\n' :: '\n' :: R)
          = ['\n', '\n'] := by
        rw [List.takeWhile_cons]
        simp only [show isPySpace '\n' = true from rfl, if_true]
        rw [List.takeWhile_cons]
        simp only [show isPySpace '\n' = true from rfl, if_true]
        rw [takeWhile_head_false _ hRhead]
      have hdw : List.dropWhile isPySpace ('\n' :: '\n' :: R) = R := by
        rw [List.dropWhile_cons]
        simp only [show isPySpace '\n' = true from rfl, if_true]
        rw [List.dropWhile_cons]
        simp only [show isPySpace '\n' = true from rfl, if_true]
        exact dropWhile_stop _ hRhead
      simp [idxLineAhead, hb, hw, hdw, htsR]
    · exact idxLineAhead_partial_false L _ t (r0 :: rs) rfl hidx (by simp)
        hnl hlast

/-- `termAt` fails strictly inside a content line. -/
lemma termAt_mid (c : Char) (rest : Str) (hc : c ≠ '\n')
    (hcr : c = '\x0d' → rest.head? ≠ some '\n') :
    termAt (c :: rest) = none := by
  have he : eatEol (c :: rest) = none := by
    simp only [eatEol, List.head?_cons, List.tail_cons]
    rw [if_neg (by simp [hc]), if_neg ?h2]
    case h2 =>
      rintro ⟨h1, h2⟩
      simp at h1
      exact hcr h1 h2
  simp [termAt, he]

/-- `termAt` succeeds at the closing blank line when the continuation
satisfies the final lookahead, consuming both newlines. -/
lemma termAt_final (R : Str) (hR : finalAhead R = true) :
    termAt ('\n' :: '\n' :: R) = some R := by
  simp [termAt, eatEol, hR]

/-- `termAt` fails at an interior line separator whose following text
defeats the lookahead. -/
lemma termAt_sep (L T : Str) (hLne : L ≠ [])
    (hLhead : ∀ c, L.head? = some c → isPySpace c = false)
    (hcheck : (idxLineAhead (L ++ '\n' :: T) && finalAhead (L ++ '\n' :: T))
      = false) :
    termAt ('\n' :: (L ++ '\n' :: T)) = none := by
  rcases L with _ | ⟨l0, ls⟩
  · exact absurd rfl hLne
  have hl0 : isPySpace l0 = false := hLhead l0 rfl
  have hl0n : ¬ l0 = '\n' := by
    intro he
    rw [he] at hl0
    exact absurd hl0 (by decide)
  have hl0r : ¬ l0 = '\x0d' := by
    intro he
    rw [he] at hl0
    exact absurd hl0 (by decide)
  have he1 : eatEol ('\n' :: (l0 :: ls ++ '\n' :: T))
      = some (l0 :: ls ++ '\n' :: T) := by
    simp [eatEol]
  have he2 : eatEol (l0 :: ls ++ '\n' :: T) = none := by
    simp only [eatEol, List.cons_append, List.head?_cons, List.tail_cons]
    have hn1 : ¬ (some l0 = some '\n') := by simp [hl0n]
    have hn2 : ¬ (some l0 = some '\x0d' ∧ (ls ++ '\n' :: T).head? = some '\n') := by
      rintro ⟨h1, _⟩
      simp at h1
      exact hl0r h1
    rw [if_neg hn1, if_neg hn2]
  have hnot : ¬ ((idxLineAhead (l0 :: ls ++ '\n' :: T)
      && finalAhead (l0 :: ls ++ '\n' :: T)) = true) := by
    rw [hcheck]
    simp
  simp only [termAt, he1, he2]
  rw [if_neg hnot]
  rfl

/-- The content scan walks through a line without terminating. -/
lemma contentScan_through : ∀ (L t : Str), '\n' ∉ L →
    (∀ c, L.getLast? = some c → c ≠ '\x0d') →
    contentScan (L ++ t) = (contentScan t).map (fun p => (L ++ p.1, p.2)) := by
  intro L
  induction L with
  | nil =>
    intro t _ _
    cases h : contentScan t <;> simp [h]
  | cons c L2 ih =>
    intro t hnl hcr
    have hcn : c ≠ '\n' := by
      intro he
      exact hnl (by rw [he]; simp)
    have hterm : termAt (c :: (L2 ++ t)) = none := by
      apply termAt_mid c _ hcn
      intro hc
      rcases L2 with _ | ⟨c2, L3⟩
      · exact absurd hc (hcr c rfl)
      · intro hh
        simp at hh
        exact hnl (by rw [hh]; simp)
    have ih2 := ih t (fun hmem => hnl (by simp [hmem]))
      (by
        intro c2 hc2
        rcases L2 with _ | ⟨c3, L3⟩
        · simp at hc2
        · exact hcr c2 (by rw [List.getLast?_cons_cons]; exact hc2))
    simp only [List.cons_append, contentScan, List.append_eq]
    rw [hterm, ih2]
    cases contentScan t <;> simp

/-- The lazy content group of the block regex, scanned over composed
clean content followed by the closing blank line and a `TailOk`
continuation, matches exactly the content. -/
lemma contentScanJoin : ∀ (ls : List Str) (R : Str),
    (∀ l ∈ ls, LineOk l) → safeChain ls = true → TailOk R →
    contentScan (joinNl ls ++ '\n' :: '\n' :: R) = some (joinNl ls, R) := by
  intro ls
  induction ls with
  | nil =>
    intro R _ _ hR
    have hterm : termAt ('\n' :: '\n' :: R) = some R := termAt_final R hR.1
    simp [joinNl, contentScan, hterm]
  | cons L ls2 ih =>
    intro R hok hchain hR
    obtain ⟨hLne, hLnl, hLhead, hLlast⟩ := hok L (by simp)
    have hLcr : ∀ c, L.getLast? = some c → c ≠ '\x0d' := by
      intro c hc he
      rw [he] at hc
      exact absurd (hLlast _ hc) (by decide)
    rcases ls2 with _ | ⟨L2, ls3⟩
    · -- single line
      have hfin : contentScan ('\n' :: '\n' :: R) = some ([], R) := by
        have hterm : termAt ('\n' :: '\n' :: R) = some R := termAt_final R hR.1
        simp [contentScan, hterm]
      have hthrough := contentScan_through L ('\n' :: '\n' :: R) hLnl hLcr
      rw [hfin] at hthrough
      simp only [joinNl]
      rw [hthrough]
      simp
    · -- at least two lines
      obtain ⟨hL2ne, hL2nl, hL2head, hL2last⟩ := hok L2 (by simp)
      have hchain2 : safeChain (L2 :: ls3) = true := by
        simp only [safeChain, Bool.and_eq_true] at hchain
        exact hchain.2
      have hscan2 : contentScan (joinNl (L2 :: ls3) ++ '\n' :: '\n' :: R)
          = some (joinNl (L2 :: ls3), R) :=
        ih R (fun l hl => hok l (by simp [hl])) hchain2 hR
      have hidxfalse : idxLineAhead (joinNl (L2 :: ls3) ++ '\n' :: '\n' :: R)
          = false := by
        rcases ls3 with _ | ⟨L3, ls4⟩
        · simp only [joinNl]
          exact idxLineAhead_last_false L2 R hL2nl hL2last hR.2.1 hR.2.2
        · obtain ⟨hL3ne, hL3nl, hL3head, hL3last⟩ := hok L3 (by simp)
          have hpair : isFullIdxToken L2 = true →
              tsAhead (L3 ++ ['\n']) = false := by
            intro hfull
            simp only [safeChain, Bool.and_eq_true, Bool.or_eq_true,
              Bool.not_eq_true'] at hchain2
            rcases hchain2.1 with h | h
            · rw [hfull] at h
              simp at h
            · exact h
          rcases ls4 with _ | ⟨L4, ls5⟩
          · simp only [joinNl]
            have hm := idxLineAhead_mid_false L2 L3 ('\n' :: R) hL2nl hL2last
              hL3ne hL3head hpair
            simpa using hm
          · simp only [joinNl]
            have hm := idxLineAhead_mid_false L2 L3
              (joinNl (L4 :: ls5) ++ '\n' :: '\n' :: R) hL2nl hL2last
              hL3ne hL3head hpair
            simpa using hm
      have hsep : termAt ('\n' :: (joinNl (L2 :: ls3) ++ '\n' :: '\n' :: R))
          = none := by
        rcases ls3 with _ | ⟨L3, ls4⟩
        · simp only [joinNl] at hidxfalse ⊢
          exact termAt_sep L2 ('\n' :: R) hL2ne hL2head (by simp [hidxfalse])
        · simp only [joinNl, List.append_assoc, List.cons_append]
            at hidxfalse ⊢
          exact termAt_sep L2 (joinNl (L3 :: ls4) ++ '\n' :: '\n' :: R)
            hL2ne hL2head (by simp [hidxfalse])
      have hstep : contentScan ('\n' :: (joinNl (L2 :: ls3) ++ '\n' :: '\n' :: R))
          = some ('\n' :: joinNl (L2 :: ls3), R) := by
        simp only [contentScan, List.append_eq]
        rw [hsep, hscan2]
      have hthrough := contentScan_through L
        ('\n' :: (joinNl (L2 :: ls3) ++ '\n' :: '\n' :: R)) hLnl hLcr
      rw [hstep] at hthrough
      have hshape : joinNl (L :: L2 :: ls3) ++ '\n' :: '\n' :: R
          = L ++ ('\n' :: (joinNl (L2 :: ls3) ++ '\n' :: '\n' :: R)) := by
        simp [joinNl]
      rw [hshape, hthrough]
      simp [joinNl]

lemma cleanContent_eq_join (c : Str) : cleanContent c = joinNl (cleanLines c) := rfl

lemma splitNl_no_newline : ∀ (s : Str), ∀ l ∈ splitNl s, '\n' ∉ l := by
  intro s
  induction s with
  | nil =>
    intro l hl
    simp [splitNl] at hl
    simp [hl]
  | cons c cs ih =>
    intro l hl
    simp only [splitNl] at hl
    by_cases hc : c = '\n'
    · rw [if_pos hc] at hl
      rcases List.mem_cons.mp hl with h | h
      · simp [h]
      · exact ih l h
    · rw [if_neg hc] at hl
      rcases hrec : splitNl cs with _ | ⟨g, gs⟩
      · rw [hrec] at hl
        simp at hl
        rw [hl]
        simp only [List.mem_singleton]
        exact fun h => hc h.symm
      · rw [hrec] at hl
        rcases List.mem_cons.mp hl with h | h
        · rw [h]
          intro hmem
          rcases List.mem_cons.mp hmem with h2 | h2
          · exact hc h2.symm
          · exact ih g (by rw [hrec]; simp) h2
        · exact ih l (by rw [hrec]; simp [h])

lemma pyStrip_mem_subset {c : Char} {s : Str} (h : c ∈ pyStrip s) : c ∈ s := by
  unfold pyStrip at h
  rw [List.mem_reverse] at h
  have h2 := (List.dropWhile_sublist _).mem h
  rw [List.mem_reverse] at h2
  exact (List.dropWhile_sublist _).mem h2

lemma cleanLines_ok (c : Str) : ∀ l ∈ cleanLines c, LineOk l := by
  intro l hl
  simp only [cleanLines, List.mem_filter, List.mem_map] at hl
  obtain ⟨⟨x, hx, hxl⟩, hne⟩ := hl
  have hlne : l ≠ [] := by
    intro he
    rw [he] at hne
    simp at hne
  have htr : Trimmed l := by
    rw [← hxl]
    exact pyStrip_trimmed (by rw [hxl]; exact hlne)
  refine ⟨hlne, ?_, htr.2.1, htr.2.2⟩
  intro hmem
  exact splitNl_no_newline c x hx (pyStrip_mem_subset (by rw [hxl]; exact hmem))

lemma joinNl_ne_nil : ∀ (ls : List Str), ls ≠ [] → (∀ l ∈ ls, l ≠ []) →
    joinNl ls ≠ [] := by
  intro ls hne hall
  rcases ls with _ | ⟨l, rest⟩
  · exact absurd rfl hne
  rcases rest with _ | ⟨l2, rest2⟩
  · exact hall l (by simp)
  · simp only [joinNl]
    intro he
    exact hall l (by simp) (List.append_eq_nil.mp he).1

lemma trimmed_joinNl : ∀ (ls : List Str), ls ≠ [] →
    (∀ l ∈ ls, LineOk l) → Trimmed (joinNl ls) := by
  intro ls
  induction ls with
  | nil => intro h _; exact absurd rfl h
  | cons l rest ih =>
    intro _ hok
    obtain ⟨hlne, _, hlhead, hllast⟩ := hok l (by simp)
    rcases rest with _ | ⟨l2, rest2⟩
    · exact ⟨hlne, hlhead, hllast⟩
    · obtain ⟨hJne, hJhead, hJlast⟩ := ih (by simp)
        (fun x hx => hok x (by simp [hx]))
      have hJne2 : joinNl (l2 :: rest2) ≠ [] := hJne
      refine ⟨by simp [joinNl, hlne], ?_, ?_⟩
      · intro c hc
        simp only [joinNl] at hc
        rcases l with _ | ⟨a, as⟩
        · exact absurd rfl hlne
        · simp at hc
          subst hc
          exact hlhead a rfl
      · intro c hc
        simp only [joinNl] at hc
        rw [List.getLast?_append_of_ne_nil _ (by simp [hJne2])] at hc
        rw [show ('\n' :: joinNl (l2 :: rest2)) = ['\n'] ++ joinNl (l2 :: rest2)
          from rfl, List.getLast?_append_of_ne_nil _ hJne2] at hc
        exact hJlast c hc

lemma splitNl_single : ∀ (l : Str), '\n' ∉ l → splitNl l = [l] := by
  intro l
  induction l with
  | nil => intro _; rfl
  | cons c cs ih =>
    intro hnl
    have hc : ¬ c = '\n' := by
      intro he
      exact hnl (by rw [he]; simp)
    simp only [splitNl, if_neg hc]
    rw [ih (fun hmem => hnl (by simp [hmem]))]

lemma splitNl_append_line : ∀ (L t : Str), '\n' ∉ L →
    splitNl (L ++ '\n' :: t) = L :: splitNl t := by
  intro L
  induction L with
  | nil =>
    intro t _
    simp [splitNl]
  | cons c L2 ih =>
    intro t hnl
    have hc : ¬ c = '\n' := by
      intro he
      exact hnl (by rw [he]; simp)
    simp only [List.cons_append, splitNl, if_neg hc, List.append_eq]
    rw [ih t (fun hmem => hnl (by simp [hmem]))]

lemma splitNl_joinNl : ∀ (ls : List Str), ls ≠ [] →
    (∀ l ∈ ls, '\n' ∉ l) → splitNl (joinNl ls) = ls := by
  intro ls
  induction ls with
  | nil => intro h _; exact absurd rfl h
  | cons l rest ih =>
    intro _ hall
    rcases rest with _ | ⟨l2, rest2⟩
    · exact splitNl_single l (hall l (by simp))
    · simp only [joinNl]
      rw [splitNl_append_line l _ (hall l (by simp))]
      rw [ih (by simp) (fun x hx => hall x (by simp [hx]))]

lemma replaceCrLf_through : ∀ (L t : Str), '\n' ∉ L →
    (∀ c, L.getLast? = some c → c ≠ '\x0d') →
    replaceCrLf (L ++ t) = L ++ replaceCrLf t := by
  intro L
  induction L with
  | nil => intro t _ _; rfl
  | cons c L2 ih =>
    intro t hnl hcr
    rcases L2 with _ | ⟨c2, L3⟩
    · rcases t with _ | ⟨c3, t2⟩
      · rfl
      · have hne : ¬ (c = '\x0d' ∧ c3 = '\n') := by
          rintro ⟨h1, _⟩
          exact hcr c rfl h1
        simp only [List.singleton_append, replaceCrLf, if_neg hne]
    · have hc2 : ¬ (c = '\x0d' ∧ c2 = '\n') := by
        rintro ⟨_, h2⟩
        exact hnl (by rw [h2]; simp)
      simp only [List.cons_append, replaceCrLf, if_neg hc2, List.append_eq]
      have hih := ih t (fun hmem => hnl (by simp [hmem]))
        (by
          intro c4 hc4
          apply hcr
          rw [List.getLast?_cons_cons]
          exact hc4)
      simp only [List.cons_append] at hih
      rw [hih]

lemma replaceCrLf_joinNl (ls : List Str) (hok : ∀ l ∈ ls, LineOk l) :
    replaceCrLf (joinNl ls) = joinNl ls := by
  induction ls with
  | nil => rfl
  | cons l rest ih =>
    obtain ⟨hlne, hlnl, _, hllast⟩ := hok l (by simp)
    have hlcr : ∀ c, l.getLast? = some c → c ≠ '\x0d' := by
      intro c hc he
      rw [he] at hc
      exact absurd (hllast _ hc) (by decide)
    rcases rest with _ | ⟨l2, rest2⟩
    · show replaceCrLf l = l
      have h2 := replaceCrLf_through l [] hlnl hlcr
      rw [List.append_nil] at h2
      rw [h2]
      simp [replaceCrLf]
    · simp only [joinNl]
      rw [replaceCrLf_through l _ hlnl hlcr]
      have hJ : replaceCrLf ('\n' :: joinNl (l2 :: rest2))
          = '\n' :: replaceCrLf (joinNl (l2 :: rest2)) := by
        rcases hj : joinNl (l2 :: rest2) with _ | ⟨c2, r⟩
        · rfl
        · have hne : ¬ ('\n' = '\x0d' ∧ c2 = '\n') := by
            rintro ⟨h1, _⟩
            exact absurd h1 (by decide)
          simp only [replaceCrLf, if_neg hne]
      rw [hJ, ih (fun x hx => hok x (by simp [hx]))]

/-- `_clean_content` output is a fixed point of the parser's content
post-processing. -/
lemma processContent_cleanContent (c : Str) :
    processContent (cleanContent c) = cleanContent c := by
  rcases hcl : cleanLines c with _ | ⟨l0, ls2⟩
  · rw [cleanContent_eq_join, hcl]
    rfl
  · have hok : ∀ l ∈ cleanLines c, LineOk l := cleanLines_ok c
    rw [hcl] at hok
    have hnonnil : (l0 :: ls2 : List Str) ≠ [] := by simp
    have hnl : ∀ l ∈ (l0 :: ls2 : List Str), '\n' ∉ l :=
      fun l hl => (hok l hl).2.1
    have hlne : ∀ l ∈ (l0 :: ls2 : List Str), l ≠ [] :=
      fun l hl => (hok l hl).1
    rw [cleanContent_eq_join, hcl]
    simp only [processContent]
    rw [replaceCrLf_joinNl _ hok, splitNl_joinNl _ hnonnil hnl]
    have hmap : (l0 :: ls2).map pyStrip = l0 :: ls2 := by
      rw [List.map_congr_left (fun l hl => pyStrip_eq_self
        ⟨(hok l hl).1, (hok l hl).2.2.1, (hok l hl).2.2.2⟩)]
      exact List.map_id _
    rw [hmap]
    exact pyStrip_eq_self (trimmed_joinNl _ hnonnil hok)

/-- `int(...)` of a serialized index round-trips. -/
lemma pyIntOfToken_intToStr (i : Int) :
    pyIntOfToken (some (intToStr i)) = some i := by
  by_cases hneg : i < 0
  · rw [intToStr_neg i hneg]
    obtain ⟨hne, hdig, hval⟩ := natToStr_spec (-i).toNat
    have hnomem : '.' ∉ ('-' :: natToStr (-i).toNat) := by
      intro hmem
      rcases List.mem_cons.mp hmem with h | h
      · exact absurd h (by decide)
      · have h2 := hdig '.' h
        simp [isDig] at h2
    have hnodot : ('-' :: natToStr (-i).toNat).contains '.' = false := by
      simp [List.contains]
      intro hmem
      have h2 := hdig '.' hmem
      simp [isDig] at h2
    simp only [pyIntOfToken]
    rw [if_neg (by rw [hnodot]; simp)]
    simp only [Option.some.injEq]
    rw [hval]
    omega
  · rw [intToStr_nonneg i hneg]
    obtain ⟨hne, hdig, hval⟩ := natToStr_spec i.toNat
    have hnomem : '.' ∉ natToStr i.toNat := by
      intro hmem
      have h2 := hdig '.' hmem
      simp [isDig] at h2
    rcases hds : natToStr i.toNat with _ | ⟨d, ds⟩
    · exact absurd hds hne
    have hd : d ≠ '-' := by
      intro he
      have h2 := hdig d (by rw [hds]; simp)
      rw [he] at h2
      simp [isDig] at h2
    have hnodot : (d :: ds).contains '.' = false := by
      rw [hds] at hnomem
      simp [List.contains]
      simpa using hnomem
    simp only [pyIntOfToken]
    rw [if_neg (by rw [hnodot]; simp)]
    split
    · rename_i heq
      rw [List.cons.injEq] at heq
      exact absurd heq.1.symm (fun h => hd h.symm)
    · simp only [Option.some.injEq]
      rw [← hds, hval]
      omega

/-- The block regex matches a composed entry at position 0, consuming
exactly its serialization. -/
lemma matchBlockAt_toSrt (e : Subtitle) (R : Str) (hg : GoodEntry e)
    (hR : TailOk R) :
    matchBlockAt (toSrt e ++ R)
      = some ⟨some (intToStr (e.index.getD 0)), e.start, e.end_,
          e.proprietary, cleanContent e.content, R⟩ := by
  obtain ⟨hs0, hs1, he0, he1, hp, hsafe⟩ := hg
  have hshape : toSrt e ++ R = intToStr (e.index.getD 0)
      ++ '\n' :: (formatTimestamp e.start ++ str " --> "
        ++ (formatTimestamp e.end_
          ++ ((if e.proprietary.isEmpty then [] else ' ' :: e.proprietary)
            ++ '\n' :: (cleanContent e.content ++ '\n' :: '\n' :: R)))) := by
    rw [toSrt_shape]
    simp
  have hscan : contentScan (cleanContent e.content ++ '\n' :: '\n' :: R)
      = some (cleanContent e.content, R) := by
    rw [cleanContent_eq_join]
    exact contentScanJoin (cleanLines e.content) R (cleanLines_ok _) hsafe hR
  have hmfts := matchFromTs_block (some (intToStr (e.index.getD 0)))
    e.start e.end_ e.proprietary (cleanContent e.content ++ '\n' :: '\n' :: R)
    (cleanContent e.content) R hs0 hs1 he0 he1 hp hscan
  have hfmthead : ∀ c, (formatTimestamp e.start ++ str " --> "
      ++ (formatTimestamp e.end_
        ++ ((if e.proprietary.isEmpty then [] else ' ' :: e.proprietary)
          ++ '\n' :: (cleanContent e.content ++ '\n' :: '\n' :: R)))).head?
      = some c → isPySpace c = false := by
    intro c hc
    rcases hfm : formatTimestamp e.start with _ | ⟨a, as⟩
    · exact absurd hfm (formatTimestamp_ne_nil _ hs0)
    rw [hfm] at hc
    simp at hc
    subst hc
    exact isDig_not_space (formatTimestamp_head_digit _ hs0 a (by rw [hfm]; rfl))
  have hidx : idxToken (intToStr (e.index.getD 0)
      ++ '\n' :: (formatTimestamp e.start ++ str " --> "
        ++ (formatTimestamp e.end_
          ++ ((if e.proprietary.isEmpty then [] else ' ' :: e.proprietary)
            ++ '\n' :: (cleanContent e.content ++ '\n' :: '\n' :: R)))))
      = some (intToStr (e.index.getD 0),
          '\n' :: (formatTimestamp e.start ++ str " --> "
            ++ (formatTimestamp e.end_
              ++ ((if e.proprietary.isEmpty then [] else ' ' :: e.proprietary)
                ++ '\n' :: (cleanContent e.content ++ '\n' :: '\n' :: R))))) := by
    apply idxToken_intToStr
    intro c hc
    simp at hc
    subst hc
    exact ⟨rfl, by decide⟩
  have hwhead : ∀ c, (intToStr (e.index.getD 0)
      ++ '\n' :: (formatTimestamp e.start ++ str " --> "
        ++ (formatTimestamp e.end_
          ++ ((if e.proprietary.isEmpty then [] else ' ' :: e.proprietary)
            ++ '\n' :: (cleanContent e.content ++ '\n' :: '\n' :: R))))).head?
        = some c → isPySpace c = false := by
    intro c hc
    rcases hi : intToStr (e.index.getD 0) with _ | ⟨a, as⟩
    · exact absurd hi (intToStr_ne_nil _)
    rw [hi] at hc
    simp at hc
    subst hc
    rcases intToStr_head _ a (by rw [hi]; rfl) with h | h
    · exact isDig_not_space h
    · subst h; rfl
  rw [hshape]
  simp only [matchBlockAt]
  rw [dropWhile_stop _ hwhead, hidx]
  have hw : List.takeWhile isPySpace ('\n' :: (formatTimestamp e.start
      ++ str " --> " ++ (formatTimestamp e.end_
        ++ ((if e.proprietary.isEmpty then [] else ' ' :: e.proprietary)
          ++ '\n' :: (cleanContent e.content ++ '\n' :: '\n' :: R)))))
      = ['\n'] := by
    rw [List.takeWhile_cons]
    simp only [show isPySpace '\n' = true from rfl, if_true]
    rw [takeWhile_head_false _ hfmthead]
  have hdw : List.dropWhile isPySpace ('\n' :: (formatTimestamp e.start
      ++ str " --> " ++ (formatTimestamp e.end_
        ++ ((if e.proprietary.isEmpty then [] else ' ' :: e.proprietary)
          ++ '\n' :: (cleanContent e.content ++ '\n' :: '\n' :: R)))))
      = formatTimestamp e.start ++ str " --> " ++ (formatTimestamp e.end_
        ++ ((if e.proprietary.isEmpty then [] else ' ' :: e.proprietary)
          ++ '\n' :: (cleanContent e.content ++ '\n' :: '\n' :: R))) := by
    rw [List.dropWhile_cons]
    simp only [show isPySpace '\n' = true from rfl, if_true]
    exact dropWhile_stop _ hfmthead
  dsimp only
  rw [hw, hdw]
  rw [if_pos (by simp)]
  simp only [List.append_assoc] at hmfts ⊢
  rw [hmfts]

lemma findMatch_of_matchBlockAt {s : Str} {b : SrtBlock}
    (h : matchBlockAt s = some b) : findMatch s = some (0, b) := by
  cases s with
  | nil => simp [findMatch, h]
  | cons c cs => simp [findMatch, h]

lemma srtCat_cons (e : Subtitle) (rest : List Subtitle) :
    srtCat (e :: rest) = toSrt e ++ srtCat rest := by
  simp [srtCat]

lemma toSrt_ne_nil (e : Subtitle) : toSrt e ≠ [] := by
  rw [toSrt_shape]
  rcases hi : intToStr (e.index.getD 0) with _ | ⟨a, as⟩
  · exact absurd hi (intToStr_ne_nil _)
  · simp

/-- The tail of a composed list satisfies `TailOk`. -/
lemma tailOk_srtCat (l : List Subtitle) (hg : ∀ e ∈ l, GoodEntry e) :
    TailOk (srtCat l) := by
  rcases l with _ | ⟨e, rest⟩
  · exact tailOk_nil
  · rw [srtCat_cons]
    exact tailOk_toSrt e _ (hg e (by simp)).1 (hg e (by simp)).2.1

/-- The parse loop consumes a composed good list entry by entry. -/
lemma parseLoop_srtCat : ∀ (l : List Subtitle) (fuel pos : Nat),
    (srtCat l).length < fuel → (∀ e ∈ l, GoodEntry e) →
    parseLoop false fuel (srtCat l) pos
      = some (.ok (l.map cleanEntry)) := by
  intro l
  induction l with
  | nil =>
    intro fuel pos hfuel _
    rcases fuel with _ | fuel
    · omega
    · rfl
  | cons e rest ih =>
    intro fuel pos hfuel hg
    rcases fuel with _ | fuel
    · omega
    have hge := hg e (by simp)
    have hblk := matchBlockAt_toSrt e (srtCat rest) hge
      (tailOk_srtCat rest (fun x hx => hg x (by simp [hx])))
    rw [srtCat_cons] at hfuel ⊢
    have hfm : findMatch (toSrt e ++ srtCat rest)
        = some (0, ⟨some (intToStr (e.index.getD 0)), e.start, e.end_,
            e.proprietary, cleanContent e.content, srtCat rest⟩) :=
      findMatch_of_matchBlockAt hblk
    have hlen : (srtCat rest).length < (toSrt e ++ srtCat rest).length := by
      rw [List.length_append]
      have := toSrt_ne_nil e
      have : 0 < (toSrt e).length := List.length_pos.mpr this
      omega
    have hrec := ih fuel (pos + ((toSrt e ++ srtCat rest).length
      - (srtCat rest).length)) (by omega) (fun x hx => hg x (by simp [hx]))
    simp only [parseLoop, hfm]
    rw [hrec]
    have hentry : entryOfBlock ⟨some (intToStr (e.index.getD 0)), e.start,
        e.end_, e.proprietary, cleanContent e.content, srtCat rest⟩
        = cleanEntry e := by
      simp only [entryOfBlock, cleanEntry, pyIntOfToken_intToStr,
        processContent_cleanContent]
    rw [hentry]
    simp

/-- C3 (amended): for entries with nonnegative whole-millisecond
timestamps, CR/LF-free proprietary fields, and content whose cleaned
lines never imitate a block start, `parse (compose l, reindex=False)`
succeeds with exactly one entry per input entry, preserving start/end
timestamps and proprietary data; each content comes back as its
`_clean_content` normal form (hence unchanged whenever it already is in
that form — the counterexample shows that for other contents, e.g. with
an interior blank line, round-tripping is not content-exact). -/
theorem parse_compose_roundtrip (l : List Subtitle)
    (hg : ∀ e ∈ l, GoodEntry e) :
    parse (composeNoReindex l) false = .ok (l.map cleanEntry)
      ∧ (l.map cleanEntry).length = l.length
      ∧ ∀ e ∈ l, (cleanEntry e).start = e.start
          ∧ (cleanEntry e).end_ = e.end_
          ∧ (cleanEntry e).proprietary = e.proprietary
          ∧ (cleanContent e.content = e.content →
              (cleanEntry e).content = e.content) := by
  refine ⟨?_, by simp, ?_⟩
  · show (parseLoop false ((srtCat l).length + 1) (srtCat l) 0).getD _ = _
    rw [parseLoop_srtCat l _ 0 (by omega) hg]
    rfl
  · intro e _
    exact ⟨rfl, rfl, rfl, fun h => h⟩

theorem parse_compose_roundtrip_witness :
    (∀ e ∈ [(⟨some 2, 0, 1000000, str "Hello there.", []⟩ : Subtitle)],
      GoodEntry e)
    ∧ parse (composeNoReindex
        [(⟨some 2, 0, 1000000, str "Hello there.", []⟩ : Subtitle)]) false
      = .ok ([(⟨some 2, 0, 1000000, str "Hello there.", []⟩ : Subtitle)].map
          cleanEntry) :=
  ⟨by decide, (parse_compose_roundtrip
    [(⟨some 2, 0, 1000000, str "Hello there.", []⟩ : Subtitle)]
    (by decide)).1⟩

/-! ## Fuel adequacy: every match consumes at least one character -/

lemma takeDigits_some_length {s d r : Str} (h : takeDigits s = some (d, r)) :
    r.length < s.length := by
  obtain ⟨hs, hd, _⟩ := takeDigits_decomp h
  have hne : d ≠ [] := by
    simp only [takeDigits] at h
    by_cases he : (s.takeWhile isDig).isEmpty
    · simp [he] at h
    · simp [he] at h
      obtain ⟨h1, _⟩ := h
      rw [← h1]
      intro h2
      rw [h2] at he
      simp at he
  rw [hs, List.length_append]
  rcases d with _ | ⟨d0, ds⟩
  · exact absurd rfl hne
  · simp

lemma parseTs_some_length {s : Str} {p : Time × Str}
    (h : parseTs s = some p) : p.2.length < s.length := by
  simp only [parseTs, Option.bind_eq_bind] at h
  cases htd1 : takeDigits s with
  | none => rw [htd1] at h; simp at h
  | some q1 =>
    obtain ⟨d1, r1⟩ := q1
    rw [htd1] at h
    simp only [Option.some_bind] at h
    have hl1 : r1.length < s.length := takeDigits_some_length htd1
    rcases r1 with _ | ⟨c1, r2⟩
    · simp at h
    by_cases hdel1 : isTsDelim c1
    case neg => simp [hdel1] at h
    simp only [hdel1, if_true] at h
    cases htd2 : takeDigits r2 with
    | none => rw [htd2] at h; simp at h
    | some q2 =>
      obtain ⟨d2, r3⟩ := q2
      rw [htd2] at h
      simp only [Option.some_bind] at h
      have hl2 : r3.length < r2.length := takeDigits_some_length htd2
      rcases r3 with _ | ⟨c2, r4⟩
      · simp at h
      by_cases hdel2 : isTsDelim c2
      case neg => simp [hdel2] at h
      simp only [hdel2, if_true] at h
      cases htd3 : takeDigits r4 with
      | none => rw [htd3] at h; simp at h
      | some q3 =>
        obtain ⟨d3, r5⟩ := q3
        rw [htd3] at h
        simp only [Option.some_bind] at h
        have hl3 : r5.length < r4.length := takeDigits_some_length htd3
        rcases r5 with _ | ⟨c3, r6⟩
        · simp at h
          rw [← h]
          simp at hl1 hl2 ⊢
          omega
        by_cases hdel3 : isTsDelim c3
        case neg =>
          simp only [hdel3, if_false] at h
          simp at h
          rw [← h]
          simp at hl1 hl2 hl3 ⊢
          omega
        simp only [hdel3, if_true] at h
        cases htd4 : takeDigits r6 with
        | none =>
          rw [htd4] at h
          simp at h
          rw [← h]
          simp at hl1 hl2 hl3 ⊢
          omega
        | some q4 =>
          obtain ⟨d4, r7⟩ := q4
          rw [htd4] at h
          have hl4 : r7.length < r6.length := takeDigits_some_length htd4
          simp only [Option.pure_def, Option.some.injEq] at h
          rw [← h]
          simp at hl1 hl2 hl3 ⊢
          omega

lemma eatEol_length {s r : Str} (h : eatEol s = some r) :
    r.length < s.length := by
  simp only [eatEol] at h
  by_cases h1 : s.head? = some '\n'
  · rw [if_pos h1] at h
    simp at h
    rcases s with _ | ⟨c, cs⟩
    · simp at h1
    · rw [← h]; simp
  · rw [if_neg h1] at h
    by_cases h2 : s.head? = some '\x0d' ∧ s.tail.head? = some '\n'
    · rw [if_pos h2] at h
      simp at h
      rcases s with _ | ⟨c, cs⟩
      · simp at h2
      rcases cs with _ | ⟨c2, cs2⟩
      · obtain ⟨_, hb⟩ := h2
        simp at hb
      · rw [← h]; simp; omega
    · rw [if_neg h2] at h
      simp at h

lemma termAt_length {s r : Str} (h : termAt s = some r) :
    r.length ≤ s.length := by
  rcases s with _ | ⟨c, cs⟩
  · simp only [termAt] at h
    simp at h
    rw [← h]
  · simp only [termAt] at h
    cases he1 : eatEol (c :: cs) with
    | none => rw [he1] at h; simp at h
    | some s1 =>
      rw [he1] at h
      dsimp only at h
      have hl1 : s1.length < (c :: cs).length := eatEol_length he1
      rcases s1 with _ | ⟨d, ds⟩
      · simp at h
        rw [h]
        simp
      · cases he2 : eatEol (d :: ds) with
        | some s2 =>
          rw [he2] at h
          dsimp only at h
          have hl2 : s2.length < (d :: ds).length := eatEol_length he2
          by_cases hf : finalAhead s2 = true
          · rw [if_pos hf] at h
            simp at h
            rw [← h]
            omega
          · rw [if_neg hf] at h
            simp at h
        | none =>
          rw [he2] at h
          dsimp only at h
          by_cases hf : (idxLineAhead (d :: ds) && finalAhead (d :: ds)) = true
          · rw [if_pos hf] at h
            simp at h
            rw [← h]
            omega
          · rw [if_neg hf] at h
            simp at h

lemma contentScan_length : ∀ {s : Str} {p : Str × Str},
    contentScan s = some p → p.2.length ≤ s.length := by
  intro s
  induction s with
  | nil =>
    intro p h
    simp only [contentScan] at h
    cases ht : termAt [] with
    | none => rw [ht] at h; simp at h
    | some r =>
      rw [ht] at h
      simp at h
      have := termAt_length ht
      rw [← h]
      simpa using this
  | cons c cs ih =>
    intro p h
    simp only [contentScan] at h
    cases ht : termAt (c :: cs) with
    | some r =>
      rw [ht] at h
      simp at h
      have := termAt_length ht
      rw [← h]
      simpa using this
    | none =>
      rw [ht] at h
      cases hcs : contentScan cs with
      | none => rw [hcs] at h; simp at h
      | some q =>
        rw [hcs] at h
        simp at h
        have := ih hcs
        rw [← h]
        simp
        omega

lemma eatArrow_length {s r : Str} (h : eatArrow s = some r) :
    r.length ≤ s.length := by
  simp only [eatArrow] at h
  split at h
  · split at h
    · simp only [Option.some.injEq] at h
      rw [← h]
      have h1 : (s.dropWhile (fun c => c = ' ')).length ≤ s.length :=
        (List.dropWhile_sublist _).length_le
      have h2 : ((((s.dropWhile (fun c => c = ' ')).tail.tail.dropWhile
          (fun c => c = ' ')).tail.dropWhile (fun c => c = ' '))).length
          ≤ (s.dropWhile (fun c => c = ' ')).length := by
        calc ((((s.dropWhile (fun c => c = ' ')).tail.tail.dropWhile
              (fun c => c = ' ')).tail.dropWhile (fun c => c = ' '))).length
            ≤ (((s.dropWhile (fun c => c = ' ')).tail.tail.dropWhile
              (fun c => c = ' ')).tail).length := (List.dropWhile_sublist _).length_le
          _ ≤ (((s.dropWhile (fun c => c = ' ')).tail.tail.dropWhile
              (fun c => c = ' '))).length := by
              rw [List.length_tail]; omega
          _ ≤ ((s.dropWhile (fun c => c = ' ')).tail.tail).length :=
              (List.dropWhile_sublist _).length_le
          _ ≤ (s.dropWhile (fun c => c = ' ')).length := by
              rw [List.length_tail, List.length_tail]; omega
      omega
    · simp at h
  · simp at h

lemma matchFromTs_length {ri : Option Str} {s : Str} {b : SrtBlock}
    (h : matchFromTs ri s = some b) : b.rest.length < s.length := by
  simp only [matchFromTs, Option.bind_eq_bind] at h
  cases hts1 : parseTs s with
  | none => rw [hts1] at h; simp at h
  | some p1 =>
    rw [hts1] at h
    simp only [Option.some_bind] at h
    have hl1 : p1.2.length < s.length := parseTs_some_length hts1
    obtain ⟨t1, r1⟩ := p1
    simp only at hl1
    cases hea : eatArrow r1 with
    | none => rw [hea] at h; simp at h
    | some r2 =>
      rw [hea] at h
      simp only [Option.some_bind] at h
      have hl2 : r2.length ≤ r1.length := eatArrow_length hea
      cases hts2 : parseTs r2 with
      | none => rw [hts2] at h; simp at h
      | some p2 =>
        rw [hts2] at h
        simp only [Option.some_bind] at h
        have hl3 : p2.2.length < r2.length := parseTs_some_length hts2
        obtain ⟨t2, r3⟩ := p2
        simp only at hl3
        dsimp only at h
        have hl4 : (if r3.head? = some ' ' then r3.tail else r3).length
            ≤ r3.length := by
          split
          · rw [List.length_tail]; omega
          · omega
        have hl5 : ((if r3.head? = some ' ' then r3.tail else r3).dropWhile
            (fun c => c ≠ '\x0d' && c ≠ '\n')).length
            ≤ (if r3.head? = some ' ' then r3.tail else r3).length :=
          (List.dropWhile_sublist _).length_le
        rcases hdw : (if r3.head? = some ' ' then r3.tail else r3).dropWhile
            (fun c => c ≠ '\x0d' && c ≠ '\n') with _ | ⟨a, as⟩
        · rw [hdw] at h
          dsimp only at h
          cases hcs : contentScan [] with
          | none => rw [hcs] at h; simp at h
          | some pc =>
            rw [hcs] at h
            have hl7 : pc.2.length ≤ ([] : Str).length := contentScan_length hcs
            simp only [Option.pure_def, Option.some_bind, Option.some.injEq] at h
            rw [← h]
            dsimp only
            simp only [List.length_nil, Nat.le_zero] at hl7
            omega
        · rw [hdw] at h
          dsimp only at h
          cases heol : eatEol (a :: as) with
          | none => rw [heol] at h; simp at h
          | some r6 =>
            rw [heol] at h
            simp only [Option.some_bind] at h
            have hl6 : r6.length < (a :: as).length := eatEol_length heol
            cases hcs : contentScan r6 with
            | none => rw [hcs] at h; simp at h
            | some pc =>
              rw [hcs] at h
              have hl7 : pc.2.length ≤ r6.length := contentScan_length hcs
              simp only [Option.pure_def, Option.some_bind, Option.some.injEq]
                at h
              rw [← h]
              dsimp only
              have hl8 : (a :: as).length ≤ (if r3.head? = some ' '
                  then r3.tail else r3).length := by
                rw [← hdw]
                exact (List.dropWhile_sublist _).length_le
              simp only [List.length_cons] at hl8 hl6
              omega

lemma idxToken_token_ne_nil {s t rem : Str} (h : idxToken s = some (t, rem)) :
    t ≠ [] := by
  simp only [idxToken] at h
  by_cases hd : s.head? = some '-'
  · rw [if_pos hd] at h
    cases hit : idxTokenTail s.tail with
    | none => rw [hit] at h; simp at h
    | some p =>
      rw [hit] at h
      simp at h
      rw [← h.1]
      simp
  · rw [if_neg hd] at h
    simp only [idxTokenTail] at h
    cases htd : takeDigits s with
    | none => rw [htd] at h; simp at h
    | some p =>
      obtain ⟨d1, r1⟩ := p
      rw [htd] at h
      dsimp only at h
      have hdne : d1 ≠ [] := by
        simp only [takeDigits] at htd
        by_cases he : (s.takeWhile isDig).isEmpty
        · simp [he] at htd
        · simp [he] at htd
          rw [← htd.1]
          intro h2
          rw [h2] at he
          simp at he
      split at h
      · simp at h
        rw [← h.1]
        simp [hdne]
      · simp at h
        rw [← h.1]
        exact hdne

lemma matchBlockAt_length {s : Str} {b : SrtBlock}
    (h : matchBlockAt s = some b) : b.rest.length < s.length := by
  simp only [matchBlockAt] at h
  have hdws : (s.dropWhile isPySpace).length ≤ s.length :=
    (List.dropWhile_sublist _).length_le
  cases hidx : idxToken (s.dropWhile isPySpace) with
  | none =>
    rw [hidx] at h
    dsimp only at h
    have := matchFromTs_length h
    omega
  | some p =>
    obtain ⟨tok, r1⟩ := p
    rw [hidx] at h
    dsimp only at h
    have htokne : tok ≠ [] := idxToken_token_ne_nil hidx
    have hdec : s.dropWhile isPySpace = tok ++ r1 := idxToken_decomp hidx
    have hr1 : r1.length < (s.dropWhile isPySpace).length := by
      rw [hdec, List.length_append]
      rcases tok with _ | ⟨t0, ts⟩
      · exact absurd rfl htokne
      · simp
    split at h
    · rename_i v bvia heq
      simp only [Option.some.injEq] at h
      subst h
      split at heq
      · have hl := matchFromTs_length heq
        have hl2 : (r1.dropWhile isPySpace).length ≤ r1.length :=
          (List.dropWhile_sublist _).length_le
        omega
      · simp at heq
    · have := matchFromTs_length h
      omega

lemma findMatch_length : ∀ {s : Str} {q : Nat} {b : SrtBlock},
    findMatch s = some (q, b) → b.rest.length < s.length := by
  intro s
  induction s with
  | nil =>
    intro q b h
    simp only [findMatch] at h
    cases hm : matchBlockAt [] with
    | none => rw [hm] at h; simp at h
    | some b2 =>
      rw [hm] at h
      simp at h
      have := matchBlockAt_length hm
      simp at this
  | cons c cs ih =>
    intro q b h
    simp only [findMatch] at h
    cases hm : matchBlockAt (c :: cs) with
    | some b2 =>
      rw [hm] at h
      simp at h
      have := matchBlockAt_length hm
      rw [← h.2]
      exact this
    | none =>
      rw [hm] at h
      cases hf : findMatch cs with
      | none => rw [hf] at h; simp at h
      | some p =>
        obtain ⟨q2, b2⟩ := p
        rw [hf] at h
        simp at h
        have := ih hf
        rw [← h.2]
        simp
        omega

/-- With fuel exceeding the text length the parse loop always returns
(each match consumes at least one character). -/
lemma parseLoop_adequate (ig : Bool) : ∀ (fuel : Nat) (s : Str) (pos : Nat),
    s.length < fuel → (parseLoop ig fuel s pos).isSome = true := by
  intro fuel
  induction fuel with
  | zero => intro s pos h; omega
  | succ fuel ih =>
    intro s pos h
    simp only [parseLoop]
    cases hfm : findMatch s with
    | none =>
      by_cases h1 : s.isEmpty
      · simp [h1]
      · simp only [if_neg h1]
        by_cases h2 : gapTolerated pos s = true
        · simp [h2]
        · simp only [if_neg h2]
          by_cases h3 : ig = true
          · simp [h3]
          · simp [h3]
    | some p =>
      obtain ⟨q, b⟩ := p
      have hlen : b.rest.length < s.length := findMatch_length hfm
      have hrec := ih b.rest (pos + (s.length - b.rest.length)) (by omega)
      dsimp only
      cases hrl : parseLoop ig fuel b.rest (pos + (s.length - b.rest.length)) with
      | none => rw [hrl] at hrec; simp at hrec
      | some res =>
        rcases res with e | l
        · by_cases h1 : q = 0
          · simp [h1, hrl]
          · simp only [if_neg h1]
            by_cases h2 : gapTolerated pos (s.take q) = true
            · simp [h2, hrl]
            · simp only [if_neg h2]
              by_cases h3 : ig = true
              · simp [h3, hrl]
              · simp [h3, hrl]
        · by_cases h1 : q = 0
          · simp [h1, hrl]
          · simp only [if_neg h1]
            by_cases h2 : gapTolerated pos (s.take q) = true
            · simp [h2, hrl]
            · simp only [if_neg h2]
              by_cases h3 : ig = true
              · simp [h3, hrl]
              · simp [h3, hrl]

lemma findMatch_offset_le : ∀ {s : Str} {q : Nat} {b : SrtBlock},
    findMatch s = some (q, b) → q ≤ s.length := by
  intro s
  induction s with
  | nil =>
    intro q b h
    simp only [findMatch] at h
    cases hm : matchBlockAt [] with
    | none => rw [hm] at h; simp at h
    | some b2 =>
      rw [hm] at h
      simp at h
      omega
  | cons c cs ih =>
    intro q b h
    simp only [findMatch] at h
    cases hm : matchBlockAt (c :: cs) with
    | some b2 =>
      rw [hm] at h
      simp at h
      omega
    | none =>
      rw [hm] at h
      cases hf : findMatch cs with
      | none => rw [hf] at h; simp at h
      | some p =>
        obtain ⟨q2, b2⟩ := p
        rw [hf] at h
        simp at h
        have := ih hf
        simp
        omega

/-- Every recorded gap is a genuine nonempty unmatched span. -/
lemma gapsLoop_wf : ∀ (fuel : Nat) (s : Str) (pos : Nat),
    ∀ g ∈ gapsLoop fuel s pos,
      g.expectedStart < g.actualStart
        ∧ g.actualStart = g.expectedStart + g.unmatchedContent.length := by
  intro fuel
  induction fuel with
  | zero => intro s pos g hg; simp [gapsLoop] at hg
  | succ fuel ih =>
    intro s pos g hg
    simp only [gapsLoop] at hg
    cases hfm : findMatch s with
    | none =>
      rw [hfm] at hg
      by_cases he : s.isEmpty
      · simp [he] at hg
      · rw [if_neg he] at hg
        simp at hg
        subst hg
        have : s.length ≠ 0 := by
          intro h0
          rw [List.isEmpty_iff] at he
          exact he (List.eq_nil_of_length_eq_zero h0)
        simp
        omega
    | some p =>
      obtain ⟨q, b⟩ := p
      rw [hfm] at hg
      dsimp only at hg
      rcases List.mem_append.mp hg with h | h
      · by_cases hq : q = 0
        · simp [hq] at h
        · rw [if_neg hq] at h
          simp at h
          subst h
          have hle : q ≤ s.length := findMatch_offset_le hfm
          simp
          constructor
          · omega
          · omega
      · exact ih _ _ g h

/-- The parse loop against its gap list: with errors ignored it always
succeeds; without, it succeeds exactly when every gap is tolerated, and
a reported error is one of the gaps, untolerated. -/
lemma parseLoop_char : ∀ (fuel : Nat) (s : Str) (pos : Nat), s.length < fuel →
    (∃ l, parseLoop true fuel s pos = some (.ok l))
    ∧ ((∃ l, parseLoop false fuel s pos = some (.ok l)) ↔
        ∀ g ∈ gapsLoop fuel s pos,
          gapTolerated g.expectedStart g.unmatchedContent = true)
    ∧ (∀ e, parseLoop false fuel s pos = some (.error e) →
        e ∈ gapsLoop fuel s pos
          ∧ gapTolerated e.expectedStart e.unmatchedContent = false) := by
  intro fuel
  induction fuel with
  | zero => intro s pos h; omega
  | succ fuel ih =>
    intro s pos hfuel
    cases hfm : findMatch s with
    | none =>
      by_cases he : s.isEmpty
      · refine ⟨⟨[], by simp [parseLoop, hfm, he]⟩, ?_, ?_⟩
        · simp [parseLoop, gapsLoop, hfm, he]
        · intro e hco
          simp [parseLoop, hfm, he] at hco
      · by_cases htol : gapTolerated pos s = true
        · refine ⟨⟨[], by simp [parseLoop, hfm, he, htol]⟩, ?_, ?_⟩
          · simp [parseLoop, gapsLoop, hfm, he, htol]
          · intro e hco
            simp [parseLoop, hfm, he, htol] at hco
        · refine ⟨⟨[], by simp [parseLoop, hfm, he, htol]⟩, ?_, ?_⟩
          · constructor
            · rintro ⟨l, hl⟩
              simp [parseLoop, hfm, he, htol] at hl
            · intro hall
              exfalso
              have := hall ⟨pos, pos + s.length, s⟩
                (by simp [gapsLoop, hfm, he])
              simp at this
              exact absurd this htol
          · intro e hco
            simp only [parseLoop, hfm] at hco
            rw [if_neg he, if_neg htol, if_neg (by simp)] at hco
            simp at hco
            rw [← hco]
            refine ⟨by simp [gapsLoop, hfm, he], by simpa using htol⟩
    | some p =>
      obtain ⟨q, b⟩ := p
      have hlen : b.rest.length < s.length := findMatch_length hfm
      obtain ⟨⟨lt, hlt⟩, hiffB, hC⟩ :=
        ih b.rest (pos + (s.length - b.rest.length)) (by omega)
      have hadq := parseLoop_adequate false fuel b.rest
        (pos + (s.length - b.rest.length)) (by omega)
      refine ⟨?_, ?_, ?_⟩
      · -- ignore-errors branch always succeeds
        refine ⟨entryOfBlock b :: lt, ?_⟩
        simp only [parseLoop, hfm]
        rw [hlt]
        by_cases h1 : q = 0
        · simp [h1]
        · rw [if_neg h1]
          by_cases h2 : gapTolerated pos (s.take q) = true
          · simp [h2]
          · rw [if_neg h2]
            simp
      · -- success iff every gap tolerated
        by_cases h1 : q = 0
        · have hg : gapsLoop (fuel + 1) s pos
              = gapsLoop fuel b.rest (pos + (s.length - b.rest.length)) := by
            simp [gapsLoop, hfm, h1]
          rw [hg]
          rw [← hiffB]
          cases hrl : parseLoop false fuel b.rest
              (pos + (s.length - b.rest.length)) with
          | none => rw [hrl] at hadq; simp at hadq
          | some res =>
            rcases res with e2 | l2
            · constructor
              · rintro ⟨l, hl⟩
                simp only [parseLoop, hfm] at hl
                rw [hrl] at hl
                simp [h1] at hl
              · rintro ⟨l, hl⟩
                exact absurd hl (by simp)
            · constructor
              · intro _
                exact ⟨l2, rfl⟩
              · intro _
                refine ⟨entryOfBlock b :: l2, ?_⟩
                simp only [parseLoop, hfm]
                rw [hrl]
                simp [h1]
        · by_cases h2 : gapTolerated pos (s.take q) = true
          · have hg : gapsLoop (fuel + 1) s pos
                = ⟨pos, pos + q, s.take q⟩
                  :: gapsLoop fuel b.rest (pos + (s.length - b.rest.length)) := by
              simp [gapsLoop, hfm, h1]
            rw [hg]
            constructor
            · rintro ⟨l, hl⟩
              intro g hgmem
              rcases List.mem_cons.mp hgmem with hh | hh
              · subst hh
                simpa using h2
              · apply (hiffB.mp ?_) g hh
                simp only [parseLoop, hfm] at hl
                rw [if_neg h1, if_pos h2] at hl
                cases hrl : parseLoop false fuel b.rest
                    (pos + (s.length - b.rest.length)) with
                | none => rw [hrl] at hadq; simp at hadq
                | some res =>
                  rw [hrl] at hl
                  rcases res with e2 | l2
                  · simp at hl
                  · exact ⟨l2, rfl⟩
            · intro hall
              have hrec := hiffB.mpr (fun g hg2 => hall g (by simp [hg2]))
              obtain ⟨l2, hl2⟩ := hrec
              refine ⟨entryOfBlock b :: l2, ?_⟩
              simp only [parseLoop, hfm]
              rw [if_neg h1, if_pos h2, hl2]
          · have hg : gapsLoop (fuel + 1) s pos
                = ⟨pos, pos + q, s.take q⟩
                  :: gapsLoop fuel b.rest (pos + (s.length - b.rest.length)) := by
              simp [gapsLoop, hfm, h1]
            rw [hg]
            constructor
            · rintro ⟨l, hl⟩
              simp only [parseLoop, hfm] at hl
              rw [if_neg h1, if_neg h2, if_neg (by simp)] at hl
              simp at hl
            · intro hall
              exfalso
              have := hall ⟨pos, pos + q, s.take q⟩ (by simp)
              simp at this
              exact absurd this h2
      · -- reported errors are untolerated gaps
        intro e hco
        simp only [parseLoop, hfm] at hco
        by_cases h1 : q = 0
        · rw [if_pos h1] at hco
          cases hrl : parseLoop false fuel b.rest
              (pos + (s.length - b.rest.length)) with
          | none => rw [hrl] at hadq; simp at hadq
          | some res =>
            rw [hrl] at hco
            rcases res with e2 | l2
            · simp at hco
              subst hco
              obtain ⟨hmem, htol⟩ := hC e2 hrl
              refine ⟨?_, htol⟩
              simp [gapsLoop, hfm, h1]
              exact hmem
            · simp at hco
        · rw [if_neg h1] at hco
          by_cases h2 : gapTolerated pos (s.take q) = true
          · rw [if_pos h2] at hco
            cases hrl : parseLoop false fuel b.rest
                (pos + (s.length - b.rest.length)) with
            | none => rw [hrl] at hadq; simp at hadq
            | some res =>
              rw [hrl] at hco
              rcases res with e2 | l2
              · simp at hco
                subst hco
                obtain ⟨hmem, htol⟩ := hC e2 hrl
                refine ⟨?_, htol⟩
                simp [gapsLoop, hfm, h1]
                exact Or.inr hmem
              · simp at hco
          · rw [if_neg h2, if_neg (by simp)] at hco
            simp at hco
            rw [← hco]
            refine ⟨by simp [gapsLoop, hfm, h1], by simpa using h2⟩

/-- C7: with `ignore_errors` the parse always succeeds; without it, it
succeeds exactly when every inter-match gap is tolerated (tolerable
only at offset 0 as leading whitespace or the BOM, by `gapTolerated`),
and an error is always one of the gaps — carrying its byte offsets and
the unmatched text, with `actual = expected + length` — that is not
tolerated. -/
theorem parse_continuity_characterization :
    (∀ s : Str, ∃ l, parse s true = .ok l)
    ∧ (∀ s : Str,
        ((∃ l, parse s false = .ok l) ↔
          ∀ g ∈ parseGaps s,
            gapTolerated g.expectedStart g.unmatchedContent = true)
        ∧ (∀ e, parse s false = .error e →
            e ∈ parseGaps s
              ∧ gapTolerated e.expectedStart e.unmatchedContent = false)
        ∧ (∀ g ∈ parseGaps s, g.expectedStart < g.actualStart
            ∧ g.actualStart = g.expectedStart + g.unmatchedContent.length)) := by
  constructor
  · intro s
    obtain ⟨⟨l, hl⟩, _, _⟩ := parseLoop_char (s.length + 1) s 0 (by omega)
    exact ⟨l, by simp [parse, hl]⟩
  · intro s
    obtain ⟨_, hiff, herr⟩ := parseLoop_char (s.length + 1) s 0 (by omega)
    have hadq := parseLoop_adequate false (s.length + 1) s 0 (by omega)
    refine ⟨?_, ?_, gapsLoop_wf _ s 0⟩
    · simp only [parseGaps]
      rw [← hiff]
      cases hrl : parseLoop false (s.length + 1) s 0 with
      | none => rw [hrl] at hadq; simp at hadq
      | some res =>
        rcases res with e | l
        · constructor
          · rintro ⟨l, hl⟩
            simp [parse, hrl] at hl
          · rintro ⟨l, hl⟩
            exact absurd hl (by simp)
        · constructor
          · intro _
            exact ⟨l, rfl⟩
          · intro _
            exact ⟨l, by simp [parse, hrl]⟩
    · simp only [parseGaps]
      intro e he
      cases hrl : parseLoop false (s.length + 1) s 0 with
      | none => rw [hrl] at hadq; simp at hadq
      | some res =>
        rcases res with e2 | l
        · have : e2 = e := by
            simp [parse, hrl] at he
            exact he
          subst this
          exact herr e2 hrl
        · simp [parse, hrl] at he

theorem parse_continuity_characterization_witness :
    (⟨0, 4, str "junk"⟩ : SRTErr) ∈ parseGaps (str "junk")
      ∧ gapTolerated 0 (str "junk") = false :=
  (parse_continuity_characterization.2 (str "junk")).2.1
    ⟨0, 4, str "junk"⟩ rfl
